import Mathlib

/-!
Verification development for the `pair-rtree` repository: a hybrid 2D/3D
R*-style R-tree over opaque key/value pairs.

The embedding models float64 coordinates by exact extended rationals
(`F` below): the source stores `math.Inf(±1)` sentinels in empty nodes and
builds query boxes with infinite z-extent, so the scalar type carries both
infinities.  All rectangle and tree operations are translated from
`2d/rtree.go` (= `unnamed/part_002`), `3d/rtree.go`, `2d/knn.go`,
`3d/knn.go` and the hybrid `rtree.go`.  Arithmetic cases that would produce
IEEE NaN (such as `+Inf - +Inf`) are mapped to `0`; they are unreachable for
the well-formed finite rectangles that every theorem below quantifies over.
-/

set_option allowUnsafeReducibility true in
attribute [semireducible] Rat.add Rat.sub Rat.mul Rat.inv

/-- Extended rationals: the value space of float64 coordinates used by the
trees (finite values plus the two infinities used as sentinels). -/
inductive F where
  | ninf : F
  | fin (q : ℚ) : F
  | pinf : F
deriving DecidableEq, Repr

namespace F

/-- Strict order, as float64 `<` behaves on non-NaN values. -/
def flt : F → F → Prop
  | ninf, ninf => False
  | ninf, _ => True
  | _, ninf => False
  | pinf, _ => False
  | fin _, pinf => True
  | fin a, fin b => a < b

/-- Non-strict order, as float64 `<=` behaves on non-NaN values. -/
def fle : F → F → Prop
  | ninf, _ => True
  | _, ninf => False
  | _, pinf => True
  | pinf, _ => False
  | fin a, fin b => a ≤ b

instance : DecidableRel flt := by
  intro a b; cases a <;> cases b <;> simp [flt] <;> infer_instance

instance : DecidableRel fle := by
  intro a b; cases a <;> cases b <;> simp [fle] <;> infer_instance

/-- `mathMin` from the source: `if a < b { return a }; return b`. -/
def mathMin (a b : F) : F := if flt a b then a else b

/-- `mathMax` from the source: `if a > b { return a }; return b`. -/
def mathMax (a b : F) : F := if flt b a then a else b

/-- float64 subtraction on non-NaN values; NaN-producing cases (∞ − ∞ of the
same sign) are mapped to 0 and are unreachable in this development. -/
def sub : F → F → F
  | fin a, fin b => fin (a - b)
  | pinf, pinf => fin 0
  | ninf, ninf => fin 0
  | pinf, _ => pinf
  | ninf, _ => ninf
  | fin _, pinf => ninf
  | fin _, ninf => pinf

/-- float64 addition on non-NaN values; NaN-producing cases map to 0. -/
def add : F → F → F
  | fin a, fin b => fin (a + b)
  | pinf, ninf => fin 0
  | ninf, pinf => fin 0
  | pinf, _ => pinf
  | _, pinf => pinf
  | ninf, _ => ninf
  | _, ninf => ninf

/-- float64 multiplication on non-NaN values; `0 · ∞` (NaN) maps to 0. -/
def mul : F → F → F
  | fin a, fin b => fin (a * b)
  | pinf, pinf => pinf
  | ninf, ninf => pinf
  | pinf, ninf => ninf
  | ninf, pinf => ninf
  | pinf, fin a => if a < 0 then ninf else if a = 0 then fin 0 else pinf
  | ninf, fin a => if a < 0 then pinf else if a = 0 then fin 0 else ninf
  | fin a, pinf => if a < 0 then ninf else if a = 0 then fin 0 else pinf
  | fin a, ninf => if a < 0 then pinf else if a = 0 then fin 0 else ninf

theorem fle_refl (a : F) : fle a a := by cases a <;> simp [fle]

theorem fle_trans {a b c : F} (h1 : fle a b) (h2 : fle b c) : fle a c := by
  cases a <;> cases b <;> cases c <;> simp_all [fle] <;> linarith

theorem fle_total (a b : F) : fle a b ∨ fle b a := by
  cases a <;> cases b <;> simp [fle] <;> exact le_total _ _

theorem fle_antisymm {a b : F} (h1 : fle a b) (h2 : fle b a) : a = b := by
  cases a <;> cases b <;> simp_all [fle]
  exact le_antisymm h1 h2

theorem flt_iff_not_fle {a b : F} : flt a b ↔ ¬ fle b a := by
  cases a <;> cases b <;> simp [flt, fle]

theorem fle_of_flt {a b : F} (h : flt a b) : fle a b := by
  cases a <;> cases b <;> simp_all [flt, fle] <;> linarith

theorem fle_of_not_flt {a b : F} (h : ¬ flt a b) : fle b a := by
  by_contra hba
  exact h (flt_iff_not_fle.2 hba)

theorem mathMin_fle_left (a b : F) : fle (mathMin a b) a := by
  unfold mathMin
  split
  · exact fle_refl a
  · next h => exact fle_of_not_flt h

theorem mathMin_fle_right (a b : F) : fle (mathMin a b) b := by
  unfold mathMin
  split
  · next h => exact fle_of_flt h
  · exact fle_refl b

theorem fle_mathMax_left (a b : F) : fle a (mathMax a b) := by
  unfold mathMax
  split
  · exact fle_refl a
  · next h => exact fle_of_not_flt h

theorem fle_mathMax_right (a b : F) : fle b (mathMax a b) := by
  unfold mathMax
  split
  · next h => exact fle_of_flt h
  · exact fle_refl b

theorem mathMin_comm (a b : F) : mathMin a b = mathMin b a := by
  unfold mathMin
  split <;> split <;> first
    | rfl
    | (next h1 h2 => exact fle_antisymm (fle_of_flt h1) (fle_of_flt h2))
    | (next h1 h2 => exact fle_antisymm (fle_of_not_flt h1) (fle_of_not_flt h2))

theorem mathMax_comm (a b : F) : mathMax a b = mathMax b a := by
  unfold mathMax
  split <;> split <;> first
    | rfl
    | (next h1 h2 => exact fle_antisymm (fle_of_flt h2) (fle_of_flt h1))
    | (next h1 h2 => exact fle_antisymm (fle_of_not_flt h2) (fle_of_not_flt h1))

theorem mathMin_eq_left {a b : F} (h : fle a b) : mathMin a b = a := by
  unfold mathMin
  split
  · rfl
  · next hn => exact fle_antisymm (fle_of_not_flt hn) h

theorem mathMax_eq_left {a b : F} (h : fle b a) : mathMax a b = a := by
  unfold mathMax
  split
  · rfl
  · next hn => exact fle_antisymm h (fle_of_not_flt hn)

theorem mathMin_idem (a : F) : mathMin a a = a := by
  unfold mathMin; split <;> rfl

theorem mathMax_idem (a : F) : mathMax a a = a := by
  unfold mathMax; split <;> rfl

theorem mathMin_pinf (a : F) : mathMin pinf a = a := by
  cases a <;> rfl

theorem mathMin_ninf (a : F) : mathMin ninf a = ninf := by
  cases a <;> rfl

theorem mathMax_ninf (a : F) : mathMax ninf a = a := by
  cases a <;> simp [mathMax, flt]

theorem mathMax_pinf (a : F) : mathMax pinf a = pinf := by
  cases a <;> simp [mathMax, flt]

theorem mathMin_pinf_right (a : F) : mathMin a pinf = a := by
  rw [mathMin_comm]; exact mathMin_pinf a

theorem mathMin_ninf_right (a : F) : mathMin a ninf = ninf := by
  rw [mathMin_comm]; exact mathMin_ninf a

theorem mathMax_ninf_right (a : F) : mathMax a ninf = a := by
  rw [mathMax_comm]; exact mathMax_ninf a

theorem mathMax_pinf_right (a : F) : mathMax a pinf = pinf := by
  rw [mathMax_comm]; exact mathMax_pinf a

theorem mathMin_fin (a b : ℚ) : mathMin (fin a) (fin b) = fin (min a b) := by
  unfold mathMin
  split
  · next h => simp [flt] at h; simp [min_eq_left h.le]
  · next h => simp [flt, not_lt] at h; simp [min_eq_right h]

theorem mathMax_fin (a b : ℚ) : mathMax (fin a) (fin b) = fin (max a b) := by
  unfold mathMax
  split
  · next h => simp [flt] at h; simp [max_eq_left h.le]
  · next h => simp [flt, not_lt] at h; simp [max_eq_right h]

theorem mathMin_assoc (a b c : F) : mathMin (mathMin a b) c = mathMin a (mathMin b c) := by
  cases a <;> cases b <;> cases c <;>
    simp [mathMin_pinf, mathMin_ninf, mathMin_pinf_right, mathMin_ninf_right,
      mathMin_fin, min_assoc]

theorem mathMax_assoc (a b c : F) : mathMax (mathMax a b) c = mathMax a (mathMax b c) := by
  cases a <;> cases b <;> cases c <;>
    simp [mathMax_pinf, mathMax_ninf, mathMax_pinf_right, mathMax_ninf_right,
      mathMax_fin, max_assoc]

theorem fin_fle_fin {a b : ℚ} : fle (fin a) (fin b) ↔ a ≤ b := Iff.rfl

theorem fin_flt_fin {a b : ℚ} : flt (fin a) (fin b) ↔ a < b := Iff.rfl

end F


/-! ## Rectangle algebra, translated from `3d/rtree.go` and `2d` (`unnamed/part_002`) -/

/-- The six bbox fields of `treeNode` in `3d/rtree.go`. -/
structure Rect3 where
  minX : F
  minY : F
  minZ : F
  maxX : F
  maxY : F
  maxZ : F
deriving DecidableEq, Repr

/-- The four bbox fields of `treeNode` in the 2D tree (`unnamed/part_002`). -/
structure Rect2 where
  minX : F
  minY : F
  maxX : F
  maxY : F
deriving DecidableEq, Repr

namespace Rect3

/-- `createNode` bbox sentinel: min = +Inf, max = -Inf. -/
def emptyR : Rect3 := ⟨F.pinf, F.pinf, F.pinf, F.ninf, F.ninf, F.ninf⟩

/-- `(a *treeNode) extend(b)`, functional version. -/
def extend (a b : Rect3) : Rect3 :=
  { minX := F.mathMin a.minX b.minX
    maxX := F.mathMax a.maxX b.maxX
    minY := F.mathMin a.minY b.minY
    maxY := F.mathMax a.maxY b.maxY
    minZ := F.mathMin a.minZ b.minZ
    maxZ := F.mathMax a.maxZ b.maxZ }

/-- `(a *treeNode) intersectionArea(b)`. -/
def intersectionArea (a b : Rect3) : F :=
  let minX := F.mathMax a.minX b.minX
  let maxX := F.mathMin a.maxX b.maxX
  let minY := F.mathMax a.minY b.minY
  let maxY := F.mathMin a.maxY b.maxY
  let minZ := F.mathMax a.minZ b.minZ
  let maxZ := F.mathMin a.maxZ b.maxZ
  F.mul (F.mul (F.mathMax (F.fin 0) (F.sub maxX minX)) (F.mathMax (F.fin 0) (F.sub maxY minY)))
    (F.mathMax (F.fin 0) (F.sub maxZ minZ))

/-- `(a *treeNode) area()`. -/
def area (a : Rect3) : F :=
  F.mul (F.mul (F.sub a.maxX a.minX) (F.sub a.maxY a.minY)) (F.sub a.maxZ a.minZ)

/-- `(a *treeNode) enlargedArea(b)`. -/
def enlargedArea (a b : Rect3) : F :=
  F.mul
    (F.mul (F.sub (F.mathMax b.maxX a.maxX) (F.mathMin b.minX a.minX))
      (F.sub (F.mathMax b.maxY a.maxY) (F.mathMin b.minY a.minY)))
    (F.sub (F.mathMax b.maxZ a.maxZ) (F.mathMin b.minZ a.minZ))

/-- `(a *treeNode) intersects(b)`. -/
def intersects (a b : Rect3) : Prop :=
  F.fle b.minX a.maxX ∧ F.fle b.minY a.maxY ∧ F.fle b.minZ a.maxZ ∧
  F.fle a.minX b.maxX ∧ F.fle a.minY b.maxY ∧ F.fle a.minZ b.maxZ

instance : ∀ a b : Rect3, Decidable (intersects a b) := by
  intro a b; unfold intersects; infer_instance

/-- `(a *treeNode) contains(b)`. -/
def containsR (a b : Rect3) : Prop :=
  F.fle a.minX b.minX ∧ F.fle a.minY b.minY ∧ F.fle a.minZ b.minZ ∧
  F.fle b.maxX a.maxX ∧ F.fle b.maxY a.maxY ∧ F.fle b.maxZ a.maxZ

instance : ∀ a b : Rect3, Decidable (containsR a b) := by
  intro a b; unfold containsR; infer_instance

/-- `(a *treeNode) margin()`. -/
def margin (a : Rect3) : F :=
  F.add (F.add (F.sub a.maxX a.minX) (F.sub a.maxY a.minY)) (F.sub a.maxZ a.minZ)

/-- Axis accessor used by `sortNodes` / `leafByDim` / `nodeByDim` (dim 1 = x,
2 = y, 3 = z; any other dim sorts by `false`, modelled as a constant key). -/
def axisMin (dim : ℕ) (a : Rect3) : F :=
  if dim = 1 then a.minX else if dim = 2 then a.minY else if dim = 3 then a.minZ else F.fin 0

end Rect3

namespace Rect2

/-- `createNode` bbox sentinel in the 2D tree. -/
def emptyR : Rect2 := ⟨F.pinf, F.pinf, F.ninf, F.ninf⟩

/-- 2D `extend`. -/
def extend (a b : Rect2) : Rect2 :=
  { minX := F.mathMin a.minX b.minX
    maxX := F.mathMax a.maxX b.maxX
    minY := F.mathMin a.minY b.minY
    maxY := F.mathMax a.maxY b.maxY }

/-- 2D `intersectionArea`. -/
def intersectionArea (a b : Rect2) : F :=
  let minX := F.mathMax a.minX b.minX
  let maxX := F.mathMin a.maxX b.maxX
  let minY := F.mathMax a.minY b.minY
  let maxY := F.mathMin a.maxY b.maxY
  F.mul (F.mathMax (F.fin 0) (F.sub maxX minX)) (F.mathMax (F.fin 0) (F.sub maxY minY))

/-- 2D `area`. -/
def area (a : Rect2) : F :=
  F.mul (F.sub a.maxX a.minX) (F.sub a.maxY a.minY)

/-- 2D `enlargedArea`. -/
def enlargedArea (a b : Rect2) : F :=
  F.mul (F.sub (F.mathMax b.maxX a.maxX) (F.mathMin b.minX a.minX))
    (F.sub (F.mathMax b.maxY a.maxY) (F.mathMin b.minY a.minY))

/-- 2D `intersects`. -/
def intersects (a b : Rect2) : Prop :=
  F.fle b.minX a.maxX ∧ F.fle b.minY a.maxY ∧
  F.fle a.minX b.maxX ∧ F.fle a.minY b.maxY

instance : ∀ a b : Rect2, Decidable (intersects a b) := by
  intro a b; unfold intersects; infer_instance

/-- 2D `contains`. -/
def containsR (a b : Rect2) : Prop :=
  F.fle a.minX b.minX ∧ F.fle a.minY b.minY ∧
  F.fle b.maxX a.maxX ∧ F.fle b.maxY a.maxY

instance : ∀ a b : Rect2, Decidable (containsR a b) := by
  intro a b; unfold containsR; infer_instance

/-- 2D `margin`. -/
def margin (a : Rect2) : F :=
  F.add (F.sub a.maxX a.minX) (F.sub a.maxY a.minY)

/-- Axis accessor for the 2D sorts (dim 1 = x, otherwise y, per
`leafByDim.Less` / `nodeByDim.Less`). -/
def axisMin (dim : ℕ) (a : Rect2) : F :=
  if dim = 1 then a.minX else a.minY

end Rect2

/-! ## Items

An `Item` models a `pair.Pair` as the core sees it: an opaque handle
(`pair.Pointer()`, compared by identity) together with its decoded geobin
geometry: a dimensionality tag and a min/max rectangle of finite float64
coordinates.  For a 2D object only the x/y extent is meaningful. -/

structure Item where
  ptr : ℕ
  dims : ℕ
  minX : ℚ
  minY : ℚ
  minZ : ℚ
  maxX : ℚ
  maxY : ℚ
  maxZ : ℚ
deriving DecidableEq, Repr

/-- `fillBBox` in `3d/rtree.go`: the item's decoded rectangle, with the
identity transformer (the hybrid's trees are built with `Transformer: nil`). -/
def Item.rect3 (it : Item) : Rect3 :=
  ⟨F.fin it.minX, F.fin it.minY, F.fin it.minZ, F.fin it.maxX, F.fin it.maxY, F.fin it.maxZ⟩

/-- `fillBBox` in the 2D tree: only the x/y extent of the decoded rectangle. -/
def Item.rect2 (it : Item) : Rect2 :=
  ⟨F.fin it.minX, F.fin it.minY, F.fin it.maxX, F.fin it.maxY⟩

/-- A decoded geometry is well-formed when min ≤ max on each axis. -/
def Item.wf (it : Item) : Prop :=
  it.minX ≤ it.maxX ∧ it.minY ≤ it.maxY ∧ it.minZ ≤ it.maxZ

instance : ∀ it : Item, Decidable it.wf := by
  intro it; unfold Item.wf; infer_instance

/-! ## Generic tree layer

The 2D tree (`unnamed/part_002`) and the 3D tree (`3d/rtree.go`) are
textually the same algorithm over their respective rectangle algebras; the
repository maintains two copies.  We factor the copy through a record of
box operations and instantiate it twice.  `GNode` is the typed rendering of
`treeNode` (children are `unsafe.Pointer`s interpreted through the `leaf`
flag; here a leaf holds `Item`s, an inner node holds nodes). -/

/-- The box operations a `D`-dimensional tree needs (each field is the
corresponding source function; `axes` is the dimension). -/
structure BoxOps (β : Type) where
  emptyR : β
  extend : β → β → β
  area : β → F
  margin : β → F
  interArea : β → β → F
  enlargedArea : β → β → F
  intersectsB : β → β → Bool
  containsB : β → β → Bool
  axisMin : ℕ → β → F
  itemBox : Item → β
  axes : ℕ

/-- `treeNode`: bbox + height + leaf flag + children. -/
inductive GNode (β : Type) where
  | leafN : β → ℤ → List Item → GNode β
  | innerN : β → ℤ → List (GNode β) → GNode β

/-- The node's bbox fields. -/
def GNode.bboxOf {β : Type} : GNode β → β
  | .leafN b _ _ => b
  | .innerN b _ _ => b

/-- The node's height field. -/
def GNode.hgt {β : Type} : GNode β → ℤ
  | .leafN _ h _ => h
  | .innerN _ h _ => h

/-- `len(node.children)`. -/
def GNode.childCount {β : Type} : GNode β → ℕ
  | .leafN _ _ its => its.length
  | .innerN _ _ cs => cs.length

mutual
/-- The items stored below a node, in DFS (scan) order. -/
def gItems {β : Type} : GNode β → List Item
  | .leafN _ _ its => its
  | .innerN _ _ cs => gItemsL cs
/-- Items below a list of children, left to right. -/
def gItemsL {β : Type} : List (GNode β) → List Item
  | [] => []
  | c :: cs => gItems c ++ gItemsL cs
end

mutual
/-- `count(node)` from the source. -/
def gCount {β : Type} : GNode β → ℕ
  | .leafN _ _ its => its.length
  | .innerN _ _ cs => gCountL cs
/-- Sum of counts over children. -/
def gCountL {β : Type} : List (GNode β) → ℕ
  | [] => 0
  | c :: cs => gCount c + gCountL cs
end

mutual
/-- Structural size measure (for termination arguments). -/
def gSize {β : Type} : GNode β → ℕ
  | .leafN _ _ its => 1 + its.length
  | .innerN _ _ cs => 1 + gSizeL cs
/-- Size of a list of nodes. -/
def gSizeL {β : Type} : List (GNode β) → ℕ
  | [] => 0
  | c :: cs => gSize c + gSizeL cs
end

/-- `distBBox` accumulation: fold `extend` from the `createNode` sentinel
over a list of boxes. -/
def calcList {β : Type} (O : BoxOps β) (boxes : List β) : β :=
  boxes.foldl O.extend O.emptyR

/-- `calcBBox(node)`: the exact union of the node's children boxes. -/
def calcNodeBox {β : Type} (O : BoxOps β) : GNode β → β
  | .leafN _ _ its => calcList O (its.map O.itemBox)
  | .innerN _ _ cs => calcList O (cs.map GNode.bboxOf)

instance decFleKey {γ : Type} (key : γ → F) :
    DecidableRel (fun a b : γ => F.fle (key a) (key b)) := by
  intro a b; infer_instance

/-- `sortNodes(node, dim)`: sort children by a min-coordinate key.  The
source uses Go's (unstable) `sort.Sort` with strict `<` on the key; any
sorted-by-key order is produced.  We use insertion sort; on distinct keys
the two agree. -/
def sortByKey {γ : Type} (key : γ → F) (l : List γ) : List γ :=
  l.insertionSort (fun a b => F.fle (key a) (key b))

/-- `allDistMargin(node, m, M, dim)` without the sort (the caller sorts
first): the margin-sum statistic of the sorted children list.  The second
source loop extends `leftBBox` but adds the fixed `rightBBox` margin, so it
contributes `(M−2m) · margin(rightBBox)`. -/
def distMarginVal {β γ : Type} (O : BoxOps β) (boxOf : γ → β) (m M : ℕ) (l : List γ) : F :=
  let leftBBox := calcList O ((l.take m).map boxOf)
  let rightBBox := calcList O (((l.drop (M - m)).take m).map boxOf)
  let mid := (l.drop m).take (M - m - m)
  let step1 := mid.foldl
    (fun (acc : β × F) c =>
      let lb := O.extend acc.1 (boxOf c)
      (lb, F.add acc.2 (O.margin lb)))
    (leftBBox, F.add (O.margin leftBBox) (O.margin rightBBox))
  mid.foldl (fun (acc : F) _ => F.add acc (O.margin rightBBox)) step1.2

/-- 2D `chooseSplitAxis`: compare x/y margin statistics, leave the children
sorted by the winning axis (`allDistMargin` sorts as a side effect; after
both calls the list is y-sorted, and an x win re-sorts by x). -/
def chooseSplitAxis2sort {β γ : Type} (O : BoxOps β) (boxOf : γ → β) (m M : ℕ)
    (l : List γ) : List γ :=
  let lx := sortByKey (fun c => O.axisMin 1 (boxOf c)) l
  let mx := distMarginVal O boxOf m M lx
  let ly := sortByKey (fun c => O.axisMin 2 (boxOf c)) lx
  let my := distMarginVal O boxOf m M ly
  if F.flt mx my then sortByKey (fun c => O.axisMin 1 (boxOf c)) ly else ly

/-- 3D `chooseSplitAxis`: three-way margin comparison; after the three
`allDistMargin` calls the list is z-sorted and a win by x or y re-sorts. -/
def chooseSplitAxis3sort {β γ : Type} (O : BoxOps β) (boxOf : γ → β) (m M : ℕ)
    (l : List γ) : List γ :=
  let lx := sortByKey (fun c => O.axisMin 1 (boxOf c)) l
  let mx := distMarginVal O boxOf m M lx
  let ly := sortByKey (fun c => O.axisMin 2 (boxOf c)) lx
  let my := distMarginVal O boxOf m M ly
  let lz := sortByKey (fun c => O.axisMin 3 (boxOf c)) ly
  let mz := distMarginVal O boxOf m M lz
  if F.flt mx my then
    (if F.flt mx mz then sortByKey (fun c => O.axisMin 1 (boxOf c)) lz else lz)
  else
    (if F.flt my mz then sortByKey (fun c => O.axisMin 2 (boxOf c)) lz else lz)

/-- Dispatch on the tree's dimension. -/
def chooseSplitAxisSort {β γ : Type} (O : BoxOps β) (boxOf : γ → β) (m M : ℕ)
    (l : List γ) : List γ :=
  if O.axes = 2 then chooseSplitAxis2sort O boxOf m M l
  else chooseSplitAxis3sort O boxOf m M l

/-- One candidate split's left bbox: `distBBox(node, 0, i)`. -/
def splitLeftBox {β γ : Type} (O : BoxOps β) (boxOf : γ → β) (i : ℕ) (l : List γ) : β :=
  calcList O ((l.take i).map boxOf)

/-- One candidate split's right bbox: `distBBox(node, i, M)`. -/
def splitRightBox {β γ : Type} (O : BoxOps β) (boxOf : γ → β) (i M : ℕ) (l : List γ) : β :=
  calcList O (((l.drop i).take (M - i)).map boxOf)

/-- `chooseSplitIndex(node, m, M)`: scan i ∈ [m, M−m] with running
(minOverlap, minArea, index); `index` starts at 0. -/
def chooseSplitIndexList {β γ : Type} (O : BoxOps β) (boxOf : γ → β) (m M : ℕ)
    (l : List γ) : ℕ :=
  let st := (List.range' m (M - m - m + 1)).foldl
    (fun (st : F × F × ℕ) i =>
      let minOverlap := st.1
      let minArea := st.2.1
      let bbox1 := splitLeftBox O boxOf i l
      let bbox2 := splitRightBox O boxOf i M l
      let overlap := O.interArea bbox1 bbox2
      let area := F.add (O.area bbox1) (O.area bbox2)
      if F.flt overlap minOverlap then
        (overlap, (if F.flt area minArea then area else minArea), i)
      else if overlap = minOverlap then
        (if F.flt area minArea then (minOverlap, area, i) else st)
      else st)
    (F.pinf, F.pinf, 0)
  st.2.2

/-- The child-selection loop of `chooseSubtree` at one node: running
(minEnlargement, minArea, targetNode); if no comparison ever fires the
source falls back to the first child. -/
def chooseChildIdx {β : Type} (O : BoxOps β) (bbox : β) (cs : List (GNode β)) : ℕ :=
  let st := cs.foldl
    (fun (st : F × F × Option ℕ × ℕ) c =>
      let minEnlargement := st.1
      let minArea := st.2.1
      let tgt := st.2.2.1
      let i := st.2.2.2
      let area := O.area c.bboxOf
      let enlargement := F.sub (O.enlargedArea bbox c.bboxOf) area
      if F.flt enlargement minEnlargement then
        (enlargement, (if F.flt area minArea then area else minArea), some i, i + 1)
      else if enlargement = minEnlargement then
        (if F.flt area minArea then (minEnlargement, area, some i, i + 1)
         else (minEnlargement, minArea, tgt, i + 1))
      else (minEnlargement, minArea, tgt, i + 1))
    (F.pinf, F.pinf, none, 0)
  match st.2.2.1 with
  | some i => i
  | none => 0

theorem gSizeL_mem_le {β : Type} {c : GNode β} :
    ∀ {cs : List (GNode β)}, c ∈ cs → gSize c ≤ gSizeL cs := by
  intro cs h
  induction cs with
  | nil => cases h
  | cons d ds ih =>
    rw [gSizeL]
    rcases List.mem_cons.1 h with rfl | hm
    · exact Nat.le_add_right _ _
    · exact (ih hm).trans (Nat.le_add_left _ _)

theorem gSize_lt_inner {β : Type} {c : GNode β} {cs : List (GNode β)}
    (h : c ∈ cs) (b : β) (ht : ℤ) : gSize c < gSize (GNode.innerN b ht cs) := by
  rw [gSize]
  have := gSizeL_mem_le h
  omega

/-- `insert`/`chooseSubtree`/`split` fused into one recursion: descend by
`chooseSubtree`'s child choice to the leaf (for an item insert the level
cut-off `len(path)-1 == level` coincides with reaching a leaf, by I3),
append the item, then split on overflow while walking back up
(`for level >= 0 { if len > maxEntries { split } else break }`) and extend
the bboxes of the non-split tail of the path (`adjustParentBBoxes`).
Returns either the updated node or the two halves of a split. -/
def gInsertRec {β : Type} (O : BoxOps β) (maxE minE : ℕ) (ibox : β) (it : Item) :
    GNode β → GNode β ⊕ (GNode β × GNode β)
  | .leafN b h its =>
    let its2 := its ++ [it]
    if its2.length > maxE then
      let sorted := chooseSplitAxisSort O O.itemBox minE its2.length its2
      let idx := chooseSplitIndexList O O.itemBox minE sorted.length sorted
      let ls := sorted.take idx
      let rs := sorted.drop idx
      .inr (GNode.leafN (calcList O (ls.map O.itemBox)) h ls,
            GNode.leafN (calcList O (rs.map O.itemBox)) h rs)
    else
      .inl (.leafN (O.extend b ibox) h its2)
  | .innerN b h cs =>
    match hc : cs.get? (chooseChildIdx O ibox cs) with
    | none => .inl (.innerN b h cs)
    | some c =>
      match gInsertRec O maxE minE ibox it c with
      | .inl c2 =>
        .inl (.innerN (O.extend b ibox) h (cs.set (chooseChildIdx O ibox cs) c2))
      | .inr (c1, c2) =>
        let cs2 := cs.set (chooseChildIdx O ibox cs) c1 ++ [c2]
        if cs2.length > maxE then
          let sorted := chooseSplitAxisSort O GNode.bboxOf minE cs2.length cs2
          let idx := chooseSplitIndexList O GNode.bboxOf minE sorted.length sorted
          let ls := sorted.take idx
          let rs := sorted.drop idx
          .inr (.innerN (calcList O (ls.map GNode.bboxOf)) h ls,
                .innerN (calcList O (rs.map GNode.bboxOf)) h rs)
        else
          .inl (.innerN (O.extend b ibox) h cs2)
termination_by n => gSize n
decreasing_by
  exact gSize_lt_inner (List.get?_mem hc) _ _

/-- The tree record: `maxEntries`, `minEntries`, root. -/
structure GTree (β : Type) where
  maxEntries : ℕ
  minEntries : ℕ
  data : GNode β

/-- `m = max(2, ceil(0.4 · M))`. -/
def minEntriesOf (M : ℕ) : ℕ := max 2 (Nat.ceil ((2 * M : ℚ) / 5))

/-- `New()`: default `MaxEntries` 9, `maxEntries = max(4, ·)`,
`minEntries = max(2, ceil(0.4 maxEntries))`, empty leaf root. -/
def newTree {β : Type} (O : BoxOps β) : GTree β :=
  { maxEntries := max 4 9
    minEntries := minEntriesOf (max 4 9)
    data := GNode.leafN O.emptyR 1 [] }

/-- `splitRoot`: fresh root one level higher over the two halves. -/
def splitRootT {β : Type} (O : BoxOps β) (n1 n2 : GNode β) : GNode β :=
  GNode.innerN (calcList O [n1.bboxOf, n2.bboxOf]) (n1.hgt + 1) [n1, n2]

/-- `Insert(item)`. -/
def insertT {β : Type} (O : BoxOps β) (t : GTree β) (it : Item) : GTree β :=
  match gInsertRec O t.maxEntries t.minEntries (O.itemBox it) it t.data with
  | .inl n => { t with data := n }
  | .inr (a, b) => { t with data := splitRootT O a b }

mutual
/-- `removeBBox`'s traversal + `condense`, functionally: descend into inner
nodes whose bbox contains the item's bbox (leaf children are always scanned
by `findItem`); on a hit, erase the first matching slot and walk back up
recomputing bboxes and unlinking nodes that became empty.  `none` = item
not found (tree unchanged); `some none` = subtree became empty and is
unlinked; `some (some n)` = updated subtree. -/
def gRemove {β : Type} (O : BoxOps β) (p : ℕ) (bbox : β) :
    GNode β → Option (Option (GNode β))
  | .leafN _ h its =>
    match its.findIdx? (fun x => x.ptr == p) with
    | none => none
    | some i =>
      let its2 := its.eraseIdx i
      if its2.length = 0 then some none
      else some (some (.leafN (calcList O (its2.map O.itemBox)) h its2))
  | .innerN b h cs =>
    if O.containsB b bbox then
      match gRemoveL O p bbox cs with
      | none => none
      | some cs2 =>
        if cs2.length = 0 then some none
        else some (some (.innerN (calcList O (cs2.map GNode.bboxOf)) h cs2))
    else none
/-- Try the children left to right (the source's `go down` to `children[0]`
then `go right` over siblings). -/
def gRemoveL {β : Type} (O : BoxOps β) (p : ℕ) (bbox : β) :
    List (GNode β) → Option (List (GNode β))
  | [] => none
  | c :: cs =>
    match gRemove O p bbox c with
    | some none => some cs
    | some (some c2) => some (c2 :: cs)
    | none =>
      match gRemoveL O p bbox cs with
      | some cs2 => some (c :: cs2)
      | none => none
end

/-- `Remove(item)`: decode the item's rectangle and run the traversal;
if the root ends up with no children the tree is cleared to a fresh empty
leaf root (`tr.data = createNode(nil)`). -/
def removeT {β : Type} (O : BoxOps β) (t : GTree β) (it : Item) : GTree β :=
  match gRemove O it.ptr (O.itemBox it) t.data with
  | none => t
  | some none => { t with data := GNode.leafN O.emptyR 1 [] }
  | some (some n) => { t with data := n }

mutual
/-- `search(node, bbox, iter)` with an always-true callback, collecting the
delivered items in callback order. -/
def gSearch {β : Type} (O : BoxOps β) (q : β) : GNode β → List Item
  | .leafN _ _ its => its.filter (fun it => O.intersectsB q (O.itemBox it))
  | .innerN _ _ cs => gSearchL O q cs
/-- Children left to right, descending only into intersecting bboxes. -/
def gSearchL {β : Type} (O : BoxOps β) (q : β) : List (GNode β) → List Item
  | [] => []
  | c :: cs =>
    (if O.intersectsB q c.bboxOf then gSearch O q c else []) ++ gSearchL O q cs
end

/-- `searchBBox`: early-out if the root bbox does not intersect the query. -/
def searchT {β : Type} (O : BoxOps β) (t : GTree β) (q : β) : List Item :=
  if O.intersectsB t.data.bboxOf q then gSearch O q t.data else []

/-- `Count()`. -/
def countT {β : Type} (t : GTree β) : ℕ := gCount t.data

/-! ## KNN (`2d/knn.go`, `3d/knn.go`)

`queueItem` is a tagged entry (node or item) with its box distance.  The
priority queue (`tinyqueue`, an external collaborator of this repository)
is modelled from the spec as a min-heap: popping returns an entry of
minimal `dist` (we take the first such; ties between equal distances are
implementation-defined in the heap and do not affect any claim below).
The source loop "push children of the current node; deliver items while
the top is an item; pop the next node" performs exactly the pop/push
sequence of `knnGo`. -/

/-- A `queueItem`: a node or an item, with its `dist`. -/
inductive QEntry (β : Type) where
  | nodeE : GNode β → F → QEntry β
  | itemE : Item → F → QEntry β

/-- The entry's priority. -/
def QEntry.dist {β : Type} : QEntry β → F
  | .nodeE _ d => d
  | .itemE _ d => d

/-- Pop an entry of minimal dist (first of the minima). -/
def popMinQ {β : Type} : List (QEntry β) → Option (QEntry β × List (QEntry β))
  | [] => none
  | e :: es =>
    match popMinQ es with
    | none => some (e, [])
    | some (m, rest) =>
      if F.fle e.dist m.dist then some (e, es) else some (m, e :: rest)

/-- Pushing one node's children: items of a leaf, nodes of an inner node,
each keyed by `boxDist` to the query point (`pD` on node bboxes, `pDI` on
item rectangles). -/
def childEntries {β : Type} (pD : β → F) (pDI : Item → F) : GNode β → List (QEntry β)
  | .leafN _ _ its => its.map (fun it => .itemE it (pDI it))
  | .innerN _ _ cs => cs.map (fun c => .nodeE c (pD c.bboxOf))

/-- Entry size for the termination measure. -/
def eSize {β : Type} : QEntry β → ℕ
  | .nodeE n _ => gSize n
  | .itemE _ _ => 1

/-- Total queue size. -/
def qMeasure {β : Type} (q : List (QEntry β)) : ℕ := (q.map eSize).sum

theorem popMinQ_none {β : Type} {q : List (QEntry β)} (h : popMinQ q = none) : q = [] := by
  cases q with
  | nil => rfl
  | cons e es =>
    rw [popMinQ] at h
    rcases he : popMinQ es with _ | p <;> rw [he] at h <;> simp at h
    split at h <;> simp at h

theorem popMinQ_perm {β : Type} :
    ∀ {q : List (QEntry β)} {e : QEntry β} {rest : List (QEntry β)},
      popMinQ q = some (e, rest) → List.Perm q (e :: rest) := by
  intro q
  induction q with
  | nil => intro e rest h; simp [popMinQ] at h
  | cons a as ih =>
    intro e rest h
    rw [popMinQ] at h
    cases he : popMinQ as with
    | none =>
      rw [he] at h
      simp only [Option.some.injEq, Prod.mk.injEq] at h
      obtain ⟨h1, h2⟩ := h
      subst h1
      subst h2
      rw [popMinQ_none he]
    | some p =>
      obtain ⟨m, mrest⟩ := p
      rw [he] at h
      by_cases hle : F.fle a.dist m.dist
      · simp only [hle, if_true, Option.some.injEq, Prod.mk.injEq] at h
        obtain ⟨h1, h2⟩ := h
        subst h1
        subst h2
        exact List.Perm.refl _
      · simp only [hle, if_false, Option.some.injEq, Prod.mk.injEq] at h
        obtain ⟨h1, h2⟩ := h
        subst h1
        subst h2
        exact (List.Perm.cons a (ih he)).trans (List.Perm.swap _ _ _)

theorem gSizeL_eq_sum_map {β : Type} :
    ∀ cs : List (GNode β), gSizeL cs = (cs.map gSize).sum := by
  intro cs
  induction cs with
  | nil => rfl
  | cons c cs ih => rw [gSizeL, ih]; simp

theorem qMeasure_childEntries {β : Type} (pD : β → F) (pDI : Item → F) (n : GNode β) :
    qMeasure (childEntries pD pDI n) + 1 = gSize n := by
  cases n with
  | leafN b h its =>
    rw [childEntries, qMeasure, gSize]
    simp [eSize]
    induction its with
    | nil => simp
    | cons i is ih => simp_all [eSize]; omega
  | innerN b h cs =>
    rw [childEntries, qMeasure, gSize, gSizeL_eq_sum_map, List.map_map]
    have hm : eSize ∘ (fun c : GNode β => QEntry.nodeE c (pD c.bboxOf)) =
        (gSize : GNode β → ℕ) := by
      funext c
      rfl
    rw [hm]
    omega

theorem qMeasure_perm {β : Type} {q r : List (QEntry β)} (h : List.Perm q r) :
    qMeasure q = qMeasure r := by
  unfold qMeasure
  exact List.Perm.sum_eq (List.Perm.map eSize h)

theorem qMeasure_append {β : Type} (q r : List (QEntry β)) :
    qMeasure (q ++ r) = qMeasure q + qMeasure r := by
  unfold qMeasure; simp

/-- The KNN loop with an always-continue callback, collecting the delivered
(item, dist) pairs in callback order. -/
def knnGo {β : Type} (pD : β → F) (pDI : Item → F) (q : List (QEntry β)) :
    List (Item × F) :=
  match hp : popMinQ q with
  | none => []
  | some (e, rest) =>
    match e with
    | .itemE it d => (it, d) :: knnGo pD pDI rest
    | .nodeE n _ => knnGo pD pDI (rest ++ childEntries pD pDI n)
termination_by qMeasure q
decreasing_by
  · rw [qMeasure_perm (popMinQ_perm hp)]
    have hc : qMeasure (QEntry.itemE it d :: rest) = 1 + qMeasure rest := by
      rw [qMeasure, qMeasure]
      simp [eSize]
    omega
  · rw [qMeasure_perm (popMinQ_perm hp)]
    have ha := qMeasure_append rest (childEntries pD pDI n)
    have hb := qMeasure_childEntries pD pDI n
    have hc : ∀ d, qMeasure (QEntry.nodeE n d :: rest) = gSize n + qMeasure rest := by
      intro d
      rw [qMeasure, qMeasure]
      simp [eSize]
    rw [hc]
    omega

/-- `KNN(x, y[, z], iter)` with an always-true callback: seed the queue with
the root's children, then run the loop. -/
def knnCollect {β : Type} (pD : β → F) (pDI : Item → F) (t : GTree β) :
    List (Item × F) :=
  knnGo pD pDI (childEntries pD pDI t.data)

/-- `axisDist(k, min, max)` from `knn.go`. -/
def axisDistF (k lo hi : F) : F :=
  if F.flt k lo then F.sub lo k
  else if F.fle k hi then F.fin 0
  else F.sub k hi

/-- `boxDist(x, y, z, min, max)` from `3d/knn.go`. -/
def boxDist3 (x y z : F) (r : Rect3) : F :=
  let dx := axisDistF x r.minX r.maxX
  let dy := axisDistF y r.minY r.maxY
  let dz := axisDistF z r.minZ r.maxZ
  F.add (F.add (F.mul dx dx) (F.mul dy dy)) (F.mul dz dz)

/-- `boxDist(x, y, min, max)` from `2d/knn.go`. -/
def boxDist2 (x y : F) (r : Rect2) : F :=
  let dx := axisDistF x r.minX r.maxX
  let dy := axisDistF y r.minY r.maxY
  F.add (F.mul dx dx) (F.mul dy dy)

/-! ## The two trees and the hybrid facade (`rtree.go`) -/

/-- The 3D tree's box operations (`3d/rtree.go`), with the identity
transformer. -/
def ops3 : BoxOps Rect3 :=
  { emptyR := Rect3.emptyR
    extend := Rect3.extend
    area := Rect3.area
    margin := Rect3.margin
    interArea := Rect3.intersectionArea
    enlargedArea := Rect3.enlargedArea
    intersectsB := fun a b => decide (Rect3.intersects a b)
    containsB := fun a b => decide (Rect3.containsR a b)
    axisMin := Rect3.axisMin
    itemBox := Item.rect3
    axes := 3 }

/-- The 2D tree's box operations (`unnamed/part_002`). -/
def ops2 : BoxOps Rect2 :=
  { emptyR := Rect2.emptyR
    extend := Rect2.extend
    area := Rect2.area
    margin := Rect2.margin
    interArea := Rect2.intersectionArea
    enlargedArea := Rect2.enlargedArea
    intersectsB := fun a b => decide (Rect2.intersects a b)
    containsB := fun a b => decide (Rect2.containsR a b)
    axisMin := Rect2.axisMin
    itemBox := Item.rect2
    axes := 2 }

/-- The hybrid `RTree`: one 2D tree and one 3D tree. -/
structure Hybrid where
  tr2 : GTree Rect2
  tr3 : GTree Rect3

/-- `New()`. -/
def hybridNew : Hybrid := ⟨newTree ops2, newTree ops3⟩

/-- Hybrid `Insert`: dispatch on the item's dimensionality tag. -/
def Hybrid.insertH (h : Hybrid) (it : Item) : Hybrid :=
  if it.dims = 2 then { h with tr2 := insertT ops2 h.tr2 it }
  else { h with tr3 := insertT ops3 h.tr3 it }

/-- Hybrid `Remove`: same dispatch. -/
def Hybrid.removeH (h : Hybrid) (it : Item) : Hybrid :=
  if it.dims = 2 then { h with tr2 := removeT ops2 h.tr2 it }
  else { h with tr3 := removeT ops3 h.tr3 it }

/-- Hybrid `Count`. -/
def Hybrid.countH (h : Hybrid) : ℕ := countT h.tr2 + countT h.tr3

/-- `geobin.Make3DRect(min[0], min[1], -Inf, max[0], max[1], +Inf)`: the 2D
query widened to 3D with an unbounded z range. -/
def widenQuery (q : Item) : Rect3 :=
  ⟨F.fin q.minX, F.fin q.minY, F.ninf, F.fin q.maxX, F.fin q.maxY, F.pinf⟩

/-- Hybrid `Search` with an always-true callback, collecting the callback
sequence: a 2D query runs on the 2D tree and then, widened, on the 3D tree;
a 3D query runs on the 2D tree only when its z range covers 0, then on the
3D tree. -/
def Hybrid.searchH (h : Hybrid) (q : Item) : List Item :=
  if q.dims = 2 then
    searchT ops2 h.tr2 q.rect2 ++ searchT ops3 h.tr3 (widenQuery q)
  else
    (if q.minZ ≤ 0 ∧ 0 ≤ q.maxZ then searchT ops2 h.tr2 q.rect2 else []) ++
      searchT ops3 h.tr3 q.rect3

/-- `isEmpty(which)`: the source traverses until it meets a level-0 item;
the outcome is whether the tree stores no item. -/
def isEmptyT {β : Type} (t : GTree β) : Bool := (gItems t.data).isEmpty

/-- 3D `Bounds()`: the zero sentinel on an empty root, else the root bbox. -/
def bounds3T (t : GTree Rect3) : (F × F × F) × (F × F × F) :=
  if t.data.childCount = 0 then
    ((F.fin 0, F.fin 0, F.fin 0), (F.fin 0, F.fin 0, F.fin 0))
  else
    ((t.data.bboxOf.minX, t.data.bboxOf.minY, t.data.bboxOf.minZ),
     (t.data.bboxOf.maxX, t.data.bboxOf.maxY, t.data.bboxOf.maxZ))

/-- 2D `Bounds()`. -/
def bounds2T (t : GTree Rect2) : (F × F) × (F × F) :=
  if t.data.childCount = 0 then ((F.fin 0, F.fin 0), (F.fin 0, F.fin 0))
  else
    ((t.data.bboxOf.minX, t.data.bboxOf.minY),
     (t.data.bboxOf.maxX, t.data.bboxOf.maxY))

/-- Hybrid `Bounds()`, following `rtree.go` line by line: zero/zero when both
trees are empty; the 2D bounds with z = 0 when only the 2D tree is
populated; the 3D bounds when only the 3D tree is populated; otherwise the
3D bounds with x/y widened by the 2D bounds (z untouched). -/
def Hybrid.boundsH (h : Hybrid) : (F × F × F) × (F × F × F) :=
  let empty2 := isEmptyT h.tr2
  let empty3 := isEmptyT h.tr3
  if empty2 && empty3 then
    ((F.fin 0, F.fin 0, F.fin 0), (F.fin 0, F.fin 0, F.fin 0))
  else if empty3 then
    let b2 := bounds2T h.tr2
    ((b2.1.1, b2.1.2, F.fin 0), (b2.2.1, b2.2.2, F.fin 0))
  else if empty2 then bounds3T h.tr3
  else
    let b := bounds3T h.tr3
    let b2 := bounds2T h.tr2
    (((if F.flt b2.1.1 b.1.1 then b2.1.1 else b.1.1),
      (if F.flt b2.1.2 b.1.2.1 then b2.1.2 else b.1.2.1),
      b.1.2.2),
     ((if F.flt b.2.1 b2.2.1 then b2.2.1 else b.2.1),
      (if F.flt b.2.2.1 b2.2.2 then b2.2.2 else b.2.2.1),
      b.2.2.2))

/-- 3D `KNN` (always-true callback), as a collected stream. -/
def knn3T (t : GTree Rect3) (x y z : ℚ) : List (Item × F) :=
  knnCollect (boxDist3 (F.fin x) (F.fin y) (F.fin z))
    (fun it => boxDist3 (F.fin x) (F.fin y) (F.fin z) it.rect3) t

/-- 2D `KNN` (always-true callback). -/
def knn2T (t : GTree Rect2) (x y : ℚ) : List (Item × F) :=
  knnCollect (boxDist2 (F.fin x) (F.fin y))
    (fun it => boxDist2 (F.fin x) (F.fin y) it.rect2) t

/-- The hybrid KNN consumer's merge: whenever both queues are non-empty pop
the smaller-dist head (the 3D queue wins ties: `queues[0][0].dist <
queues[1][0].dist` picks the 2D queue only on strict <); when one producer
is done and its queue drained, the remainder of the other queue is
delivered in order. -/
def mergeKNN : List (Item × F) → List (Item × F) → List (Item × F)
  | [], ys => ys
  | x :: xs, [] => x :: xs
  | x :: xs, y :: ys =>
    if F.flt x.2 y.2 then x :: mergeKNN xs (y :: ys)
    else y :: mergeKNN (x :: xs) ys
termination_by xs ys => xs.length + ys.length

/-- Hybrid `KNN` with an always-true callback: the sequence the mux
delivers.  (The producer/consumer protocol itself is modelled as a
transition system below; with a callback that never exits, the delivered
sequence is the two-stream merge.) -/
def Hybrid.knnH (h : Hybrid) (px py pz : ℚ) : List (Item × F) :=
  let empty2 := isEmptyT h.tr2
  let empty3 := isEmptyT h.tr3
  if empty2 && empty3 then []
  else if empty3 then knn2T h.tr2 px py
  else if empty2 then knn3T h.tr3 px py pz
  else mergeKNN (knn2T h.tr2 px py) (knn3T h.tr3 px py pz)

/-- A mutation of the hybrid index. -/
inductive HOp where
  | insOp : Item → HOp
  | remOp : Item → HOp

/-- Apply one operation. -/
def applyOp (h : Hybrid) : HOp → Hybrid
  | .insOp it => h.insertH it
  | .remOp it => h.removeH it

/-- The state after a sequence of inserts and removes, starting from
`New()`. -/
def applyOps (ops : List HOp) : Hybrid := ops.foldl applyOp hybridNew

/-- The items an operation sequence inserts. -/
def insItems : List HOp → List Item
  | [] => []
  | .insOp it :: ops => it :: insItems ops
  | .remOp _ :: ops => insItems ops

/-! ## Laws of the rectangle algebra -/

/-- Finiteness of a scalar (no infinity). -/
def F.isFin : F → Prop
  | F.fin _ => True
  | _ => False

instance : ∀ a : F, Decidable a.isFin := by
  intro a; cases a <;> simp [F.isFin] <;> infer_instance

theorem F.isFin_iff {a : F} : a.isFin ↔ ∃ q, a = F.fin q := by
  cases a <;> simp [F.isFin]

theorem F.mathMin_cases (a b : F) : F.mathMin a b = a ∨ F.mathMin a b = b := by
  unfold F.mathMin
  split
  · exact Or.inl rfl
  · exact Or.inr rfl

theorem F.mathMax_cases (a b : F) : F.mathMax a b = a ∨ F.mathMax a b = b := by
  unfold F.mathMax
  split
  · exact Or.inl rfl
  · exact Or.inr rfl

theorem F.isFin_mathMin {a b : F} (ha : a.isFin) (hb : b.isFin) : (F.mathMin a b).isFin := by
  rcases F.mathMin_cases a b with h | h <;> rw [h] <;> assumption

theorem F.isFin_mathMax {a b : F} (ha : a.isFin) (hb : b.isFin) : (F.mathMax a b).isFin := by
  rcases F.mathMax_cases a b with h | h <;> rw [h] <;> assumption

theorem F.isFin_sub {a b : F} (ha : a.isFin) (hb : b.isFin) : (F.sub a b).isFin := by
  cases a <;> cases b <;> simp_all [F.isFin, F.sub]

theorem F.isFin_add {a b : F} (ha : a.isFin) (hb : b.isFin) : (F.add a b).isFin := by
  cases a <;> cases b <;> simp_all [F.isFin, F.add]

theorem F.isFin_mul {a b : F} (ha : a.isFin) (hb : b.isFin) : (F.mul a b).isFin := by
  cases a <;> cases b <;> simp_all [F.isFin, F.mul]

theorem F.flt_pinf_of_isFin {a : F} (ha : a.isFin) : F.flt a F.pinf := by
  cases a <;> simp_all [F.isFin, F.flt]

/-- All six coordinates finite. -/
def Rect3.finR (r : Rect3) : Prop :=
  r.minX.isFin ∧ r.minY.isFin ∧ r.minZ.isFin ∧
  r.maxX.isFin ∧ r.maxY.isFin ∧ r.maxZ.isFin

/-- All four coordinates finite. -/
def Rect2.finR (r : Rect2) : Prop :=
  r.minX.isFin ∧ r.minY.isFin ∧ r.maxX.isFin ∧ r.maxY.isFin

/-- The laws of a box algebra that the generic tree proofs consume, together
with the finiteness predicate tying it to float64 values. -/
structure BoxLaws {β : Type} (O : BoxOps β) where
  finB : β → Prop
  fin_item : ∀ it : Item, finB (O.itemBox it)
  fin_extend : ∀ a b, finB a → finB b → finB (O.extend a b)
  extend_comm : ∀ a b, O.extend a b = O.extend b a
  extend_assoc : ∀ a b c, O.extend (O.extend a b) c = O.extend a (O.extend b c)
  extend_empty : ∀ a, O.extend O.emptyR a = a
  contains_refl : ∀ a, O.containsB a a = true
  contains_trans : ∀ a b c, O.containsB a b = true → O.containsB b c = true →
    O.containsB a c = true
  contains_extend : ∀ a b, O.containsB (O.extend a b) b = true
  intersects_mono : ∀ a b q, O.containsB a b = true → O.intersectsB q b = true →
    O.intersectsB q a = true
  intersects_symm : ∀ a b, O.intersectsB a b = O.intersectsB b a
  interArea_fin : ∀ a b, finB a → finB b → (O.interArea a b).isFin
  area_fin : ∀ a, finB a → (O.area a).isFin
  enlargedArea_fin : ∀ a b, finB a → finB b → (O.enlargedArea a b).isFin

theorem rect3_extend_comm (a b : Rect3) : Rect3.extend a b = Rect3.extend b a := by
  simp [Rect3.extend, F.mathMin_comm, F.mathMax_comm]

theorem rect3_extend_assoc (a b c : Rect3) :
    Rect3.extend (Rect3.extend a b) c = Rect3.extend a (Rect3.extend b c) := by
  simp [Rect3.extend, F.mathMin_assoc, F.mathMax_assoc]

theorem rect3_extend_empty (a : Rect3) : Rect3.extend Rect3.emptyR a = a := by
  simp [Rect3.extend, Rect3.emptyR, F.mathMin_pinf, F.mathMax_ninf]

theorem rect3_contains_refl (a : Rect3) : Rect3.containsR a a := by
  refine ⟨F.fle_refl _, F.fle_refl _, F.fle_refl _, F.fle_refl _, F.fle_refl _, F.fle_refl _⟩

theorem rect3_contains_trans {a b c : Rect3} (h1 : Rect3.containsR a b)
    (h2 : Rect3.containsR b c) : Rect3.containsR a c := by
  obtain ⟨p1, p2, p3, p4, p5, p6⟩ := h1
  obtain ⟨q1, q2, q3, q4, q5, q6⟩ := h2
  exact ⟨F.fle_trans p1 q1, F.fle_trans p2 q2, F.fle_trans p3 q3,
    F.fle_trans q4 p4, F.fle_trans q5 p5, F.fle_trans q6 p6⟩

theorem rect3_contains_extend (a b : Rect3) : Rect3.containsR (Rect3.extend a b) b := by
  exact ⟨F.mathMin_fle_right _ _, F.mathMin_fle_right _ _, F.mathMin_fle_right _ _,
    F.fle_mathMax_right _ _, F.fle_mathMax_right _ _, F.fle_mathMax_right _ _⟩

theorem rect3_intersects_mono {a b q : Rect3} (hc : Rect3.containsR a b)
    (hi : Rect3.intersects q b) : Rect3.intersects q a := by
  obtain ⟨p1, p2, p3, p4, p5, p6⟩ := hc
  obtain ⟨i1, i2, i3, i4, i5, i6⟩ := hi
  exact ⟨F.fle_trans p1 i1, F.fle_trans p2 i2, F.fle_trans p3 i3,
    F.fle_trans i4 p4, F.fle_trans i5 p5, F.fle_trans i6 p6⟩

theorem rect3_finR_extend {a b : Rect3} (ha : a.finR) (hb : b.finR) :
    (Rect3.extend a b).finR := by
  obtain ⟨a1, a2, a3, a4, a5, a6⟩ := ha
  obtain ⟨b1, b2, b3, b4, b5, b6⟩ := hb
  exact ⟨F.isFin_mathMin a1 b1, F.isFin_mathMin a2 b2, F.isFin_mathMin a3 b3,
    F.isFin_mathMax a4 b4, F.isFin_mathMax a5 b5, F.isFin_mathMax a6 b6⟩

theorem rect3_interArea_fin {a b : Rect3} (ha : a.finR) (hb : b.finR) :
    (Rect3.intersectionArea a b).isFin := by
  obtain ⟨a1, a2, a3, a4, a5, a6⟩ := ha
  obtain ⟨b1, b2, b3, b4, b5, b6⟩ := hb
  unfold Rect3.intersectionArea
  refine F.isFin_mul (F.isFin_mul ?_ ?_) ?_ <;>
    exact F.isFin_mathMax trivial (F.isFin_sub (F.isFin_mathMin (by assumption) (by assumption))
      (F.isFin_mathMax (by assumption) (by assumption)))

theorem rect3_area_fin {a : Rect3} (ha : a.finR) : (Rect3.area a).isFin := by
  obtain ⟨a1, a2, a3, a4, a5, a6⟩ := ha
  exact F.isFin_mul (F.isFin_mul (F.isFin_sub a4 a1) (F.isFin_sub a5 a2)) (F.isFin_sub a6 a3)

theorem rect3_enlargedArea_fin {a b : Rect3} (ha : a.finR) (hb : b.finR) :
    (Rect3.enlargedArea a b).isFin := by
  obtain ⟨a1, a2, a3, a4, a5, a6⟩ := ha
  obtain ⟨b1, b2, b3, b4, b5, b6⟩ := hb
  exact F.isFin_mul
    (F.isFin_mul (F.isFin_sub (F.isFin_mathMax b4 a4) (F.isFin_mathMin b1 a1))
      (F.isFin_sub (F.isFin_mathMax b5 a5) (F.isFin_mathMin b2 a2)))
    (F.isFin_sub (F.isFin_mathMax b6 a6) (F.isFin_mathMin b3 a3))

/-- The 3D box algebra satisfies the laws. -/
def laws3 : BoxLaws ops3 :=
  { finB := Rect3.finR
    fin_item := fun it => by
      exact ⟨trivial, trivial, trivial, trivial, trivial, trivial⟩
    fin_extend := fun a b ha hb => rect3_finR_extend ha hb
    extend_comm := rect3_extend_comm
    extend_assoc := rect3_extend_assoc
    extend_empty := rect3_extend_empty
    contains_refl := fun a => by
      simp only [ops3, decide_eq_true_eq]
      exact rect3_contains_refl a
    contains_trans := fun a b c h1 h2 => by
      simp only [ops3, decide_eq_true_eq] at h1 h2 ⊢
      exact rect3_contains_trans h1 h2
    contains_extend := fun a b => by
      simp only [ops3, decide_eq_true_eq]
      exact rect3_contains_extend a b
    intersects_mono := fun a b q h1 h2 => by
      simp only [ops3, decide_eq_true_eq] at h1 h2 ⊢
      exact rect3_intersects_mono h1 h2
    intersects_symm := fun a b => by
      simp only [ops3]
      rw [decide_eq_decide]
      constructor
      · rintro ⟨i1, i2, i3, i4, i5, i6⟩
        exact ⟨i4, i5, i6, i1, i2, i3⟩
      · rintro ⟨i1, i2, i3, i4, i5, i6⟩
        exact ⟨i4, i5, i6, i1, i2, i3⟩
    interArea_fin := fun a b ha hb => rect3_interArea_fin ha hb
    area_fin := fun a ha => rect3_area_fin ha
    enlargedArea_fin := fun a b ha hb => rect3_enlargedArea_fin ha hb }

theorem rect2_extend_comm (a b : Rect2) : Rect2.extend a b = Rect2.extend b a := by
  simp [Rect2.extend, F.mathMin_comm, F.mathMax_comm]

theorem rect2_extend_assoc (a b c : Rect2) :
    Rect2.extend (Rect2.extend a b) c = Rect2.extend a (Rect2.extend b c) := by
  simp [Rect2.extend, F.mathMin_assoc, F.mathMax_assoc]

theorem rect2_extend_empty (a : Rect2) : Rect2.extend Rect2.emptyR a = a := by
  simp [Rect2.extend, Rect2.emptyR, F.mathMin_pinf, F.mathMax_ninf]

theorem rect2_contains_refl (a : Rect2) : Rect2.containsR a a :=
  ⟨F.fle_refl _, F.fle_refl _, F.fle_refl _, F.fle_refl _⟩

theorem rect2_contains_trans {a b c : Rect2} (h1 : Rect2.containsR a b)
    (h2 : Rect2.containsR b c) : Rect2.containsR a c := by
  obtain ⟨p1, p2, p3, p4⟩ := h1
  obtain ⟨q1, q2, q3, q4⟩ := h2
  exact ⟨F.fle_trans p1 q1, F.fle_trans p2 q2, F.fle_trans q3 p3, F.fle_trans q4 p4⟩

theorem rect2_contains_extend (a b : Rect2) : Rect2.containsR (Rect2.extend a b) b :=
  ⟨F.mathMin_fle_right _ _, F.mathMin_fle_right _ _,
   F.fle_mathMax_right _ _, F.fle_mathMax_right _ _⟩

theorem rect2_intersects_mono {a b q : Rect2} (hc : Rect2.containsR a b)
    (hi : Rect2.intersects q b) : Rect2.intersects q a := by
  obtain ⟨p1, p2, p3, p4⟩ := hc
  obtain ⟨i1, i2, i3, i4⟩ := hi
  exact ⟨F.fle_trans p1 i1, F.fle_trans p2 i2, F.fle_trans i3 p3, F.fle_trans i4 p4⟩

theorem rect2_finR_extend {a b : Rect2} (ha : a.finR) (hb : b.finR) :
    (Rect2.extend a b).finR := by
  obtain ⟨a1, a2, a3, a4⟩ := ha
  obtain ⟨b1, b2, b3, b4⟩ := hb
  exact ⟨F.isFin_mathMin a1 b1, F.isFin_mathMin a2 b2,
    F.isFin_mathMax a3 b3, F.isFin_mathMax a4 b4⟩

theorem rect2_interArea_fin {a b : Rect2} (ha : a.finR) (hb : b.finR) :
    (Rect2.intersectionArea a b).isFin := by
  obtain ⟨a1, a2, a3, a4⟩ := ha
  obtain ⟨b1, b2, b3, b4⟩ := hb
  unfold Rect2.intersectionArea
  refine F.isFin_mul ?_ ?_ <;>
    exact F.isFin_mathMax trivial (F.isFin_sub (F.isFin_mathMin (by assumption) (by assumption))
      (F.isFin_mathMax (by assumption) (by assumption)))

theorem rect2_area_fin {a : Rect2} (ha : a.finR) : (Rect2.area a).isFin := by
  obtain ⟨a1, a2, a3, a4⟩ := ha
  exact F.isFin_mul (F.isFin_sub a3 a1) (F.isFin_sub a4 a2)

theorem rect2_enlargedArea_fin {a b : Rect2} (ha : a.finR) (hb : b.finR) :
    (Rect2.enlargedArea a b).isFin := by
  obtain ⟨a1, a2, a3, a4⟩ := ha
  obtain ⟨b1, b2, b3, b4⟩ := hb
  exact F.isFin_mul (F.isFin_sub (F.isFin_mathMax b3 a3) (F.isFin_mathMin b1 a1))
    (F.isFin_sub (F.isFin_mathMax b4 a4) (F.isFin_mathMin b2 a2))

/-- The 2D box algebra satisfies the laws. -/
def laws2 : BoxLaws ops2 :=
  { finB := Rect2.finR
    fin_item := fun it => ⟨trivial, trivial, trivial, trivial⟩
    fin_extend := fun a b ha hb => rect2_finR_extend ha hb
    extend_comm := rect2_extend_comm
    extend_assoc := rect2_extend_assoc
    extend_empty := rect2_extend_empty
    contains_refl := fun a => by
      simp only [ops2, decide_eq_true_eq]
      exact rect2_contains_refl a
    contains_trans := fun a b c h1 h2 => by
      simp only [ops2, decide_eq_true_eq] at h1 h2 ⊢
      exact rect2_contains_trans h1 h2
    contains_extend := fun a b => by
      simp only [ops2, decide_eq_true_eq]
      exact rect2_contains_extend a b
    intersects_mono := fun a b q h1 h2 => by
      simp only [ops2, decide_eq_true_eq] at h1 h2 ⊢
      exact rect2_intersects_mono h1 h2
    intersects_symm := fun a b => by
      simp only [ops2]
      rw [decide_eq_decide]
      constructor
      · rintro ⟨i1, i2, i3, i4⟩
        exact ⟨i3, i4, i1, i2⟩
      · rintro ⟨i1, i2, i3, i4⟩
        exact ⟨i3, i4, i1, i2⟩
    interArea_fin := fun a b ha hb => rect2_interArea_fin ha hb
    area_fin := fun a ha => rect2_area_fin ha
    enlargedArea_fin := fun a b ha hb => rect2_enlargedArea_fin ha hb }

/-! ## Generic lemmas about `calcList` and the structural invariants -/

section GenericLemmas

variable {β : Type} {O : BoxOps β}

theorem foldl_extend_eq (L : BoxLaws O) :
    ∀ (l : List β) (a : β), l.foldl O.extend a = O.extend a (calcList O l) := by
  intro l
  induction l with
  | nil =>
    intro a
    rw [calcList]
    simp only [List.foldl_nil]
    rw [L.extend_comm, L.extend_empty]
  | cons c cs ih =>
    intro a
    rw [calcList]
    simp only [List.foldl_cons]
    rw [ih (O.extend a c), ih (O.extend O.emptyR c), L.extend_empty, L.extend_assoc]

theorem calcList_cons (L : BoxLaws O) (c : β) (l : List β) :
    calcList O (c :: l) = O.extend c (calcList O l) := by
  rw [calcList]
  simp only [List.foldl_cons]
  rw [foldl_extend_eq L, L.extend_empty]

theorem calcList_append (L : BoxLaws O) (l1 l2 : List β) :
    calcList O (l1 ++ l2) = O.extend (calcList O l1) (calcList O l2) := by
  rw [calcList, List.foldl_append, foldl_extend_eq L]
  rfl

theorem calcList_perm (L : BoxLaws O) {l1 l2 : List β} (h : List.Perm l1 l2) :
    calcList O l1 = calcList O l2 := by
  induction h with
  | nil => rfl
  | cons x _ ih => rw [calcList_cons L, calcList_cons L, ih]
  | swap x y l =>
    rw [calcList_cons L, calcList_cons L, calcList_cons L, calcList_cons L,
      ← L.extend_assoc, ← L.extend_assoc, L.extend_comm y x]
  | trans _ _ ih1 ih2 => rw [ih1, ih2]

theorem calcList_contains_mem (L : BoxLaws O) {b : β} :
    ∀ {l : List β}, b ∈ l → O.containsB (calcList O l) b = true := by
  intro l
  induction l with
  | nil => intro h; cases h
  | cons c cs ih =>
    intro h
    rw [calcList_cons L]
    rcases List.mem_cons.1 h with rfl | hm
    · rw [L.extend_comm]
      exact L.contains_extend _ _
    · exact L.contains_trans _ _ _ (L.contains_extend _ _) (ih hm)

theorem calcList_fin (L : BoxLaws O) :
    ∀ {l : List β}, l ≠ [] → (∀ b ∈ l, L.finB b) → L.finB (calcList O l) := by
  intro l
  induction l with
  | nil => intro h; cases h rfl
  | cons c cs ih =>
    intro _ hall
    rw [calcList_cons L]
    cases cs with
    | nil =>
      have hn : calcList O ([] : List β) = O.emptyR := rfl
      rw [hn, L.extend_comm, L.extend_empty]
      exact hall c (List.mem_cons_self c [])
    | cons d ds =>
      exact L.fin_extend _ _ (hall c (List.mem_cons_self c _))
        (ih (by simp) (fun b hb => hall b (List.mem_cons_of_mem c hb)))

mutual
/-- I1/I2, hereditarily: every node's bbox equals the exact union of its
children's boxes (item rectangles at a leaf). -/
def exactN (O : BoxOps β) : GNode β → Prop
  | .leafN b _ its => b = calcList O (its.map O.itemBox)
  | .innerN b _ cs => b = calcList O (cs.map GNode.bboxOf) ∧ exactL O cs
/-- `exactN` on every member. -/
def exactL (O : BoxOps β) : List (GNode β) → Prop
  | [] => True
  | c :: cs => exactN O c ∧ exactL O cs
end

mutual
/-- Child-count bounds below a node: every node strictly below the given one
has between `low` and `maxE` children; the node's own count is ≤ maxE and,
for an inner node, ≥ 1. -/
def countsN (low maxE : ℕ) : GNode β → Prop
  | .leafN _ _ its => its.length ≤ maxE
  | .innerN _ _ cs => 1 ≤ cs.length ∧ cs.length ≤ maxE ∧ countsL low maxE cs
/-- Bounds for a list of non-root nodes. -/
def countsL (low maxE : ℕ) : List (GNode β) → Prop
  | [] => True
  | c :: cs => (low ≤ c.childCount ∧ countsN low maxE c) ∧ countsL low maxE cs
end

mutual
/-- All item rectangles below the node are well formed. -/
def wfN : GNode β → Prop
  | .leafN _ _ its => ∀ it ∈ its, it.wf
  | .innerN _ _ cs => wfL cs
/-- `wfN` on every member. -/
def wfL : List (GNode β) → Prop
  | [] => True
  | c :: cs => wfN c ∧ wfL cs
end

theorem exactL_mem {c : GNode β} :
    ∀ {cs : List (GNode β)}, exactL O cs → c ∈ cs → exactN O c := by
  intro cs
  induction cs with
  | nil => intro _ h; cases h
  | cons d ds ih =>
    intro he hm
    rw [exactL] at he
    rcases List.mem_cons.1 hm with rfl | hm2
    · exact he.1
    · exact ih he.2 hm2

theorem gItemsL_append (cs ds : List (GNode β)) :
    gItemsL (cs ++ ds) = gItemsL cs ++ gItemsL ds := by
  induction cs with
  | nil => rw [gItemsL]; simp
  | cons c cs ih =>
    rw [List.cons_append, gItemsL, gItemsL, ih, List.append_assoc]

end GenericLemmas

mutual
/-- Under I1/I2, a node's bbox contains every item rectangle below it. -/
theorem exactN_contains_item {β : Type} {O : BoxOps β} (L : BoxLaws O) {it : Item} :
    ∀ n : GNode β, exactN O n → it ∈ gItems n →
      O.containsB n.bboxOf (O.itemBox it) = true
  | .leafN b ht its => by
    intro hE hm
    rw [gItems] at hm
    rw [exactN] at hE
    rw [GNode.bboxOf, hE]
    exact calcList_contains_mem L (List.mem_map_of_mem O.itemBox hm)
  | .innerN b ht cs => by
    intro hE hm
    rw [gItems] at hm
    rw [exactN] at hE
    rw [GNode.bboxOf, hE.1]
    exact exactL_contains_item L cs hE.2 hm
/-- The list form of `exactN_contains_item`. -/
theorem exactL_contains_item {β : Type} {O : BoxOps β} (L : BoxLaws O) {it : Item} :
    ∀ cs : List (GNode β), exactL O cs → it ∈ gItemsL cs →
      O.containsB (calcList O (cs.map GNode.bboxOf)) (O.itemBox it) = true
  | [] => by
    intro _ hm
    rw [gItemsL] at hm
    cases hm
  | c :: cs => by
    intro hE hm
    rw [exactL] at hE
    rw [gItemsL] at hm
    rw [List.map_cons, calcList_cons L]
    rcases List.mem_append.1 hm with hm1 | hm2
    · refine L.contains_trans _ _ _ ?_ (exactN_contains_item L c hE.1 hm1)
      rw [L.extend_comm]
      exact L.contains_extend _ _
    · exact L.contains_trans _ _ _ (L.contains_extend _ _)
        (exactL_contains_item L cs hE.2 hm2)
end

section GenericLemmas2

variable {β : Type} {O : BoxOps β}

theorem exactL_append {cs ds : List (GNode β)} :
    exactL O (cs ++ ds) ↔ exactL O cs ∧ exactL O ds := by
  induction cs with
  | nil => rw [List.nil_append, exactL]; simp
  | cons c cs ih => rw [List.cons_append, exactL, exactL, ih, and_assoc]

theorem countsL_append {low maxE : ℕ} {cs ds : List (GNode β)} :
    countsL low maxE (cs ++ ds) ↔ countsL low maxE cs ∧ countsL low maxE ds := by
  induction cs with
  | nil => rw [List.nil_append, countsL]; simp
  | cons c cs ih =>
    rw [List.cons_append, countsL, countsL, ih]
    tauto

theorem wfL_append {cs ds : List (GNode β)} :
    wfL (cs ++ ds) ↔ wfL cs ∧ wfL ds := by
  induction cs with
  | nil => rw [List.nil_append, wfL]; simp
  | cons c cs ih => rw [List.cons_append, wfL, wfL, ih, and_assoc]

theorem list_get?_decomp {γ : Type} :
    ∀ (cs : List γ) (i : ℕ) (c : γ), cs.get? i = some c →
      cs = cs.take i ++ c :: cs.drop (i + 1) := by
  intro cs
  induction cs with
  | nil => intro i c h; simp at h
  | cons a as ih =>
    intro i c h
    cases i with
    | zero =>
      simp at h
      subst h
      simp
    | succ j =>
      simp only [List.get?_cons_succ] at h
      rw [List.take_succ_cons, List.drop_succ_cons, List.cons_append]
      rw [← ih j c h]

theorem list_set_decomp {γ : Type} :
    ∀ (cs : List γ) (i : ℕ) (c c2 : γ), cs.get? i = some c →
      cs.set i c2 = cs.take i ++ c2 :: cs.drop (i + 1) := by
  intro cs
  induction cs with
  | nil => intro i c c2 h; simp at h
  | cons a as ih =>
    intro i c c2 h
    cases i with
    | zero => simp
    | succ j =>
      simp only [List.get?_cons_succ] at h
      simp only [List.set]
      rw [List.take_succ_cons, List.drop_succ_cons, List.cons_append]
      rw [ih j c c2 h]

/-- Permutation property of the axis-choice sorts. -/
theorem sortByKey_perm {γ : Type} (key : γ → F) (l : List γ) :
    List.Perm (sortByKey key l) l :=
  List.perm_insertionSort _ l

theorem chooseSplitAxis2sort_perm {γ : Type} (O : BoxOps β) (boxOf : γ → β) (m M : ℕ)
    (l : List γ) : List.Perm (chooseSplitAxis2sort O boxOf m M l) l := by
  unfold chooseSplitAxis2sort
  dsimp only
  split
  · exact (sortByKey_perm _ _).trans ((sortByKey_perm _ _).trans (sortByKey_perm _ _))
  · exact (sortByKey_perm _ _).trans (sortByKey_perm _ _)

theorem chooseSplitAxis3sort_perm {γ : Type} (O : BoxOps β) (boxOf : γ → β) (m M : ℕ)
    (l : List γ) : List.Perm (chooseSplitAxis3sort O boxOf m M l) l := by
  unfold chooseSplitAxis3sort
  dsimp only
  split
  · split
    · exact (sortByKey_perm _ _).trans
        ((sortByKey_perm _ _).trans ((sortByKey_perm _ _).trans (sortByKey_perm _ _)))
    · exact (sortByKey_perm _ _).trans ((sortByKey_perm _ _).trans (sortByKey_perm _ _))
  · split
    · exact (sortByKey_perm _ _).trans
        ((sortByKey_perm _ _).trans ((sortByKey_perm _ _).trans (sortByKey_perm _ _)))
    · exact (sortByKey_perm _ _).trans ((sortByKey_perm _ _).trans (sortByKey_perm _ _))

theorem chooseSplitAxisSort_perm {γ : Type} (O : BoxOps β) (boxOf : γ → β) (m M : ℕ)
    (l : List γ) : List.Perm (chooseSplitAxisSort O boxOf m M l) l := by
  unfold chooseSplitAxisSort
  split
  · exact chooseSplitAxis2sort_perm O boxOf m M l
  · exact chooseSplitAxis3sort_perm O boxOf m M l

end GenericLemmas2

/-! ## Characterizations of the two selection folds -/

section SelectFolds

variable {β γ : Type} (O : BoxOps β) (boxOf : γ → β)

/-- Candidate overlap of split index i. -/
def ovAt (M : ℕ) (l : List γ) (i : ℕ) : F :=
  O.interArea (splitLeftBox O boxOf i l) (splitRightBox O boxOf i M l)

/-- Candidate area sum of split index i. -/
def arAt (M : ℕ) (l : List γ) (i : ℕ) : F :=
  F.add (O.area (splitLeftBox O boxOf i l)) (O.area (splitRightBox O boxOf i M l))

/-- The fold step of `chooseSplitIndexList`. -/
def splitStep (M : ℕ) (l : List γ) (st : F × F × ℕ) (i : ℕ) : F × F × ℕ :=
  let minOverlap := st.1
  let minArea := st.2.1
  let overlap := ovAt O boxOf M l i
  let area := arAt O boxOf M l i
  if F.flt overlap minOverlap then
    (overlap, (if F.flt area minArea then area else minArea), i)
  else if overlap = minOverlap then
    (if F.flt area minArea then (minOverlap, area, i) else st)
  else st

theorem chooseSplitIndexList_eq_fold (m M : ℕ) (l : List γ) :
    chooseSplitIndexList O boxOf m M l =
      ((List.range' m (M - m - m + 1)).foldl (splitStep O boxOf M l)
        (F.pinf, F.pinf, 0)).2.2 := by
  rfl

/-- Validity of an intermediate fold state with respect to the processed
candidates. -/
def splitValid (M : ℕ) (l : List γ) (st : F × F × ℕ) (P : List ℕ) : Prop :=
  st.2.2 ∈ P ∧ ovAt O boxOf M l st.2.2 = st.1 ∧
    ∀ i ∈ P, F.fle st.1 (ovAt O boxOf M l i)

theorem splitStep_valid (M : ℕ) (l : List γ) {st : F × F × ℕ} {P : List ℕ}
    (hv : splitValid O boxOf M l st P) (i : ℕ) :
    splitValid O boxOf M l (splitStep O boxOf M l st i) (P ++ [i]) := by
  obtain ⟨hmem, hcur, hmin⟩ := hv
  unfold splitStep
  dsimp only
  split
  · next hflt =>
    refine ⟨List.mem_append_right _ (by simp), rfl, ?_⟩
    intro j hj
    rcases List.mem_append.1 hj with hj1 | hj2
    · exact F.fle_trans (F.fle_of_flt hflt) (hmin j hj1)
    · simp at hj2
      subst hj2
      exact F.fle_refl _
  · next hnflt =>
    split
    · next heq =>
      split
      · refine ⟨List.mem_append_right _ (by simp), heq, ?_⟩
        intro j hj
        rcases List.mem_append.1 hj with hj1 | hj2
        · exact hmin j hj1
        · simp at hj2
          subst hj2
          rw [heq]
          exact F.fle_refl _
      · refine ⟨List.mem_append_left _ hmem, hcur, ?_⟩
        intro j hj
        rcases List.mem_append.1 hj with hj1 | hj2
        · exact hmin j hj1
        · simp at hj2
          subst hj2
          rw [heq]
          exact F.fle_refl _
    · next hne =>
      refine ⟨List.mem_append_left _ hmem, hcur, ?_⟩
      intro j hj
      rcases List.mem_append.1 hj with hj1 | hj2
      · exact hmin j hj1
      · simp at hj2
        subst hj2
        exact F.fle_of_not_flt hnflt

theorem splitFold_valid (M : ℕ) (l : List γ) :
    ∀ (is : List ℕ) (st : F × F × ℕ) (P : List ℕ),
      splitValid O boxOf M l st P →
      splitValid O boxOf M l (is.foldl (splitStep O boxOf M l) st) (P ++ is) := by
  intro is
  induction is with
  | nil =>
    intro st P hv
    simpa using hv
  | cons i is ih =>
    intro st P hv
    rw [List.foldl_cons]
    have h2 := ih (splitStep O boxOf M l st i) (P ++ [i]) (splitStep_valid O boxOf M l hv i)
    simpa using h2

/-- The split index the source picks is one of the candidates `[m, M-m]` and
minimizes the overlap statistic among them. -/
theorem chooseSplitIndexList_spec (m M : ℕ) (l : List γ)
    (hfin : (ovAt O boxOf M l m).isFin) :
    chooseSplitIndexList O boxOf m M l ∈ List.range' m (M - m - m + 1) ∧
      ∀ i ∈ List.range' m (M - m - m + 1),
        F.fle (ovAt O boxOf M l (chooseSplitIndexList O boxOf m M l)) (ovAt O boxOf M l i) := by
  rw [chooseSplitIndexList_eq_fold]
  have hrange : List.range' m (M - m - m + 1) = m :: List.range' (m + 1) (M - m - m) := by
    rw [List.range'_succ]
  rw [hrange, List.foldl_cons]
  have hstep1 : splitValid O boxOf M l (splitStep O boxOf M l (F.pinf, F.pinf, 0) m) [m] := by
    unfold splitStep
    dsimp only
    rw [if_pos (F.flt_pinf_of_isFin hfin)]
    exact ⟨by simp, rfl, by
      intro j hj
      simp at hj
      subst hj
      exact F.fle_refl _⟩
  have h2 := splitFold_valid O boxOf M l (List.range' (m + 1) (M - m - m))
    (splitStep O boxOf M l (F.pinf, F.pinf, 0) m) [m] hstep1
  rw [List.singleton_append] at h2
  exact ⟨h2.1, fun i hi => by
    rw [h2.2.1]
    exact h2.2.2 i hi⟩

end SelectFolds

section ChildFold

variable {β : Type} (O : BoxOps β)

/-- The enlargement of a child, as `chooseSubtree` computes it. -/
def enlOf (bbox : β) (c : GNode β) : F :=
  F.sub (O.enlargedArea bbox c.bboxOf) (O.area c.bboxOf)

/-- The fold step of `chooseChildIdx`. -/
def childStep (bbox : β) (st : F × F × Option ℕ × ℕ) (c : GNode β) :
    F × F × Option ℕ × ℕ :=
  let minEnlargement := st.1
  let minArea := st.2.1
  let tgt := st.2.2.1
  let i := st.2.2.2
  let area := O.area c.bboxOf
  let enlargement := F.sub (O.enlargedArea bbox c.bboxOf) area
  if F.flt enlargement minEnlargement then
    (enlargement, (if F.flt area minArea then area else minArea), some i, i + 1)
  else if enlargement = minEnlargement then
    (if F.flt area minArea then (minEnlargement, area, some i, i + 1)
     else (minEnlargement, minArea, tgt, i + 1))
  else (minEnlargement, minArea, tgt, i + 1)

theorem chooseChildIdx_eq_fold (bbox : β) (cs : List (GNode β)) :
    chooseChildIdx O bbox cs =
      (match (cs.foldl (childStep O bbox) (F.pinf, F.pinf, none, 0)).2.2.1 with
       | some i => i
       | none => 0) := by
  rfl

/-- Validity of an intermediate `chooseSubtree` fold state. -/
def childValid (bbox : β) (st : F × F × Option ℕ × ℕ) (P : List (GNode β)) : Prop :=
  st.2.2.2 = P.length ∧
  ∃ j c, st.2.2.1 = some j ∧ P.get? j = some c ∧ enlOf O bbox c = st.1 ∧
    ∀ d ∈ P, F.fle st.1 (enlOf O bbox d)

theorem childStep_valid (bbox : β) {st : F × F × Option ℕ × ℕ} {P : List (GNode β)}
    (hv : childValid O bbox st P) (c : GNode β) :
    childValid O bbox (childStep O bbox st c) (P ++ [c]) := by
  obtain ⟨hcnt, j, d, htgt, hget, hcur, hmin⟩ := hv
  have hjlt : j < P.length := (List.get?_eq_some.1 hget).1
  unfold childStep
  dsimp only
  split
  · next hflt =>
    refine ⟨by simp [hcnt], P.length, c, by rw [hcnt], List.get?_concat_length P c, rfl, ?_⟩
    intro x hx
    rcases List.mem_append.1 hx with hx1 | hx2
    · exact F.fle_trans (F.fle_of_flt hflt) (hmin x hx1)
    · simp at hx2
      subst hx2
      exact F.fle_refl _
  · next hnflt =>
    split
    · next heq =>
      split
      · refine ⟨by simp [hcnt], P.length, c, by rw [hcnt], List.get?_concat_length P c, heq, ?_⟩
        intro x hx
        rcases List.mem_append.1 hx with hx1 | hx2
        · exact hmin x hx1
        · simp at hx2
          subst hx2
          have heq2 : enlOf O bbox x = st.1 := heq
          rw [heq2]
          exact F.fle_refl _
      · refine ⟨by simp [hcnt], j, d, htgt, ?_, hcur, ?_⟩
        · rw [List.get?_append hjlt]
          exact hget
        · intro x hx
          rcases List.mem_append.1 hx with hx1 | hx2
          · exact hmin x hx1
          · simp at hx2
            subst hx2
            have heq2 : enlOf O bbox x = st.1 := heq
            rw [heq2]
            exact F.fle_refl _
    · next hne =>
      refine ⟨by simp [hcnt], j, d, htgt, ?_, hcur, ?_⟩
      · rw [List.get?_append hjlt]
        exact hget
      · intro x hx
        rcases List.mem_append.1 hx with hx1 | hx2
        · exact hmin x hx1
        · simp at hx2
          subst hx2
          have h2 : ¬ F.flt (enlOf O bbox x) st.1 := hnflt
          exact F.fle_of_not_flt h2

theorem childFold_valid (bbox : β) :
    ∀ (cs : List (GNode β)) (st : F × F × Option ℕ × ℕ) (P : List (GNode β)),
      childValid O bbox st P →
      childValid O bbox (cs.foldl (childStep O bbox) st) (P ++ cs) := by
  intro cs
  induction cs with
  | nil =>
    intro st P hv
    simpa using hv
  | cons c cs ih =>
    intro st P hv
    rw [List.foldl_cons]
    have h2 := ih (childStep O bbox st c) (P ++ [c]) (childStep_valid O bbox hv c)
    simpa using h2

/-- `chooseSubtree` picks an in-range child of minimal enlargement (the
first child's enlargement being finite makes the first comparison fire). -/
theorem chooseChildIdx_spec (bbox : β) (c0 : GNode β) (cs : List (GNode β))
    (hfin : (enlOf O bbox c0).isFin) :
    chooseChildIdx O bbox (c0 :: cs) < (c0 :: cs).length ∧
      ∃ c, (c0 :: cs).get? (chooseChildIdx O bbox (c0 :: cs)) = some c ∧
        ∀ d ∈ c0 :: cs, F.fle (enlOf O bbox c) (enlOf O bbox d) := by
  rw [chooseChildIdx_eq_fold, List.foldl_cons]
  have hstep1 : childValid O bbox (childStep O bbox (F.pinf, F.pinf, none, 0) c0) [c0] := by
    unfold childStep
    dsimp only
    have hfin2 : F.flt ((O.enlargedArea bbox c0.bboxOf).sub (O.area c0.bboxOf)) F.pinf :=
      F.flt_pinf_of_isFin hfin
    rw [if_pos hfin2]
    refine ⟨rfl, 0, c0, rfl, rfl, rfl, ?_⟩
    intro x hx
    simp at hx
    subst hx
    exact F.fle_refl _
  have h2 := childFold_valid O bbox cs (childStep O bbox (F.pinf, F.pinf, none, 0) c0)
    [c0] hstep1
  rw [List.singleton_append] at h2
  obtain ⟨hcnt, j, c, htgt, hget, hcur, hmin⟩ := h2
  rw [htgt]
  refine ⟨(List.get?_eq_some.1 hget).1, c, hget, ?_⟩
  intro d hd
  rw [hcur]
  exact hmin d hd

end ChildFold

section GenericLemmas3

variable {β : Type} {O : BoxOps β}

theorem calcList_singleton (L : BoxLaws O) (b : β) : calcList O [b] = b := by
  rw [calcList_cons L]
  have hn : calcList O ([] : List β) = O.emptyR := rfl
  rw [hn, L.extend_comm, L.extend_empty]

theorem extend_rot (L : BoxLaws O) (a b c : β) :
    O.extend (O.extend a b) c = O.extend (O.extend a c) b := by
  rw [L.extend_assoc, L.extend_assoc, L.extend_comm b c]

theorem exactL_iff_forall {cs : List (GNode β)} :
    exactL O cs ↔ ∀ c ∈ cs, exactN O c := by
  induction cs with
  | nil => rw [exactL]; simp
  | cons c cs ih =>
    rw [exactL, ih]
    simp

theorem countsL_iff_forall {low maxE : ℕ} {cs : List (GNode β)} :
    countsL low maxE cs ↔ ∀ c ∈ cs, low ≤ c.childCount ∧ countsN low maxE c := by
  induction cs with
  | nil => rw [countsL]; simp
  | cons c cs ih =>
    rw [countsL, ih]
    simp

theorem wfL_iff_forall {cs : List (GNode β)} :
    wfL cs ↔ ∀ c ∈ cs, wfN c := by
  induction cs with
  | nil => rw [wfL]; simp
  | cons c cs ih =>
    rw [wfL, ih]
    simp

theorem gItemsL_perm {cs ds : List (GNode β)} (h : List.Perm cs ds) :
    List.Perm (gItemsL cs) (gItemsL ds) := by
  induction h with
  | nil => exact List.Perm.refl _
  | cons x _ ih =>
    rw [gItemsL, gItemsL]
    exact ih.append_left (gItems x)
  | swap x y l =>
    rw [gItemsL, gItemsL, gItemsL, gItemsL, ← List.append_assoc, ← List.append_assoc]
    exact (List.perm_append_comm.append_right _)
  | trans _ _ ih1 ih2 => exact ih1.trans ih2

mutual
/-- Bbox finiteness follows from I1/I2, positive child counts and the
always-finite item rectangles. -/
theorem exact_fin {β2 : Type} {O2 : BoxOps β2} (L : BoxLaws O2) {low maxE : ℕ}
    (hlow : 1 ≤ low) : ∀ n : GNode β2, exactN O2 n → countsN low maxE n →
      1 ≤ n.childCount → L.finB n.bboxOf
  | .leafN b ht its => by
    intro hE hC hn
    rw [exactN] at hE
    rw [GNode.childCount] at hn
    rw [GNode.bboxOf, hE]
    refine calcList_fin L ?_ ?_
    · cases its with
      | nil => simp at hn
      | cons x xs => simp
    · intro bx hbx
      obtain ⟨itx, _, rfl⟩ := List.mem_map.1 hbx
      exact L.fin_item itx
  | .innerN b ht cs => by
    intro hE hC hn
    rw [exactN] at hE
    rw [countsN] at hC
    rw [GNode.childCount] at hn
    rw [GNode.bboxOf, hE.1]
    refine calcList_fin L ?_ ?_
    · cases cs with
      | nil => simp at hn
      | cons x xs => simp
    · intro bx hbx
      obtain ⟨cx, hcx, rfl⟩ := List.mem_map.1 hbx
      exact exact_finL L hlow cs hE.2 hC.2.2 cx hcx
/-- List form of `exact_fin`. -/
theorem exact_finL {β2 : Type} {O2 : BoxOps β2} (L : BoxLaws O2) {low maxE : ℕ}
    (hlow : 1 ≤ low) : ∀ cs : List (GNode β2), exactL O2 cs → countsL low maxE cs →
      ∀ c ∈ cs, L.finB c.bboxOf
  | [] => by
    intro _ _ c hc
    cases hc
  | d :: ds => by
    intro hE hC c hc
    rw [exactL] at hE
    rw [countsL] at hC
    rcases List.mem_cons.1 hc with rfl | hc2
    · exact exact_fin L hlow c hE.1 hC.1.2 (le_trans hlow hC.1.1)
    · exact exact_finL L hlow ds hE.2 hC.2 c hc2
end

end GenericLemmas3

section SplitSpec

variable {β γ : Type} {O : BoxOps β}

/-- Everything the insert proof needs about one overflow split: the chosen
index is in `[m, M−m]`, and the two halves partition the children with the
union of their recomputed bboxes equal to the original union. -/
theorem splitChoice_spec (L : BoxLaws O) (boxOf : γ → β) {minE maxE : ℕ}
    (l : List γ) (hm1 : 1 ≤ minE) (hmM : minE + minE ≤ maxE + 1)
    (hlen : maxE < l.length) (hlen2 : l.length ≤ maxE + 1)
    (hfin : ∀ x ∈ l, L.finB (boxOf x)) :
    minE ≤ chooseSplitIndexList O boxOf minE
        (chooseSplitAxisSort O boxOf minE l.length l).length
        (chooseSplitAxisSort O boxOf minE l.length l) ∧
    chooseSplitIndexList O boxOf minE
        (chooseSplitAxisSort O boxOf minE l.length l).length
        (chooseSplitAxisSort O boxOf minE l.length l) ≤ l.length - minE ∧
    (chooseSplitAxisSort O boxOf minE l.length l).length = l.length ∧
    List.Perm ((chooseSplitAxisSort O boxOf minE l.length l).take
        (chooseSplitIndexList O boxOf minE
          (chooseSplitAxisSort O boxOf minE l.length l).length
          (chooseSplitAxisSort O boxOf minE l.length l)) ++
      (chooseSplitAxisSort O boxOf minE l.length l).drop
        (chooseSplitIndexList O boxOf minE
          (chooseSplitAxisSort O boxOf minE l.length l).length
          (chooseSplitAxisSort O boxOf minE l.length l))) l ∧
    O.extend
        (calcList O (((chooseSplitAxisSort O boxOf minE l.length l).take
          (chooseSplitIndexList O boxOf minE
            (chooseSplitAxisSort O boxOf minE l.length l).length
            (chooseSplitAxisSort O boxOf minE l.length l))).map boxOf))
        (calcList O (((chooseSplitAxisSort O boxOf minE l.length l).drop
          (chooseSplitIndexList O boxOf minE
            (chooseSplitAxisSort O boxOf minE l.length l).length
            (chooseSplitAxisSort O boxOf minE l.length l))).map boxOf))
      = calcList O (l.map boxOf) := by
  have hperm := chooseSplitAxisSort_perm O boxOf minE l.length l
  have hlensort : (chooseSplitAxisSort O boxOf minE l.length l).length = l.length :=
    hperm.length_eq
  have hfinsort : ∀ x ∈ chooseSplitAxisSort O boxOf minE l.length l, L.finB (boxOf x) :=
    fun x hx => hfin x (hperm.mem_iff.1 hx)
  have hM2 : minE + minE ≤ l.length := le_trans hmM (by omega)
  have hovfin : (ovAt O boxOf (chooseSplitAxisSort O boxOf minE l.length l).length
      (chooseSplitAxisSort O boxOf minE l.length l) minE).isFin := by
    apply L.interArea_fin
    · apply calcList_fin L
      · have hl : ((chooseSplitAxisSort O boxOf minE l.length l).take minE).length = minE := by
          rw [List.length_take, hlensort]
          omega
        intro hemp
        rw [List.map_eq_nil] at hemp
        rw [hemp] at hl
        simp at hl
        omega
      · intro bx hbx
        obtain ⟨x, hx, rfl⟩ := List.mem_map.1 hbx
        exact hfinsort x (List.take_subset _ _ hx)
    · apply calcList_fin L
      · have hl : (((chooseSplitAxisSort O boxOf minE l.length l).drop minE).take
            ((chooseSplitAxisSort O boxOf minE l.length l).length - minE)).length
            = l.length - minE := by
          rw [List.length_take, List.length_drop, hlensort]
          omega
        intro hemp
        rw [List.map_eq_nil] at hemp
        rw [hemp] at hl
        simp at hl
        omega
      · intro bx hbx
        obtain ⟨x, hx, rfl⟩ := List.mem_map.1 hbx
        exact hfinsort x (List.drop_subset _ _ (List.take_subset _ _ hx))
  obtain ⟨hmem, _⟩ := chooseSplitIndexList_spec O boxOf minE
    (chooseSplitAxisSort O boxOf minE l.length l).length
    (chooseSplitAxisSort O boxOf minE l.length l) hovfin
  rw [List.mem_range'_1] at hmem
  have hrange1 : minE ≤ chooseSplitIndexList O boxOf minE
      (chooseSplitAxisSort O boxOf minE l.length l).length
      (chooseSplitAxisSort O boxOf minE l.length l) := hmem.1
  have hrange2 : chooseSplitIndexList O boxOf minE
      (chooseSplitAxisSort O boxOf minE l.length l).length
      (chooseSplitAxisSort O boxOf minE l.length l) ≤ l.length - minE := by
    have := hmem.2
    rw [hlensort] at this
    omega
  refine ⟨hrange1, hrange2, hlensort, ?_, ?_⟩
  · rw [List.take_append_drop]
    exact hperm
  · rw [← calcList_append L, ← List.map_append, List.take_append_drop]
    exact calcList_perm L (hperm.map boxOf)
end SplitSpec

section InsertSpec

variable {β : Type} {O : BoxOps β}

mutual
/-- `wfN` is a property of the stored multiset of items. -/
theorem wfN_iff_items : ∀ n : GNode β, wfN n ↔ ∀ x ∈ gItems n, x.wf
  | .leafN b h its => by rw [wfN, gItems]
  | .innerN b h cs => by rw [wfN, gItems, wfL_iff_itemsL cs]
/-- List form. -/
theorem wfL_iff_itemsL : ∀ cs : List (GNode β), wfL cs ↔ ∀ x ∈ gItemsL cs, x.wf
  | [] => by
    rw [wfL, gItemsL]
    simp
  | c :: cs => by
    rw [wfL, gItemsL, wfN_iff_items c, wfL_iff_itemsL cs]
    constructor
    · rintro ⟨h1, h2⟩ x hx
      rcases List.mem_append.1 hx with hx1 | hx2
      · exact h1 x hx1
      · exact h2 x hx2
    · intro h
      exact ⟨fun x hx => h x (List.mem_append_left _ hx),
        fun x hx => h x (List.mem_append_right _ hx)⟩
end

theorem perm_insert_middle {A B C X : List Item} {it : Item} (h : List.Perm X (it :: C)) :
    List.Perm (A ++ X ++ B) (it :: (A ++ C ++ B)) := by
  rw [List.append_assoc, List.append_assoc]
  have h1 : List.Perm (X ++ B) (it :: (C ++ B)) := by
    have h2 := h.append_right B
    rw [List.cons_append] at h2
    exact h2
  exact (h1.append_left A).trans List.perm_middle

theorem perm_split_insert {A B C X1 X2 : List Item} {it : Item}
    (h : List.Perm (X1 ++ X2) (it :: C)) :
    List.Perm (A ++ (X1 ++ B) ++ X2) (it :: (A ++ C ++ B)) := by
  rw [List.append_assoc, List.append_assoc, List.append_assoc]
  have h1 : List.Perm (X1 ++ (B ++ X2)) (it :: (C ++ B)) := by
    have h2 : List.Perm (X1 ++ (B ++ X2)) (X1 ++ (X2 ++ B)) :=
      List.Perm.append_left X1 List.perm_append_comm
    refine h2.trans ?_
    rw [← List.append_assoc]
    have h3 := h.append_right B
    rw [List.cons_append] at h3
    exact h3
  exact (h1.append_left A).trans List.perm_middle

/-- The conclusions of one step of the insert recursion. -/
def insResult (O : BoxOps β) (low maxE minE : ℕ) (it : Item) (n : GNode β) :
    GNode β ⊕ (GNode β × GNode β) → Prop
  | .inl n2 => exactN O n2 ∧ countsN low maxE n2 ∧
      n2.bboxOf = O.extend n.bboxOf (O.itemBox it) ∧
      List.Perm (gItems n2) (it :: gItems n) ∧
      n.childCount ≤ n2.childCount ∧ n2.childCount ≤ n.childCount + 1
  | .inr (a2, b2) => exactN O a2 ∧ exactN O b2 ∧ countsN low maxE a2 ∧ countsN low maxE b2 ∧
      O.extend a2.bboxOf b2.bboxOf = O.extend n.bboxOf (O.itemBox it) ∧
      List.Perm (gItems a2 ++ gItems b2) (it :: gItems n) ∧
      minE ≤ a2.childCount ∧ a2.childCount ≤ maxE ∧
      minE ≤ b2.childCount ∧ b2.childCount ≤ maxE

/-- The insert recursion: starting from a node satisfying the structural
invariants, the updated node (or split pair) satisfies them, holds exactly
the old items plus the new one, and unions to the old bbox extended by the
item's rectangle. -/
theorem gInsertRec_spec (L : BoxLaws O) {maxE minE low : ℕ} (it : Item)
    (hlow1 : 1 ≤ low) (hlowm : low ≤ minE) (hmM : minE + minE ≤ maxE + 1) :
    ∀ n : GNode β, exactN O n → countsN low maxE n →
      insResult O low maxE minE it n (gInsertRec O maxE minE (O.itemBox it) it n) := by
  intro n
  induction n using gInsertRec.induct O maxE minE (O.itemBox it) it with
  | case1 b hgt its its2 hover =>
    intro hE hC
    rw [exactN] at hE
    rw [countsN] at hC
    rw [gInsertRec]
    rw [if_pos hover]
    dsimp only
    have hm1 : 1 ≤ minE := le_trans hlow1 hlowm
    have hlen : maxE < (its ++ [it]).length := hover
    have hlen2 : (its ++ [it]).length ≤ maxE + 1 := by
      rw [List.length_append]
      simp
      omega
    have hfin : ∀ x ∈ its ++ [it], L.finB (O.itemBox x) := fun x _ => L.fin_item x
    obtain ⟨hr1, hr2, hlensort, hpermparts, hbox⟩ :=
      splitChoice_spec L O.itemBox (its ++ [it]) hm1 hmM hlen hlen2 hfin
    generalize hS : chooseSplitAxisSort O O.itemBox minE (its ++ [it]).length (its ++ [it])
      = S at hr1 hr2 hlensort hpermparts hbox ⊢
    generalize hI : chooseSplitIndexList O O.itemBox minE S.length S
      = I at hr1 hr2 hpermparts hbox ⊢
    rw [insResult]
    have hlenits : (its ++ [it]).length = its.length + 1 := by simp
    have hlentake : (List.take I S).length = I := by
      rw [List.length_take]
      omega
    have hlendrop : (List.drop I S).length = (its ++ [it]).length - I := by
      rw [List.length_drop, hlensort]
    refine ⟨rfl, rfl, ?_, ?_, ?_, ?_, ?_, ?_, ?_, ?_⟩
    · rw [countsN, hlentake]
      omega
    · rw [countsN, hlendrop]
      omega
    · rw [GNode.bboxOf, GNode.bboxOf, GNode.bboxOf, hbox, List.map_append, calcList_append L]
      rw [List.map_singleton, calcList_singleton L, hE]
    · rw [gItems, gItems, gItems]
      exact hpermparts.trans (List.perm_append_singleton it its)
    · rw [GNode.childCount, hlentake]
      exact hr1
    · rw [GNode.childCount, hlentake]
      omega
    · rw [GNode.childCount, hlendrop]
      omega
    · rw [GNode.childCount, hlendrop]
      omega
  | case2 b hgt its its2 hnover =>
    intro hE hC
    rw [exactN] at hE
    rw [countsN] at hC
    rw [gInsertRec]
    rw [if_neg hnover]
    rw [insResult]
    have hnover2 : (its ++ [it]).length ≤ maxE := by
      have : ¬ (its ++ [it]).length > maxE := hnover
      omega
    refine ⟨?_, ?_, rfl, ?_, ?_, ?_⟩
    · rw [exactN, List.map_append, calcList_append L, List.map_singleton,
        calcList_singleton L, hE]
    · rw [countsN]
      exact hnover2
    · rw [gItems, gItems]
      exact List.perm_append_singleton it its
    · rw [GNode.childCount, GNode.childCount]
      simp
    · rw [GNode.childCount, GNode.childCount]
      simp
  | case3 b hgt cs hnone =>
    intro hE hC
    rw [exactN] at hE
    rw [countsN] at hC
    exfalso
    obtain ⟨hEb, hEL⟩ := hE
    obtain ⟨hc1, hcM, hcL⟩ := hC
    cases cs with
    | nil => simp at hc1
    | cons c0 cs2 =>
      rw [exactL] at hEL
      rw [countsL] at hcL
      have hfinc0 : L.finB c0.bboxOf :=
        exact_fin L hlow1 c0 hEL.1 hcL.1.2 (le_trans hlow1 hcL.1.1)
      have hfinenl : (enlOf O (O.itemBox it) c0).isFin :=
        F.isFin_sub (L.enlargedArea_fin _ _ (L.fin_item it) hfinc0) (L.area_fin _ hfinc0)
      obtain ⟨hlt, _⟩ := chooseChildIdx_spec O (O.itemBox it) c0 cs2 hfinenl
      rw [List.get?_eq_none] at hnone
      omega
  | case4 b hgt cs c hget c2 heq ih =>
    intro hE hC
    rw [exactN] at hE
    rw [countsN] at hC
    obtain ⟨hEb, hEL⟩ := hE
    obtain ⟨hc1, hcM, hcL⟩ := hC
    have hmemc : c ∈ cs := List.get?_mem hget
    have hEc : exactN O c := exactL_iff_forall.1 hEL c hmemc
    have hCc := countsL_iff_forall.1 hcL c hmemc
    have ih2 := ih hEc hCc.2
    rw [heq, insResult] at ih2
    obtain ⟨ihE, ihC, ihB, ihI, ihn1, ihn2⟩ := ih2
    rw [gInsertRec]
    split
    · next hc2 =>
      rw [hget] at hc2
      cases hc2
    · next c' hc2 =>
      rw [hget] at hc2
      injection hc2 with hc2
      subst hc2
      split
      · next c2' heq2 =>
        rw [heq] at heq2
        injection heq2 with heq2
        subst heq2
        rw [insResult]
        have hdec := list_get?_decomp cs (chooseChildIdx O (O.itemBox it) cs) c hget
        have hset := list_set_decomp cs (chooseChildIdx O (O.itemBox it) cs) c c2 hget
        have hpermset : List.Perm (cs.set (chooseChildIdx O (O.itemBox it) cs) c2)
            (c2 :: (cs.take (chooseChildIdx O (O.itemBox it) cs) ++
              cs.drop (chooseChildIdx O (O.itemBox it) cs + 1))) := by
          rw [hset]
          exact List.perm_middle
        have hpermcs : List.Perm cs
            (c :: (cs.take (chooseChildIdx O (O.itemBox it) cs) ++
              cs.drop (chooseChildIdx O (O.itemBox it) cs + 1))) := by
          nth_rewrite 1 [hdec]
          exact List.perm_middle
        refine ⟨?_, ?_, rfl, ?_, ?_, ?_⟩
        · rw [exactN]
          constructor
          · rw [calcList_perm L (hpermset.map GNode.bboxOf), List.map_cons, calcList_cons L]
            rw [hEb, calcList_perm L (hpermcs.map GNode.bboxOf), List.map_cons, calcList_cons L]
            rw [ihB]
            exact extend_rot L _ _ _
          · rw [exactL_iff_forall]
            intro x hx
            rcases List.mem_or_eq_of_mem_set hx with hx1 | rfl
            · exact exactL_iff_forall.1 hEL x hx1
            · exact ihE
        · rw [countsN]
          rw [List.length_set]
          refine ⟨hc1, hcM, ?_⟩
          rw [countsL_iff_forall]
          intro x hx
          rcases List.mem_or_eq_of_mem_set hx with hx1 | rfl
          · exact countsL_iff_forall.1 hcL x hx1
          · exact ⟨le_trans hCc.1 ihn1, ihC⟩
        · rw [gItems, gItems]
          refine (gItemsL_perm hpermset).trans ?_
          rw [gItemsL]
          refine ((ihI.append_right _).trans ?_)
          rw [List.cons_append]
          refine List.Perm.cons it ?_
          have h5 : gItemsL (c :: (cs.take (chooseChildIdx O (O.itemBox it) cs) ++
              cs.drop (chooseChildIdx O (O.itemBox it) cs + 1))) =
              gItems c ++ gItemsL (cs.take (chooseChildIdx O (O.itemBox it) cs) ++
                cs.drop (chooseChildIdx O (O.itemBox it) cs + 1)) := rfl
          have h6 := gItemsL_perm hpermcs
          rw [h5] at h6
          exact h6.symm
        · rw [GNode.childCount, GNode.childCount, List.length_set]
        · rw [GNode.childCount, GNode.childCount, List.length_set]
          omega
      · next c1' c2' heq2 =>
        rw [heq] at heq2
        cases heq2
  | case5 b hgt cs c hget c1 c2 heq cs2 hover ih =>
    intro hE hC
    rw [exactN] at hE
    rw [countsN] at hC
    obtain ⟨hEb, hEL⟩ := hE
    obtain ⟨hc1, hcM, hcL⟩ := hC
    have hmemc : c ∈ cs := List.get?_mem hget
    have hEc : exactN O c := exactL_iff_forall.1 hEL c hmemc
    have hCc := countsL_iff_forall.1 hcL c hmemc
    have ih2 := ih hEc hCc.2
    rw [heq, insResult] at ih2
    obtain ⟨ihE1, ihE2, ihC1, ihC2, ihB, ihI, ihn1, ihn2, ihn3, ihn4⟩ := ih2
    rw [gInsertRec]
    split
    · next hc2 =>
      rw [hget] at hc2
      cases hc2
    · next c' hc2 =>
      rw [hget] at hc2
      injection hc2 with hc2
      subst hc2
      split
      · next c2' heq2 =>
        rw [heq] at heq2
        cases heq2
      · next c1' c2' heq2 =>
        rw [heq] at heq2
        injection heq2 with heq2
        obtain ⟨heqa, heqb⟩ := Prod.mk.injEq .. ▸ heq2
        subst heqa
        subst heqb
        dsimp only
        rw [if_pos hover]
        have hm1 : 1 ≤ minE := le_trans hlow1 hlowm
        have hallE : ∀ x ∈ cs.set (chooseChildIdx O (O.itemBox it) cs) c1 ++ [c2],
            exactN O x := by
          intro x hx
          rcases List.mem_append.1 hx with hx1 | hx2
          · rcases List.mem_or_eq_of_mem_set hx1 with hx3 | rfl
            · exact exactL_iff_forall.1 hEL x hx3
            · exact ihE1
          · simp at hx2
            subst hx2
            exact ihE2
        have hallC : ∀ x ∈ cs.set (chooseChildIdx O (O.itemBox it) cs) c1 ++ [c2],
            low ≤ x.childCount ∧ countsN low maxE x := by
          intro x hx
          rcases List.mem_append.1 hx with hx1 | hx2
          · rcases List.mem_or_eq_of_mem_set hx1 with hx3 | rfl
            · exact countsL_iff_forall.1 hcL x hx3
            · exact ⟨le_trans hlowm ihn1, ihC1⟩
          · simp at hx2
            subst hx2
            exact ⟨le_trans hlowm ihn3, ihC2⟩
        have hfinall : ∀ x ∈ cs.set (chooseChildIdx O (O.itemBox it) cs) c1 ++ [c2],
            L.finB (GNode.bboxOf x) := by
          intro x hx
          exact exact_fin L hlow1 x (hallE x hx) (hallC x hx).2
            (le_trans hlow1 (hallC x hx).1)
        have hlen9 : (cs.set (chooseChildIdx O (O.itemBox it) cs) c1 ++ [c2]).length
            = cs.length + 1 := by simp
        have hlen : maxE < (cs.set (chooseChildIdx O (O.itemBox it) cs) c1 ++ [c2]).length :=
          hover
        have hlen2 : (cs.set (chooseChildIdx O (O.itemBox it) cs) c1 ++ [c2]).length
            ≤ maxE + 1 := by omega
        obtain ⟨hr1, hr2, hlensort, hpermparts, hbox⟩ :=
          splitChoice_spec L GNode.bboxOf (cs.set (chooseChildIdx O (O.itemBox it) cs) c1 ++ [c2])
            hm1 hmM hlen hlen2 hfinall
        have hSperm := chooseSplitAxisSort_perm O GNode.bboxOf minE
          (cs.set (chooseChildIdx O (O.itemBox it) cs) c1 ++ [c2]).length
          (cs.set (chooseChildIdx O (O.itemBox it) cs) c1 ++ [c2])
        generalize hS : chooseSplitAxisSort O GNode.bboxOf minE
            (cs.set (chooseChildIdx O (O.itemBox it) cs) c1 ++ [c2]).length
            (cs.set (chooseChildIdx O (O.itemBox it) cs) c1 ++ [c2])
          = S at hr1 hr2 hlensort hpermparts hbox hSperm ⊢
        generalize hI : chooseSplitIndexList O GNode.bboxOf minE S.length S
          = I at hr1 hr2 hpermparts hbox ⊢
        rw [insResult]
        have hlentake : (List.take I S).length = I := by
          rw [List.length_take]
          omega
        have hlendrop : (List.drop I S).length =
            (cs.set (chooseChildIdx O (O.itemBox it) cs) c1 ++ [c2]).length - I := by
          rw [List.length_drop, hlensort]
        have hdec := list_get?_decomp cs (chooseChildIdx O (O.itemBox it) cs) c hget
        have hset := list_set_decomp cs (chooseChildIdx O (O.itemBox it) cs) c c1 hget
        have hpermset : List.Perm (cs.set (chooseChildIdx O (O.itemBox it) cs) c1)
            (c1 :: (cs.take (chooseChildIdx O (O.itemBox it) cs) ++
              cs.drop (chooseChildIdx O (O.itemBox it) cs + 1))) := by
          rw [hset]
          exact List.perm_middle
        have hpermcs : List.Perm cs
            (c :: (cs.take (chooseChildIdx O (O.itemBox it) cs) ++
              cs.drop (chooseChildIdx O (O.itemBox it) cs + 1))) := by
          nth_rewrite 1 [hdec]
          exact List.perm_middle
        refine ⟨⟨rfl, ?_⟩, ⟨rfl, ?_⟩, ?_, ?_, ?_, ?_, ?_, ?_, ?_, ?_⟩
        · rw [exactL_iff_forall]
          intro x hx
          exact hallE x (hSperm.mem_iff.1 (List.take_subset _ _ hx))
        · rw [exactL_iff_forall]
          intro x hx
          exact hallE x (hSperm.mem_iff.1 (List.drop_subset _ _ hx))
        · rw [countsN, hlentake]
          refine ⟨by omega, by omega, ?_⟩
          rw [countsL_iff_forall]
          intro x hx
          exact hallC x (hSperm.mem_iff.1 (List.take_subset _ _ hx))
        · rw [countsN, hlendrop, hlen9]
          refine ⟨by omega, by omega, ?_⟩
          rw [countsL_iff_forall]
          intro x hx
          exact hallC x (hSperm.mem_iff.1 (List.drop_subset _ _ hx))
        · rw [GNode.bboxOf, GNode.bboxOf, GNode.bboxOf, hbox]
          rw [List.map_append, calcList_append L, List.map_singleton, calcList_singleton L]
          rw [calcList_perm L (hpermset.map GNode.bboxOf), List.map_cons, calcList_cons L]
          rw [hEb, calcList_perm L (hpermcs.map GNode.bboxOf), List.map_cons, calcList_cons L]
          rw [extend_rot L c1.bboxOf _ c2.bboxOf, ihB]
          exact (extend_rot L _ _ _).symm
        · rw [gItems, gItems, gItems]
          have h3 : gItemsL (List.take I S) ++ gItemsL (List.drop I S) =
              gItemsL (List.take I S ++ List.drop I S) := (gItemsL_append _ _).symm
          rw [h3, List.take_append_drop]
          refine (gItemsL_perm hSperm).trans ?_
          have h4 : gItemsL (cs.set (chooseChildIdx O (O.itemBox it) cs) c1 ++ [c2]) =
              gItemsL (cs.set (chooseChildIdx O (O.itemBox it) cs) c1) ++ gItems c2 := by
            rw [gItemsL_append]
            have h5 : gItemsL [c2] = gItems c2 ++ gItemsL ([] : List (GNode β)) := rfl
            rw [h5, gItemsL]
            simp
          rw [h4]
          have h6 : List.Perm (gItemsL (cs.set (chooseChildIdx O (O.itemBox it) cs) c1))
              (gItems c1 ++ gItemsL (cs.take (chooseChildIdx O (O.itemBox it) cs) ++
                cs.drop (chooseChildIdx O (O.itemBox it) cs + 1))) := by
            have h7 := gItemsL_perm hpermset
            have h8 : gItemsL (c1 :: (cs.take (chooseChildIdx O (O.itemBox it) cs) ++
                cs.drop (chooseChildIdx O (O.itemBox it) cs + 1))) =
                gItems c1 ++ gItemsL (cs.take (chooseChildIdx O (O.itemBox it) cs) ++
                  cs.drop (chooseChildIdx O (O.itemBox it) cs + 1)) := rfl
            rw [h8] at h7
            exact h7
          refine ((h6.append_right _).trans ?_)
          have h9 := perm_split_insert (A := ([] : List Item))
            (B := gItemsL (cs.take (chooseChildIdx O (O.itemBox it) cs) ++
              cs.drop (chooseChildIdx O (O.itemBox it) cs + 1))) ihI
          simp only [List.nil_append] at h9
          refine h9.trans ?_
          refine List.Perm.cons it ?_
          have h5 : gItemsL (c :: (cs.take (chooseChildIdx O (O.itemBox it) cs) ++
              cs.drop (chooseChildIdx O (O.itemBox it) cs + 1))) =
              gItems c ++ gItemsL (cs.take (chooseChildIdx O (O.itemBox it) cs) ++
                cs.drop (chooseChildIdx O (O.itemBox it) cs + 1)) := rfl
          have h10 := gItemsL_perm hpermcs
          rw [h5] at h10
          exact h10.symm
        · rw [GNode.childCount, hlentake]
          exact hr1
        · rw [GNode.childCount, hlentake]
          omega
        · rw [GNode.childCount, hlendrop, hlen9]
          omega
        · rw [GNode.childCount, hlendrop, hlen9]
          omega
  | case6 b hgt cs c hget c1 c2 heq cs2 hnover ih =>
    intro hE hC
    rw [exactN] at hE
    rw [countsN] at hC
    obtain ⟨hEb, hEL⟩ := hE
    obtain ⟨hc1, hcM, hcL⟩ := hC
    have hmemc : c ∈ cs := List.get?_mem hget
    have hEc : exactN O c := exactL_iff_forall.1 hEL c hmemc
    have hCc := countsL_iff_forall.1 hcL c hmemc
    have ih2 := ih hEc hCc.2
    rw [heq, insResult] at ih2
    obtain ⟨ihE1, ihE2, ihC1, ihC2, ihB, ihI, ihn1, ihn2, ihn3, ihn4⟩ := ih2
    rw [gInsertRec]
    split
    · next hc2 =>
      rw [hget] at hc2
      cases hc2
    · next c' hc2 =>
      rw [hget] at hc2
      injection hc2 with hc2
      subst hc2
      split
      · next c2' heq2 =>
        rw [heq] at heq2
        cases heq2
      · next c1' c2' heq2 =>
        rw [heq] at heq2
        injection heq2 with heq2
        obtain ⟨heqa, heqb⟩ := Prod.mk.injEq .. ▸ heq2
        subst heqa
        subst heqb
        dsimp only
        rw [if_neg hnover]
        rw [insResult]
        have hdec := list_get?_decomp cs (chooseChildIdx O (O.itemBox it) cs) c hget
        have hset := list_set_decomp cs (chooseChildIdx O (O.itemBox it) cs) c c1 hget
        have hpermset : List.Perm (cs.set (chooseChildIdx O (O.itemBox it) cs) c1)
            (c1 :: (cs.take (chooseChildIdx O (O.itemBox it) cs) ++
              cs.drop (chooseChildIdx O (O.itemBox it) cs + 1))) := by
          rw [hset]
          exact List.perm_middle
        have hpermcs : List.Perm cs
            (c :: (cs.take (chooseChildIdx O (O.itemBox it) cs) ++
              cs.drop (chooseChildIdx O (O.itemBox it) cs + 1))) := by
          nth_rewrite 1 [hdec]
          exact List.perm_middle
        have hnover2 : (cs.set (chooseChildIdx O (O.itemBox it) cs) c1 ++ [c2]).length
            ≤ maxE := by
          have h9 : ¬ (cs.set (chooseChildIdx O (O.itemBox it) cs) c1 ++ [c2]).length
              > maxE := hnover
          omega
        have e2 : O.extend (O.extend c.bboxOf
            (calcList O (List.map GNode.bboxOf (cs.take (chooseChildIdx O (O.itemBox it) cs) ++
              cs.drop (chooseChildIdx O (O.itemBox it) cs + 1))))) (O.itemBox it)
            = O.extend (O.extend c1.bboxOf
              (calcList O (List.map GNode.bboxOf (cs.take (chooseChildIdx O (O.itemBox it) cs) ++
                cs.drop (chooseChildIdx O (O.itemBox it) cs + 1))))) c2.bboxOf := by
          rw [extend_rot L c1.bboxOf _ c2.bboxOf, ihB]
          exact extend_rot L _ _ _
        refine ⟨?_, ?_, rfl, ?_, ?_, ?_⟩
        · rw [exactN]
          constructor
          · rw [List.map_append, calcList_append L, List.map_singleton, calcList_singleton L]
            rw [calcList_perm L (hpermset.map GNode.bboxOf), List.map_cons, calcList_cons L]
            rw [hEb, calcList_perm L (hpermcs.map GNode.bboxOf), List.map_cons, calcList_cons L]
            exact e2
          · rw [exactL_iff_forall]
            intro x hx
            rcases List.mem_append.1 hx with hx1 | hx2
            · rcases List.mem_or_eq_of_mem_set hx1 with hx3 | rfl
              · exact exactL_iff_forall.1 hEL x hx3
              · exact ihE1
            · simp at hx2
              subst hx2
              exact ihE2
        · rw [countsN]
          have hlen9 : (cs.set (chooseChildIdx O (O.itemBox it) cs) c1 ++ [c2]).length
              = cs.length + 1 := by simp
          rw [hlen9] at hnover2
          rw [hlen9]
          refine ⟨by omega, by omega, ?_⟩
          rw [countsL_iff_forall]
          intro x hx
          rcases List.mem_append.1 hx with hx1 | hx2
          · rcases List.mem_or_eq_of_mem_set hx1 with hx3 | rfl
            · exact countsL_iff_forall.1 hcL x hx3
            · exact ⟨le_trans hlowm ihn1, ihC1⟩
          · simp at hx2
            subst hx2
            exact ⟨le_trans hlowm ihn3, ihC2⟩
        · rw [gItems, gItems]
          have h4 : gItemsL (cs.set (chooseChildIdx O (O.itemBox it) cs) c1 ++ [c2]) =
              gItemsL (cs.set (chooseChildIdx O (O.itemBox it) cs) c1) ++ gItems c2 := by
            rw [gItemsL_append]
            have h5 : gItemsL [c2] = gItems c2 ++ gItemsL ([] : List (GNode β)) := rfl
            rw [h5, gItemsL]
            simp
          rw [h4]
          have h6 : List.Perm (gItemsL (cs.set (chooseChildIdx O (O.itemBox it) cs) c1))
              (gItems c1 ++ gItemsL (cs.take (chooseChildIdx O (O.itemBox it) cs) ++
                cs.drop (chooseChildIdx O (O.itemBox it) cs + 1))) := by
            have h7 := gItemsL_perm hpermset
            have h8 : gItemsL (c1 :: (cs.take (chooseChildIdx O (O.itemBox it) cs) ++
                cs.drop (chooseChildIdx O (O.itemBox it) cs + 1))) =
                gItems c1 ++ gItemsL (cs.take (chooseChildIdx O (O.itemBox it) cs) ++
                  cs.drop (chooseChildIdx O (O.itemBox it) cs + 1)) := rfl
            rw [h8] at h7
            exact h7
          refine ((h6.append_right _).trans ?_)
          have h9 := perm_split_insert (A := ([] : List Item))
            (B := gItemsL (cs.take (chooseChildIdx O (O.itemBox it) cs) ++
              cs.drop (chooseChildIdx O (O.itemBox it) cs + 1))) ihI
          simp only [List.nil_append] at h9
          refine h9.trans ?_
          refine List.Perm.cons it ?_
          have h5 : gItemsL (c :: (cs.take (chooseChildIdx O (O.itemBox it) cs) ++
              cs.drop (chooseChildIdx O (O.itemBox it) cs + 1))) =
              gItems c ++ gItemsL (cs.take (chooseChildIdx O (O.itemBox it) cs) ++
                cs.drop (chooseChildIdx O (O.itemBox it) cs + 1)) := rfl
          have h10 := gItemsL_perm hpermcs
          rw [h5] at h10
          exact h10.symm
        · rw [GNode.childCount, GNode.childCount]
          simp
        · rw [GNode.childCount, GNode.childCount]
          rw [List.length_append, List.length_set]
          simp

end InsertSpec

section RemoveSpec

variable {β : Type} {O : BoxOps β}

mutual
/-- Count-bound weakening. -/
theorem countsN_mono {low low2 maxE : ℕ} (h : low2 ≤ low) :
    ∀ n : GNode β, countsN low maxE n → countsN low2 maxE n
  | .leafN b ht its => by
    intro hc
    rw [countsN] at *
    exact hc
  | .innerN b ht cs => by
    intro hc
    rw [countsN] at hc ⊢
    exact ⟨hc.1, hc.2.1, countsL_mono h cs hc.2.2⟩
/-- List form. -/
theorem countsL_mono {low low2 maxE : ℕ} (h : low2 ≤ low) :
    ∀ cs : List (GNode β), countsL low maxE cs → countsL low2 maxE cs
  | [] => by
    intro _
    rw [countsL]
    trivial
  | c :: cs => by
    intro hc
    rw [countsL] at hc ⊢
    exact ⟨⟨le_trans h hc.1.1, countsN_mono h c hc.1.2⟩, countsL_mono h cs hc.2⟩
end

/-- The first hit of `findIdx?` can be split off as one occurrence. -/
theorem findIdx?_erase {pred : Item → Bool} :
    ∀ {l : List Item} {i : ℕ}, l.findIdx? pred = some i →
      ∃ x, pred x = true ∧ List.Perm l (x :: l.eraseIdx i) := by
  intro l
  induction l with
  | nil => intro i h; simp [List.findIdx?] at h
  | cons a as ih =>
    intro i h
    rw [List.findIdx?_cons] at h
    by_cases hp : pred a
    · rw [if_pos (by simp [hp])] at h
      injection h with h
      subst h
      exact ⟨a, hp, List.Perm.refl _⟩
    · rw [if_neg (by simp [hp])] at h
      have h0 : List.findIdx? pred as 1 = (List.findIdx? pred as).map (fun i => i + 1) := by
        rw [List.findIdx?_succ]
      rw [h0] at h
      rcases hj : List.findIdx? pred as with _ | j
      · rw [hj] at h
        simp at h
      · rw [hj] at h
        simp at h
        obtain ⟨x, hx1, hx2⟩ := ih hj
        subst h
        refine ⟨x, hx1, ?_⟩
        have he : (a :: as).eraseIdx (j + 1) = a :: as.eraseIdx j := rfl
        rw [he]
        exact (hx2.cons a).trans (List.Perm.swap x a _)

/-- Conclusions of one remove step at a node. -/
def remResult (O : BoxOps β) (maxE p : ℕ) (n : GNode β) :
    Option (Option (GNode β)) → Prop
  | none => True
  | some none => ∃ x : Item, x.ptr = p ∧ gItems n = [x]
  | some (some n2) => exactN O n2 ∧ countsN 1 maxE n2 ∧ 1 ≤ n2.childCount ∧
      n2.childCount ≤ n.childCount ∧
      ∃ x : Item, x.ptr = p ∧ List.Perm (gItems n) (x :: gItems n2)

/-- Conclusions of one remove step over a children list. -/
def remResultL (O : BoxOps β) (maxE p : ℕ) (cs : List (GNode β)) :
    Option (List (GNode β)) → Prop
  | none => True
  | some cs2 => exactL O cs2 ∧ countsL 1 maxE cs2 ∧
      (cs2.length = cs.length ∨ cs2.length + 1 = cs.length) ∧
      ∃ x : Item, x.ptr = p ∧ List.Perm (gItemsL cs) (x :: gItemsL cs2)

/-- The remove traversal and condensation preserve the structural
invariants and delete exactly one slot whose handle matches. -/
theorem gRemove_spec (L : BoxLaws O) {maxE p : ℕ} {bbox : β} :
    ∀ n : GNode β, exactN O n → countsN 1 maxE n →
      remResult O maxE p n (gRemove O p bbox n) := by
  intro n
  induction n using gRemove.induct O p bbox
    (motive_2 := fun cs => exactL O cs → countsL 1 maxE cs →
      remResultL O maxE p cs (gRemoveL O p bbox cs)) with
  | case1 b hgt its hfind =>
    intro hE hC
    rw [gRemove, hfind]
    rw [remResult]
    trivial
  | case2 b hgt its i hfind its2 hemp =>
    intro hE hC
    rw [gRemove, hfind]
    dsimp only
    rw [if_pos hemp]
    rw [remResult]
    obtain ⟨x, hx1, hx2⟩ := findIdx?_erase hfind
    refine ⟨x, by simpa using hx1, ?_⟩
    rw [gItems]
    have h2 : its.eraseIdx i = [] := List.length_eq_zero.1 hemp
    rw [h2] at hx2
    exact List.perm_singleton.1 hx2
  | case3 b hgt its i hfind its2 hnemp =>
    intro hE hC
    rw [gRemove, hfind]
    dsimp only
    rw [if_neg hnemp]
    rw [remResult]
    obtain ⟨x, hx1, hx2⟩ := findIdx?_erase hfind
    rw [countsN] at hC
    refine ⟨rfl, ?_, ?_, ?_, x, by simpa using hx1, by rw [gItems, gItems]; exact hx2⟩
    · rw [countsN]
      show (its.eraseIdx i).length ≤ maxE
      have h10 := hx2.length_eq
      simp at h10
      omega
    · rw [GNode.childCount]
      show 1 ≤ (its.eraseIdx i).length
      have h11 : ¬ (its.eraseIdx i).length = 0 := hnemp
      omega
    · rw [GNode.childCount, GNode.childCount]
      show (its.eraseIdx i).length ≤ its.length
      have h10 := hx2.length_eq
      simp at h10
      omega
  | case4 b hgt cs hcont hnone ihl =>
    intro hE hC
    rw [gRemove]
    rw [if_pos hcont, hnone]
    rw [remResult]
    trivial
  | case5 b hgt cs hcont cs2 hsome hemp ihl =>
    intro hE hC
    rw [exactN] at hE
    rw [countsN] at hC
    have hl := ihl hE.2 hC.2.2
    rw [hsome, remResultL] at hl
    rw [gRemove]
    rw [if_pos hcont, hsome]
    dsimp only
    rw [if_pos hemp]
    rw [remResult]
    obtain ⟨_, _, _, x, hx1, hx2⟩ := hl
    refine ⟨x, hx1, ?_⟩
    rw [gItems]
    have h2 : cs2 = [] := List.length_eq_zero.1 hemp
    subst h2
    have h3 : gItemsL ([] : List (GNode β)) = [] := rfl
    rw [h3] at hx2
    exact List.perm_singleton.1 hx2
  | case6 b hgt cs hcont cs2 hsome hnemp ihl =>
    intro hE hC
    rw [exactN] at hE
    rw [countsN] at hC
    have hl := ihl hE.2 hC.2.2
    rw [hsome, remResultL] at hl
    rw [gRemove]
    rw [if_pos hcont, hsome]
    dsimp only
    rw [if_neg hnemp]
    rw [remResult]
    obtain ⟨hl1, hl2, hl3, x, hx1, hx2⟩ := hl
    refine ⟨⟨rfl, hl1⟩, ?_, ?_, ?_, x, hx1, ?_⟩
    · rw [countsN]
      refine ⟨by omega, by omega, hl2⟩
    · rw [GNode.childCount]
      omega
    · rw [GNode.childCount, GNode.childCount]
      omega
    · rw [gItems, gItems]
      exact hx2
  | case7 b hgt cs hncont =>
    intro hE hC
    rw [gRemove]
    rw [if_neg hncont]
    rw [remResult]
    trivial
  | case8 =>
    rename_i hE hC
    rw [gRemoveL]
    rw [remResultL]
    trivial
  | case9 c cs hcnone ihc =>
    rename_i hE hC
    rw [exactL] at hE
    rw [countsL] at hC
    have hc := ihc hE.1 hC.1.2
    rw [hcnone, remResult] at hc
    rw [gRemoveL, hcnone]
    rw [remResultL]
    obtain ⟨x, hx1, hx2⟩ := hc
    refine ⟨hE.2, hC.2, by right; simp, x, hx1, ?_⟩
    rw [gItemsL, hx2]
    exact List.Perm.refl _
  | case10 c cs c2 hcsome ihc =>
    rename_i hE hC
    rw [exactL] at hE
    rw [countsL] at hC
    have hc := ihc hE.1 hC.1.2
    rw [hcsome, remResult] at hc
    rw [gRemoveL, hcsome]
    rw [remResultL]
    obtain ⟨hc1, hc2, hc3, hc4, x, hx1, hx2⟩ := hc
    refine ⟨⟨hc1, hE.2⟩, ⟨⟨hc3, hc2⟩, hC.2⟩, by left; simp, x, hx1, ?_⟩
    rw [gItemsL, gItemsL]
    refine (hx2.append_right _).trans ?_
    rw [List.cons_append]
  | case11 c cs hcnone cs2 hlsome ihc ihl =>
    rename_i hE hC
    rw [exactL] at hE
    rw [countsL] at hC
    have hl := ihl hE.2 hC.2
    rw [hlsome, remResultL] at hl
    rw [gRemoveL, hcnone, hlsome]
    rw [remResultL]
    obtain ⟨hl1, hl2, hl3, x, hx1, hx2⟩ := hl
    refine ⟨⟨hE.1, hl1⟩, ⟨hC.1, hl2⟩, by rcases hl3 with h | h; left; simp [h]; right; simp; omega, x, hx1, ?_⟩
    rw [gItemsL, gItemsL]
    refine ((hx2.append_left _).trans ?_)
    exact List.perm_middle
  | case12 c cs hcnone hlnone ihc ihl =>
    rename_i hE hC
    rw [gRemoveL, hcnone, hlnone]
    rw [remResultL]
    trivial

mutual
/-- If no stored item has the handle, the traversal reports not-found. -/
theorem gRemove_notFound {β2 : Type} {O2 : BoxOps β2} {p : ℕ} {bbox : β2} :
    ∀ n : GNode β2, (∀ x ∈ gItems n, x.ptr ≠ p) → gRemove O2 p bbox n = none
  | .leafN b ht its => by
    intro hno
    rw [gRemove]
    have hfind : List.findIdx? (fun x => x.ptr == p) its = none := by
      rw [List.findIdx?_eq_none_iff]
      intro x hx
      simp
      exact hno x (by rw [gItems]; exact hx)
    rw [hfind]
  | .innerN b ht cs => by
    intro hno
    rw [gRemove]
    split
    · have hl : gRemoveL O2 p bbox cs = none :=
        gRemoveL_notFound cs (fun x hx => hno x (by rw [gItems]; exact hx))
      rw [hl]
    · rfl
/-- List form. -/
theorem gRemoveL_notFound {β2 : Type} {O2 : BoxOps β2} {p : ℕ} {bbox : β2} :
    ∀ cs : List (GNode β2), (∀ x ∈ gItemsL cs, x.ptr ≠ p) → gRemoveL O2 p bbox cs = none
  | [] => by
    intro _
    rw [gRemoveL]
  | c :: cs => by
    intro hno
    rw [gRemoveL]
    have hc : gRemove O2 p bbox c = none :=
      gRemove_notFound c (fun x hx => hno x (by rw [gItemsL]; exact List.mem_append_left _ hx))
    have hl : gRemoveL O2 p bbox cs = none :=
      gRemoveL_notFound cs (fun x hx => hno x (by rw [gItemsL]; exact List.mem_append_right _ hx))
    rw [hc, hl]
end

mutual
/-- If the very item (handle and rectangle) is stored below the node, the
traversal finds it: the containment pruning never hides it, by I1/I2. -/
theorem gRemove_found {β2 : Type} {O2 : BoxOps β2} (L : BoxLaws O2) {it : Item} :
    ∀ n : GNode β2, exactN O2 n → it ∈ gItems n →
      gRemove O2 it.ptr (O2.itemBox it) n ≠ none
  | .leafN b ht its => by
    intro hE hmem
    rw [gRemove]
    rcases hfind : List.findIdx? (fun x => x.ptr == it.ptr) its with _ | i
    · rw [List.findIdx?_eq_none_iff] at hfind
      have := hfind it (by rw [gItems] at hmem; exact hmem)
      simp at this
    · rw [hfind]
      dsimp only
      split <;> simp
  | .innerN b ht cs => by
    intro hE hmem
    rw [gRemove]
    rw [exactN] at hE
    have hcont : O2.containsB (GNode.innerN b ht cs).bboxOf (O2.itemBox it) = true :=
      exactN_contains_item L (GNode.innerN b ht cs) (by rw [exactN]; exact hE) hmem
    rw [GNode.bboxOf] at hcont
    rw [if_pos hcont]
    have hl : gRemoveL O2 it.ptr (O2.itemBox it) cs ≠ none :=
      gRemoveL_found L cs hE.2 (by rw [gItems] at hmem; exact hmem)
    rcases hsome : gRemoveL O2 it.ptr (O2.itemBox it) cs with _ | cs2
    · exact absurd hsome hl
    · dsimp only
      split <;> simp
/-- List form. -/
theorem gRemoveL_found {β2 : Type} {O2 : BoxOps β2} (L : BoxLaws O2) {it : Item} :
    ∀ cs : List (GNode β2), exactL O2 cs → it ∈ gItemsL cs →
      gRemoveL O2 it.ptr (O2.itemBox it) cs ≠ none
  | [] => by
    intro _ hmem
    rw [gItemsL] at hmem
    cases hmem
  | c :: cs => by
    intro hE hmem
    rw [exactL] at hE
    rw [gItemsL] at hmem
    rw [gRemoveL]
    rcases hc : gRemove O2 it.ptr (O2.itemBox it) c with _ | oc
    · rcases List.mem_append.1 hmem with hm1 | hm2
      · exact absurd hc (gRemove_found L c hE.1 hm1)
      · have hl : gRemoveL O2 it.ptr (O2.itemBox it) cs ≠ none :=
          gRemoveL_found L cs hE.2 hm2
        rcases hls : gRemoveL O2 it.ptr (O2.itemBox it) cs with _ | cs2
        · exact absurd hls hl
        · simp
    · rcases oc with _ | c2 <;> simp
end

end RemoveSpec

/-! ## Search correctness -/

mutual
/-- With I1/I2, the recursive search delivers exactly the stored items whose
rectangle intersects the query, in storage (scan) order: pruning a subtree
whose bbox misses the query loses nothing. -/
theorem gSearch_filter {β : Type} {O : BoxOps β} (L : BoxLaws O) (q : β) :
    ∀ n : GNode β, exactN O n →
      gSearch O q n = (gItems n).filter (fun x => O.intersectsB q (O.itemBox x))
  | .leafN b ht its => by
    intro hE
    rw [gSearch, gItems]
  | .innerN b ht cs => by
    intro hE
    rw [exactN] at hE
    rw [gSearch, gItems]
    exact gSearchL_filter L q cs hE.2
/-- List form. -/
theorem gSearchL_filter {β : Type} {O : BoxOps β} (L : BoxLaws O) (q : β) :
    ∀ cs : List (GNode β), exactL O cs →
      gSearchL O q cs = (gItemsL cs).filter (fun x => O.intersectsB q (O.itemBox x))
  | [] => by
    intro _
    rw [gSearchL, gItemsL]
    rfl
  | c :: cs => by
    intro hE
    rw [exactL] at hE
    rw [gSearchL, gItemsL, List.filter_append]
    rw [gSearchL_filter L q cs hE.2]
    split
    · next hint =>
      rw [gSearch_filter L q c hE.1]
    · next hnint =>
      have hnil : (gItems c).filter (fun x => O.intersectsB q (O.itemBox x)) = [] := by
        rw [List.filter_eq_nil]
        intro x hx
        intro hpred
        exact hnint (L.intersects_mono _ _ _ (exactN_contains_item L c hE.1 hx) hpred)
      rw [hnil]
end

/-- `searchBBox` (root intersection guard included) delivers exactly the
intersecting stored items. -/
theorem searchT_filter {β : Type} {O : BoxOps β} (L : BoxLaws O) (t : GTree β) (q : β)
    (hE : exactN O t.data) :
    searchT O t q = (gItems t.data).filter (fun x => O.intersectsB q (O.itemBox x)) := by
  rw [searchT]
  split
  · next hroot => exact gSearch_filter L q t.data hE
  · next hnroot =>
    have hnil : (gItems t.data).filter (fun x => O.intersectsB q (O.itemBox x)) = [] := by
      rw [List.filter_eq_nil]
      intro x hx hpred
      have h2 := L.intersects_mono _ _ _ (exactN_contains_item L t.data hE hx) hpred
      rw [L.intersects_symm] at h2
      exact hnroot h2
    rw [hnil]

/-! ## Tree-level invariants -/

section TreeLevel

variable {β : Type} {O : BoxOps β}

/-- The tree invariant: I1/I2 everywhere, and child counts in
`[low, maxEntries]` for every non-root node (the root only bounded above,
and nonempty when it is an inner node). -/
def treeWF (O : BoxOps β) (low : ℕ) (t : GTree β) : Prop :=
  exactN O t.data ∧ countsN low t.maxEntries t.data

theorem insertT_maxEntries (t : GTree β) (it : Item) :
    (insertT O t it).maxEntries = t.maxEntries := by
  rw [insertT]
  split <;> rfl

theorem insertT_minEntries (t : GTree β) (it : Item) :
    (insertT O t it).minEntries = t.minEntries := by
  rw [insertT]
  split <;> rfl

theorem removeT_maxEntries (t : GTree β) (it : Item) :
    (removeT O t it).maxEntries = t.maxEntries := by
  rw [removeT]
  split <;> rfl

theorem removeT_minEntries (t : GTree β) (it : Item) :
    (removeT O t it).minEntries = t.minEntries := by
  rw [removeT]
  split <;> rfl

/-- `Insert` preserves the tree invariant and adds exactly the new item. -/
theorem insertT_wf (L : BoxLaws O) (low : ℕ) (t : GTree β) (it : Item)
    (hlow1 : 1 ≤ low) (hlowm : low ≤ t.minEntries)
    (hmM : t.minEntries + t.minEntries ≤ t.maxEntries + 1) (h2M : 2 ≤ t.maxEntries)
    (hwf : treeWF O low t) :
    treeWF O low (insertT O t it) ∧
      List.Perm (gItems (insertT O t it).data) (it :: gItems t.data) := by
  obtain ⟨hE, hC⟩ := hwf
  have hspec := gInsertRec_spec L it hlow1 hlowm hmM t.data hE hC
  rw [insertT]
  rcases hres : gInsertRec O t.maxEntries t.minEntries (O.itemBox it) it t.data
    with n2 | ⟨a, b⟩
  · rw [hres, insResult] at hspec
    obtain ⟨h1, h2, _, h4, _⟩ := hspec
    exact ⟨⟨h1, h2⟩, h4⟩
  · rw [hres, insResult] at hspec
    obtain ⟨h1, h2, h3, h4, _, h6, h7, h8, h9, h10⟩ := hspec
    constructor
    · constructor
      · show exactN O (GNode.innerN (calcList O [a.bboxOf, b.bboxOf]) (a.hgt + 1) [a, b])
        rw [exactN]
        refine ⟨rfl, ?_⟩
        rw [exactL, exactL, exactL]
        exact ⟨h1, h2, trivial⟩
      · show countsN low t.maxEntries
          (GNode.innerN (calcList O [a.bboxOf, b.bboxOf]) (a.hgt + 1) [a, b])
        rw [countsN]
        refine ⟨by simp, by simp; omega, ?_⟩
        rw [countsL, countsL, countsL]
        exact ⟨⟨le_trans hlowm h7, h3⟩, ⟨le_trans hlowm h9, h4⟩, trivial⟩
    · show List.Perm (gItems (GNode.innerN (calcList O [a.bboxOf, b.bboxOf]) (a.hgt + 1) [a, b]))
        (it :: gItems t.data)
      have hji : gItems (GNode.innerN (calcList O [a.bboxOf, b.bboxOf]) (a.hgt + 1) [a, b])
          = gItems a ++ (gItems b ++ []) := rfl
      rw [hji, List.append_nil]
      exact h6

/-- `Remove` preserves the (general) tree invariant and deletes at most one
slot, whose handle matches. -/
theorem removeT_wf (L : BoxLaws O) (t : GTree β) (it : Item)
    (hwf : treeWF O 1 t) :
    treeWF O 1 (removeT O t it) ∧
      (removeT O t it = t ∨
        ∃ x : Item, x.ptr = it.ptr ∧
          List.Perm (gItems t.data) (x :: gItems (removeT O t it).data)) := by
  obtain ⟨hE, hC⟩ := hwf
  have hspec : remResult O t.maxEntries it.ptr t.data
      (gRemove O it.ptr (O.itemBox it) t.data) := gRemove_spec L t.data hE hC
  rw [removeT]
  rcases hres : gRemove O it.ptr (O.itemBox it) t.data with _ | on2
  · exact ⟨⟨hE, hC⟩, Or.inl rfl⟩
  · rcases on2 with _ | n2
    · rw [hres, remResult] at hspec
      obtain ⟨x, hx1, hx2⟩ := hspec
      constructor
      · constructor
        · rw [exactN]
          rfl
        · rw [countsN]
          simp
      · right
        refine ⟨x, hx1, ?_⟩
        rw [hx2]
        have hni : gItems (GNode.leafN O.emptyR 1 ([] : List Item)) = [] := rfl
        rw [hni]
    · rw [hres, remResult] at hspec
      obtain ⟨h1, h2, h3, h4, x, hx1, hx2⟩ := hspec
      exact ⟨⟨h1, h2⟩, Or.inr ⟨x, hx1, hx2⟩⟩

mutual
/-- Count is the number of stored items. -/
theorem gCount_eq_items : ∀ n : GNode β, gCount n = (gItems n).length
  | .leafN b ht its => by rw [gCount, gItems]
  | .innerN b ht cs => by
    rw [gCount, gItems]
    exact gCountL_eq_items cs
/-- List form. -/
theorem gCountL_eq_items : ∀ cs : List (GNode β), gCountL cs = (gItemsL cs).length
  | [] => by rw [gCountL, gItemsL]; rfl
  | c :: cs => by
    rw [gCountL, gItemsL, List.length_append, gCount_eq_items c, gCountL_eq_items cs]
end

end TreeLevel

/-! ## Hybrid-level invariants -/

/-- The tree parameters `New()` sets (M = 9, m = 4). -/
def hybridParams (h : Hybrid) : Prop :=
  h.tr2.maxEntries = 9 ∧ h.tr2.minEntries = 4 ∧
  h.tr3.maxEntries = 9 ∧ h.tr3.minEntries = 4

/-- The invariant every reachable hybrid state satisfies: I1/I2 plus child
counts in `[1, M]` off the root. -/
def hybridWF (h : Hybrid) : Prop :=
  treeWF ops2 1 h.tr2 ∧ treeWF ops3 1 h.tr3 ∧ hybridParams h

/-- The stronger invariant of insert-only histories: child counts in
`[m, M]` off the root. -/
def hybridWFmin (h : Hybrid) : Prop :=
  treeWF ops2 4 h.tr2 ∧ treeWF ops3 4 h.tr3 ∧ hybridParams h

theorem minEntriesOf_nine : minEntriesOf 9 = 4 := by
  rw [minEntriesOf]
  have h2 : Nat.ceil ((2 * (9 : ℕ) : ℚ) / 5) = 4 := by
    rw [Nat.ceil_eq_iff (by norm_num)]
    norm_num
  rw [h2]
  rfl

theorem hybridNew_wf : hybridWF hybridNew := by
  refine ⟨⟨rfl, ?_⟩, ⟨rfl, ?_⟩, ?_⟩
  · show ([] : List Item).length ≤ (newTree ops2).maxEntries
    simp
  · show ([] : List Item).length ≤ (newTree ops3).maxEntries
    simp
  · refine ⟨rfl, ?_, rfl, ?_⟩ <;>
      simpa [newTree] using minEntriesOf_nine

theorem hybridNew_wfmin : hybridWFmin hybridNew := by
  refine ⟨⟨rfl, ?_⟩, ⟨rfl, ?_⟩, ?_⟩
  · show ([] : List Item).length ≤ (newTree ops2).maxEntries
    simp
  · show ([] : List Item).length ≤ (newTree ops3).maxEntries
    simp
  · refine ⟨rfl, ?_, rfl, ?_⟩ <;>
      simpa [newTree] using minEntriesOf_nine

theorem Hybrid.insertH_params {h : Hybrid} {it : Item} (hp : hybridParams h) :
    hybridParams (h.insertH it) := by
  obtain ⟨p1, p2, p3, p4⟩ := hp
  rw [Hybrid.insertH]
  split
  · refine ⟨?_, ?_, p3, p4⟩
    · show (insertT ops2 h.tr2 it).maxEntries = 9
      rw [insertT_maxEntries]
      exact p1
    · show (insertT ops2 h.tr2 it).minEntries = 4
      rw [insertT_minEntries]
      exact p2
  · refine ⟨p1, p2, ?_, ?_⟩
    · show (insertT ops3 h.tr3 it).maxEntries = 9
      rw [insertT_maxEntries]
      exact p3
    · show (insertT ops3 h.tr3 it).minEntries = 4
      rw [insertT_minEntries]
      exact p4

theorem Hybrid.removeH_params {h : Hybrid} {it : Item} (hp : hybridParams h) :
    hybridParams (h.removeH it) := by
  obtain ⟨p1, p2, p3, p4⟩ := hp
  rw [Hybrid.removeH]
  split
  · refine ⟨?_, ?_, p3, p4⟩
    · show (removeT ops2 h.tr2 it).maxEntries = 9
      rw [removeT_maxEntries]
      exact p1
    · show (removeT ops2 h.tr2 it).minEntries = 4
      rw [removeT_minEntries]
      exact p2
  · refine ⟨p1, p2, ?_, ?_⟩
    · show (removeT ops3 h.tr3 it).maxEntries = 9
      rw [removeT_maxEntries]
      exact p3
    · show (removeT ops3 h.tr3 it).minEntries = 4
      rw [removeT_minEntries]
      exact p4

/-- All items stored in the hybrid index (2D tree first). -/
def storedItems (h : Hybrid) : List Item := gItems h.tr2.data ++ gItems h.tr3.data

/-- Dispatch soundness: the 2D tree stores only 2D items, the 3D tree the
rest. -/
def dimsOK (h : Hybrid) : Prop :=
  (∀ x ∈ gItems h.tr2.data, x.dims = 2) ∧ (∀ x ∈ gItems h.tr3.data, x.dims ≠ 2)

theorem hybridNew_dimsOK : dimsOK hybridNew := by
  constructor <;> intro x hx <;> cases hx

/-- Hybrid `Insert` preserves the invariant; the touched tree gains exactly
the new item and the other tree is untouched. -/
theorem Hybrid.insertH_wf {h : Hybrid} {it : Item} (hw : hybridWF h) :
    hybridWF (h.insertH it) ∧
      ((it.dims = 2 ∧
          List.Perm (gItems (h.insertH it).tr2.data) (it :: gItems h.tr2.data) ∧
          (h.insertH it).tr3 = h.tr3) ∨
        (¬ it.dims = 2 ∧ (h.insertH it).tr2 = h.tr2 ∧
          List.Perm (gItems (h.insertH it).tr3.data) (it :: gItems h.tr3.data))) := by
  obtain ⟨hw2, hw3, p1, p2, p3, p4⟩ := hw
  have hpar : hybridParams (h.insertH it) := Hybrid.insertH_params ⟨p1, p2, p3, p4⟩
  rw [Hybrid.insertH] at hpar ⊢
  by_cases hd : it.dims = 2
  · rw [if_pos hd] at hpar ⊢
    have hins := insertT_wf laws2 1 h.tr2 it (le_refl 1) (by rw [p2]; omega)
      (by rw [p2, p1]; omega) (by rw [p1]; omega) hw2
    exact ⟨⟨hins.1, hw3, hpar⟩, Or.inl ⟨hd, hins.2, rfl⟩⟩
  · rw [if_neg hd] at hpar ⊢
    have hins := insertT_wf laws3 1 h.tr3 it (le_refl 1) (by rw [p4]; omega)
      (by rw [p4, p3]; omega) (by rw [p3]; omega) hw3
    exact ⟨⟨hw2, hins.1, hpar⟩, Or.inr ⟨hd, rfl, hins.2⟩⟩

/-- Hybrid `Remove` preserves the invariant; either nothing changes or one
slot with the requested handle leaves the touched tree. -/
theorem Hybrid.removeH_wf {h : Hybrid} {it : Item} (hw : hybridWF h) :
    hybridWF (h.removeH it) ∧
      ((h.removeH it).tr2 = h.tr2 ∨
        ∃ x : Item, x.ptr = it.ptr ∧
          List.Perm (gItems h.tr2.data) (x :: gItems (h.removeH it).tr2.data)) ∧
      ((h.removeH it).tr3 = h.tr3 ∨
        ∃ x : Item, x.ptr = it.ptr ∧
          List.Perm (gItems h.tr3.data) (x :: gItems (h.removeH it).tr3.data)) := by
  obtain ⟨hw2, hw3, p1, p2, p3, p4⟩ := hw
  have hpar : hybridParams (h.removeH it) := Hybrid.removeH_params ⟨p1, p2, p3, p4⟩
  rw [Hybrid.removeH] at hpar ⊢
  by_cases hd : it.dims = 2
  · rw [if_pos hd] at hpar ⊢
    have hrem := removeT_wf laws2 h.tr2 it hw2
    refine ⟨⟨hrem.1, hw3, hpar⟩, ?_, Or.inl rfl⟩
    rcases hrem.2 with heq | hfound
    · exact Or.inl heq
    · exact Or.inr hfound
  · rw [if_neg hd] at hpar ⊢
    have hrem := removeT_wf laws3 h.tr3 it hw3
    refine ⟨⟨hw2, hrem.1, hpar⟩, Or.inl rfl, ?_⟩
    rcases hrem.2 with heq | hfound
    · exact Or.inl heq
    · exact Or.inr hfound

theorem applyOp_wf {h : Hybrid} {op : HOp} (hw : hybridWF h) : hybridWF (applyOp h op) := by
  cases op with
  | insOp it => exact (Hybrid.insertH_wf hw).1
  | remOp it => exact (Hybrid.removeH_wf hw).1

theorem applyOp_dimsOK {h : Hybrid} {op : HOp} (hw : hybridWF h) (hdo : dimsOK h) :
    dimsOK (applyOp h op) := by
  obtain ⟨d2, d3⟩ := hdo
  cases op with
  | insOp it =>
    rcases (Hybrid.insertH_wf hw).2 with ⟨hd, hp2, he3⟩ | ⟨hd, he2, hp3⟩
    · refine ⟨?_, ?_⟩
      · intro x hx
        rcases List.mem_cons.1 (hp2.mem_iff.1 hx) with h1 | h2
        · rw [h1]; exact hd
        · exact d2 x h2
      · rw [applyOp]; rw [he3]; exact d3
    · refine ⟨?_, ?_⟩
      · rw [applyOp]; rw [he2]; exact d2
      · intro x hx
        rcases List.mem_cons.1 (hp3.mem_iff.1 hx) with h1 | h2
        · rw [h1]; exact hd
        · exact d3 x h2
  | remOp it =>
    obtain ⟨_, hr2, hr3⟩ := Hybrid.removeH_wf hw
    refine ⟨?_, ?_⟩
    · rcases hr2 with heq | ⟨x, _, hp⟩
      · rw [applyOp]; rw [heq]; exact d2
      · intro y hy
        exact d2 y (hp.mem_iff.2 (List.mem_cons_of_mem x hy))
    · rcases hr3 with heq | ⟨x, _, hp⟩
      · rw [applyOp]; rw [heq]; exact d3
      · intro y hy
        exact d3 y (hp.mem_iff.2 (List.mem_cons_of_mem x hy))

theorem foldl_applyOp_wf (ops : List HOp) (h : Hybrid) (hw : hybridWF h) :
    hybridWF (ops.foldl applyOp h) := by
  induction ops generalizing h with
  | nil => exact hw
  | cons op ops ih => exact ih _ (applyOp_wf hw)

theorem foldl_applyOp_dimsOK (ops : List HOp) (h : Hybrid) (hw : hybridWF h)
    (hdo : dimsOK h) : dimsOK (ops.foldl applyOp h) := by
  induction ops generalizing h with
  | nil => exact hdo
  | cons op ops ih => exact ih _ (applyOp_wf hw) (applyOp_dimsOK hw hdo)

/-- Every reachable hybrid state is well formed. -/
theorem applyOps_wf (ops : List HOp) : hybridWF (applyOps ops) :=
  foldl_applyOp_wf ops hybridNew hybridNew_wf

/-- Every reachable hybrid state dispatches dimensions correctly. -/
theorem applyOps_dimsOK (ops : List HOp) : dimsOK (applyOps ops) :=
  foldl_applyOp_dimsOK ops hybridNew hybridNew_wf hybridNew_dimsOK

/-- A history with no removes. -/
def insOnlyB : List HOp → Bool
  | [] => true
  | .insOp _ :: ops => insOnlyB ops
  | .remOp _ :: _ => false

/-- Insert preserves the stronger invariant of insert-only histories. -/
theorem Hybrid.insertH_wfmin {h : Hybrid} {it : Item} (hw : hybridWFmin h) :
    hybridWFmin (h.insertH it) := by
  obtain ⟨hw2, hw3, p1, p2, p3, p4⟩ := hw
  have hpar : hybridParams (h.insertH it) := Hybrid.insertH_params ⟨p1, p2, p3, p4⟩
  rw [Hybrid.insertH] at hpar ⊢
  by_cases hd : it.dims = 2
  · rw [if_pos hd] at hpar ⊢
    have hins := insertT_wf laws2 4 h.tr2 it (by omega) (by rw [p2])
      (by rw [p2, p1]; omega) (by rw [p1]; omega) hw2
    exact ⟨hins.1, hw3, hpar⟩
  · rw [if_neg hd] at hpar ⊢
    have hins := insertT_wf laws3 4 h.tr3 it (by omega) (by rw [p4])
      (by rw [p4, p3]; omega) (by rw [p3]; omega) hw3
    exact ⟨hw2, hins.1, hpar⟩

theorem hybridWFmin_wf {h : Hybrid} (hw : hybridWFmin h) : hybridWF h := by
  obtain ⟨⟨e2, c2⟩, ⟨e3, c3⟩, hp⟩ := hw
  exact ⟨⟨e2, countsN_mono (by omega) _ c2⟩, ⟨e3, countsN_mono (by omega) _ c3⟩, hp⟩

/-- After an insert-only history the stronger invariant holds and each tree
stores exactly the inserted items of its dimensionality. -/
theorem foldl_insOnly (ops : List HOp) (h : Hybrid) (hw : hybridWFmin h)
    (hio : insOnlyB ops = true) :
    hybridWFmin (ops.foldl applyOp h) ∧
      List.Perm (gItems (ops.foldl applyOp h).tr2.data)
        ((insItems ops).filter (fun x => x.dims == 2) ++ gItems h.tr2.data) ∧
      List.Perm (gItems (ops.foldl applyOp h).tr3.data)
        ((insItems ops).filter (fun x => ¬ x.dims == 2) ++ gItems h.tr3.data) := by
  induction ops generalizing h with
  | nil =>
    refine ⟨hw, ?_, ?_⟩ <;>
      · rw [insItems]
        exact List.Perm.refl _
  | cons op ops ih =>
    cases op with
    | remOp it => rw [insOnlyB] at hio; cases hio
    | insOp it =>
      rw [insOnlyB] at hio
      have hstep := @Hybrid.insertH_wf h it (hybridWFmin_wf hw)
      have hmin : hybridWFmin (h.insertH it) := Hybrid.insertH_wfmin hw
      have hfold := ih (h.insertH it) hmin hio
      obtain ⟨hw2, hp2, hp3⟩ := hfold
      refine ⟨hw2, ?_, ?_⟩
      · rw [insItems]
        rcases hstep.2 with ⟨hd, hperm, he3⟩ | ⟨hd, he2, hp3'⟩
        · have hfil : (it :: insItems ops).filter (fun x => x.dims == 2)
              = it :: (insItems ops).filter (fun x => x.dims == 2) := by
            rw [List.filter_cons]
            simp [hd]
          rw [hfil]
          refine hp2.trans ?_
          refine (List.Perm.append_left _ hperm).trans ?_
          exact List.perm_middle
        · have hfil : (it :: insItems ops).filter (fun x => x.dims == 2)
              = (insItems ops).filter (fun x => x.dims == 2) := by
            rw [List.filter_cons]
            simp [hd]
          rw [hfil]
          refine hp2.trans ?_
          rw [he2]
      · rw [insItems]
        rcases hstep.2 with ⟨hd, hperm, he3⟩ | ⟨hd, he2, hp3'⟩
        · have hfil : (it :: insItems ops).filter (fun x => ¬ x.dims == 2)
              = (insItems ops).filter (fun x => ¬ x.dims == 2) := by
            rw [List.filter_cons]
            simp [hd]
          rw [hfil]
          refine hp3.trans ?_
          rw [he3]
        · have hfil : (it :: insItems ops).filter (fun x => ¬ x.dims == 2)
              = it :: (insItems ops).filter (fun x => ¬ x.dims == 2) := by
            rw [List.filter_cons]
            simp [hd]
          rw [hfil]
          refine hp3.trans ?_
          refine (List.Perm.append_left _ hp3').trans ?_
          exact List.perm_middle

theorem hybridNew_items2 : gItems (hybridNew.tr2.data) = [] := rfl

theorem hybridNew_items3 : gItems (hybridNew.tr3.data) = [] := rfl

/-- Specialisation to histories starting from `New()`. -/
theorem applyOps_insOnly (ops : List HOp) (hio : insOnlyB ops = true) :
    hybridWFmin (applyOps ops) ∧
      List.Perm (gItems (applyOps ops).tr2.data)
        ((insItems ops).filter (fun x => x.dims == 2)) ∧
      List.Perm (gItems (applyOps ops).tr3.data)
        ((insItems ops).filter (fun x => ¬ x.dims == 2)) := by
  have h := foldl_insOnly ops hybridNew hybridNew_wfmin hio
  rw [hybridNew_items2, hybridNew_items3, List.append_nil, List.append_nil] at h
  exact h

/-! ## Root bbox in terms of the stored items -/

section BBoxItems

variable {β : Type} {O : BoxOps β}

mutual
/-- Under I1/I2 a node's bbox is the union of all item rectangles below
it. -/
theorem bbox_items (L : BoxLaws O) :
    ∀ n : GNode β, exactN O n → n.bboxOf = calcList O ((gItems n).map O.itemBox)
  | .leafN b ht its => by
    intro hE
    rw [exactN] at hE
    rw [GNode.bboxOf, gItems]
    exact hE
  | .innerN b ht cs => by
    intro hE
    rw [exactN] at hE
    rw [GNode.bboxOf, gItems, hE.1]
    exact bbox_itemsL L cs hE.2
/-- List form. -/
theorem bbox_itemsL (L : BoxLaws O) :
    ∀ cs : List (GNode β), exactL O cs →
      calcList O (cs.map GNode.bboxOf) = calcList O ((gItemsL cs).map O.itemBox)
  | [] => by
    intro _
    rfl
  | c :: cs => by
    intro hE
    rw [exactL] at hE
    rw [gItemsL, List.map_cons, List.map_append, calcList_cons L, calcList_append L]
    rw [bbox_items L c hE.1, bbox_itemsL L cs hE.2]
end

/-- Below a node whose child count meets the lower bound, some item is
stored. -/
theorem gItems_ne_nil {low maxE : ℕ} (hlow : 1 ≤ low) :
    ∀ n : GNode β, countsN low maxE n → low ≤ n.childCount → gItems n ≠ []
  | .leafN b ht its => by
    intro _ hcc hnil
    rw [GNode.childCount] at hcc
    rw [gItems] at hnil
    rw [hnil] at hcc
    simp at hcc
    omega
  | .innerN b ht cs => by
    intro hC _
    rw [countsN] at hC
    obtain ⟨h1, h2, h3⟩ := hC
    cases cs with
    | nil => simp at h1
    | cons c cs2 =>
      rw [countsL] at h3
      rw [gItems, gItemsL]
      intro hnil
      rcases List.append_eq_nil.1 hnil with ⟨hc, _⟩
      exact gItems_ne_nil hlow c h3.1.2 h3.1.1 hc

/-- At the root, an empty child list is the same as an empty tree. -/
theorem childCount_zero_iff {low maxE : ℕ} (hlow : 1 ≤ low) (n : GNode β)
    (hC : countsN low maxE n) : n.childCount = 0 ↔ gItems n = [] := by
  cases n with
  | leafN b ht its =>
    rw [GNode.childCount, gItems]
    exact List.length_eq_zero
  | innerN b ht cs =>
    rw [countsN] at hC
    obtain ⟨h1, h2, h3⟩ := hC
    constructor
    · intro h
      rw [GNode.childCount] at h
      omega
    · intro h
      exfalso
      cases cs with
      | nil => simp at h1
      | cons c cs2 =>
        rw [countsL] at h3
        rw [gItems, gItemsL] at h
        rcases List.append_eq_nil.1 h with ⟨hc, _⟩
        exact gItems_ne_nil hlow c h3.1.2 h3.1.1 hc

end BBoxItems

/-! ## Axis-wise folds for `Bounds` -/

/-- Axis-wise minimum of a list of scalars (the identity is the bbox
sentinel `+Inf`). -/
def foldMinF (l : List F) : F := l.foldl F.mathMin F.pinf

/-- Axis-wise maximum. -/
def foldMaxF (l : List F) : F := l.foldl F.mathMax F.ninf

theorem foldl_mathMin_eq : ∀ (l : List F) (a : F), l.foldl F.mathMin a = F.mathMin a (foldMinF l) := by
  intro l
  induction l with
  | nil =>
    intro a
    rw [foldMinF]
    simp only [List.foldl_nil]
    rw [F.mathMin_pinf_right]
  | cons c cs ih =>
    intro a
    rw [foldMinF]
    simp only [List.foldl_cons]
    rw [ih (F.mathMin a c), ih (F.mathMin F.pinf c), F.mathMin_pinf, F.mathMin_assoc]

theorem foldl_mathMax_eq : ∀ (l : List F) (a : F), l.foldl F.mathMax a = F.mathMax a (foldMaxF l) := by
  intro l
  induction l with
  | nil =>
    intro a
    rw [foldMaxF]
    simp only [List.foldl_nil]
    rw [F.mathMax_ninf_right]
  | cons c cs ih =>
    intro a
    rw [foldMaxF]
    simp only [List.foldl_cons]
    rw [ih (F.mathMax a c), ih (F.mathMax F.ninf c), F.mathMax_ninf, F.mathMax_assoc]

theorem foldMinF_cons (c : F) (l : List F) : foldMinF (c :: l) = F.mathMin c (foldMinF l) := by
  rw [foldMinF]
  simp only [List.foldl_cons]
  rw [foldl_mathMin_eq, F.mathMin_pinf]

theorem foldMaxF_cons (c : F) (l : List F) : foldMaxF (c :: l) = F.mathMax c (foldMaxF l) := by
  rw [foldMaxF]
  simp only [List.foldl_cons]
  rw [foldl_mathMax_eq, F.mathMax_ninf]

theorem foldMinF_append (l1 l2 : List F) :
    foldMinF (l1 ++ l2) = F.mathMin (foldMinF l1) (foldMinF l2) := by
  rw [foldMinF, List.foldl_append, foldl_mathMin_eq]
  rfl

theorem foldMaxF_append (l1 l2 : List F) :
    foldMaxF (l1 ++ l2) = F.mathMax (foldMaxF l1) (foldMaxF l2) := by
  rw [foldMaxF, List.foldl_append, foldl_mathMax_eq]
  rfl

theorem foldMinF_perm {l1 l2 : List F} (h : List.Perm l1 l2) : foldMinF l1 = foldMinF l2 := by
  induction h with
  | nil => rfl
  | cons x _ ih => rw [foldMinF_cons, foldMinF_cons, ih]
  | swap x y l =>
    rw [foldMinF_cons, foldMinF_cons, foldMinF_cons, foldMinF_cons,
      ← F.mathMin_assoc, ← F.mathMin_assoc, F.mathMin_comm y x]
  | trans _ _ ih1 ih2 => rw [ih1, ih2]

theorem foldMaxF_perm {l1 l2 : List F} (h : List.Perm l1 l2) : foldMaxF l1 = foldMaxF l2 := by
  induction h with
  | nil => rfl
  | cons x _ ih => rw [foldMaxF_cons, foldMaxF_cons, ih]
  | swap x y l =>
    rw [foldMaxF_cons, foldMaxF_cons, foldMaxF_cons, foldMaxF_cons,
      ← F.mathMax_assoc, ← F.mathMax_assoc, F.mathMax_comm y x]
  | trans _ _ ih1 ih2 => rw [ih1, ih2]

/-- A fold distributing over a projection. -/
theorem foldl_comp {α : Type} (ext : α → α → α) (proj : α → F) (comb : F → F → F)
    (hc : ∀ a b, proj (ext a b) = comb (proj a) (proj b)) :
    ∀ (l : List α) (a : α), proj (l.foldl ext a) = (l.map proj).foldl comb (proj a) := by
  intro l
  induction l with
  | nil => intro a; rfl
  | cons c cs ih =>
    intro a
    rw [List.foldl_cons, List.map_cons, List.foldl_cons, ih, hc]

theorem calcList3_minX (l : List Rect3) : (calcList ops3 l).minX = foldMinF (l.map Rect3.minX) :=
  foldl_comp Rect3.extend Rect3.minX F.mathMin (fun a b => rfl) l Rect3.emptyR

theorem calcList3_minY (l : List Rect3) : (calcList ops3 l).minY = foldMinF (l.map Rect3.minY) :=
  foldl_comp Rect3.extend Rect3.minY F.mathMin (fun a b => rfl) l Rect3.emptyR

theorem calcList3_minZ (l : List Rect3) : (calcList ops3 l).minZ = foldMinF (l.map Rect3.minZ) :=
  foldl_comp Rect3.extend Rect3.minZ F.mathMin (fun a b => rfl) l Rect3.emptyR

theorem calcList3_maxX (l : List Rect3) : (calcList ops3 l).maxX = foldMaxF (l.map Rect3.maxX) :=
  foldl_comp Rect3.extend Rect3.maxX F.mathMax (fun a b => rfl) l Rect3.emptyR

theorem calcList3_maxY (l : List Rect3) : (calcList ops3 l).maxY = foldMaxF (l.map Rect3.maxY) :=
  foldl_comp Rect3.extend Rect3.maxY F.mathMax (fun a b => rfl) l Rect3.emptyR

theorem calcList3_maxZ (l : List Rect3) : (calcList ops3 l).maxZ = foldMaxF (l.map Rect3.maxZ) :=
  foldl_comp Rect3.extend Rect3.maxZ F.mathMax (fun a b => rfl) l Rect3.emptyR

theorem calcList2_minX (l : List Rect2) : (calcList ops2 l).minX = foldMinF (l.map Rect2.minX) :=
  foldl_comp Rect2.extend Rect2.minX F.mathMin (fun a b => rfl) l Rect2.emptyR

theorem calcList2_minY (l : List Rect2) : (calcList ops2 l).minY = foldMinF (l.map Rect2.minY) :=
  foldl_comp Rect2.extend Rect2.minY F.mathMin (fun a b => rfl) l Rect2.emptyR

theorem calcList2_maxX (l : List Rect2) : (calcList ops2 l).maxX = foldMaxF (l.map Rect2.maxX) :=
  foldl_comp Rect2.extend Rect2.maxX F.mathMax (fun a b => rfl) l Rect2.emptyR

theorem calcList2_maxY (l : List Rect2) : (calcList ops2 l).maxY = foldMaxF (l.map Rect2.maxY) :=
  foldl_comp Rect2.extend Rect2.maxY F.mathMax (fun a b => rfl) l Rect2.emptyR

/-! ## `Bounds()` of the hybrid index -/

theorem F.mathMin_ite (a b : F) : (if F.flt a b then a else b) = F.mathMin a b := rfl

theorem F.mathMax_ite (a b : F) : (if F.flt b a then a else b) = F.mathMax a b := rfl

theorem isEmpty_of_perm {α : Type} {l1 l2 : List α} (h : List.Perm l1 l2) :
    l1.isEmpty = l2.isEmpty := by
  have hl := h.length_eq
  cases l1 <;> cases l2 <;> simp_all

theorem filter_not_dims (l : List Item) :
    l.filter (fun x => ¬ x.dims == 2) = l.filter (fun x => !(x.dims == 2)) := by
  apply List.filter_congr
  intro x _
  cases hx : x.dims == 2 <;> simp [hx]

theorem filter_dims_split (l : List Item) :
    List.Perm (l.filter (fun x => x.dims == 2) ++ l.filter (fun x => ¬ x.dims == 2)) l := by
  rw [filter_not_dims]
  exact List.filter_append_perm _ l

/-- What the source's `Bounds()` computes, stated over the multiset of
inserted items: zero sentinels when a side is empty, the 2D-only case pins
z to 0, and with both sides populated x/y range over all items while z
ranges over the 3D items only. -/
def boundsRef (its : List Item) : (F × F × F) × (F × F × F) :=
  let its2 := its.filter (fun x => x.dims == 2)
  let its3 := its.filter (fun x => ¬ x.dims == 2)
  if its2.isEmpty && its3.isEmpty then
    ((F.fin 0, F.fin 0, F.fin 0), (F.fin 0, F.fin 0, F.fin 0))
  else if its3.isEmpty then
    ((foldMinF (its2.map (fun x => F.fin x.minX)),
      foldMinF (its2.map (fun x => F.fin x.minY)), F.fin 0),
     (foldMaxF (its2.map (fun x => F.fin x.maxX)),
      foldMaxF (its2.map (fun x => F.fin x.maxY)), F.fin 0))
  else if its2.isEmpty then
    ((foldMinF (its3.map (fun x => F.fin x.minX)),
      foldMinF (its3.map (fun x => F.fin x.minY)),
      foldMinF (its3.map (fun x => F.fin x.minZ))),
     (foldMaxF (its3.map (fun x => F.fin x.maxX)),
      foldMaxF (its3.map (fun x => F.fin x.maxY)),
      foldMaxF (its3.map (fun x => F.fin x.maxZ))))
  else
    ((foldMinF (its.map (fun x => F.fin x.minX)),
      foldMinF (its.map (fun x => F.fin x.minY)),
      foldMinF (its3.map (fun x => F.fin x.minZ))),
     (foldMaxF (its.map (fun x => F.fin x.maxX)),
      foldMaxF (its.map (fun x => F.fin x.maxY)),
      foldMaxF (its3.map (fun x => F.fin x.maxZ))))

/-- The claim's reading of `Bounds()`: axis-wise min/max over every
inserted item, a 2D item contributing 0 to the z axis. -/
def boundsClaim (its : List Item) : (F × F × F) × (F × F × F) :=
  if its.isEmpty then ((F.fin 0, F.fin 0, F.fin 0), (F.fin 0, F.fin 0, F.fin 0))
  else
    ((foldMinF (its.map (fun x => F.fin x.minX)),
      foldMinF (its.map (fun x => F.fin x.minY)),
      foldMinF (its.map (fun x => if x.dims == 2 then F.fin 0 else F.fin x.minZ))),
     (foldMaxF (its.map (fun x => F.fin x.maxX)),
      foldMaxF (its.map (fun x => F.fin x.maxY)),
      foldMaxF (its.map (fun x => if x.dims == 2 then F.fin 0 else F.fin x.maxZ))))

/-- After any insert-only history, `Bounds()` computes `boundsRef` of the
inserted items. -/
theorem boundsH_of_insOnly (ops : List HOp) (hio : insOnlyB ops = true) :
    (applyOps ops).boundsH = boundsRef (insItems ops) := by
  obtain ⟨⟨⟨e2, c2⟩, ⟨e3, c3⟩, hp⟩, hp2, hp3⟩ := applyOps_insOnly ops hio
  have he2 : isEmptyT (applyOps ops).tr2
      = ((insItems ops).filter (fun x => x.dims == 2)).isEmpty := by
    rw [isEmptyT]
    exact isEmpty_of_perm hp2
  have he3 : isEmptyT (applyOps ops).tr3
      = ((insItems ops).filter (fun x => ¬ x.dims == 2)).isEmpty := by
    rw [isEmptyT]
    exact isEmpty_of_perm hp3
  have bb2 : (applyOps ops).tr2.data.bboxOf
      = calcList ops2 (((insItems ops).filter (fun x => x.dims == 2)).map Item.rect2) := by
    rw [bbox_items laws2 _ e2]
    exact calcList_perm laws2 (hp2.map Item.rect2)
  have bb3 : (applyOps ops).tr3.data.bboxOf
      = calcList ops3 (((insItems ops).filter (fun x => ¬ x.dims == 2)).map Item.rect3) := by
    rw [bbox_items laws3 _ e3]
    exact calcList_perm laws3 (hp3.map Item.rect3)
  rw [Hybrid.boundsH, boundsRef]
  dsimp only
  rw [he2, he3]
  cases hf3 : ((insItems ops).filter (fun x => ¬ x.dims == 2)).isEmpty with
  | true =>
    cases hf2 : ((insItems ops).filter (fun x => x.dims == 2)).isEmpty with
    | true => rfl
    | false =>
      simp only [Bool.false_and, Bool.and_true, if_false, if_true, Bool.false_eq_true,
        if_neg, ite_true, ite_false]
      have hne : gItems (applyOps ops).tr2.data ≠ [] := by
        intro hnil
        rw [hnil] at hp2
        rw [← hp2.nil_eq] at hf2
        simp at hf2
      have hcc : ¬ (applyOps ops).tr2.data.childCount = 0 := by
        intro hc
        exact hne ((childCount_zero_iff (by omega) _ c2).1 hc)
      rw [bounds2T, if_neg hcc, bb2]
      rw [calcList2_minX, calcList2_minY, calcList2_maxX, calcList2_maxY]
      rw [List.map_map, List.map_map, List.map_map, List.map_map]
      rfl
  | false =>
    have hne3 : gItems (applyOps ops).tr3.data ≠ [] := by
      intro hnil
      rw [hnil] at hp3
      rw [← hp3.nil_eq] at hf3
      simp at hf3
    have hcc3 : ¬ (applyOps ops).tr3.data.childCount = 0 := by
      intro hc
      exact hne3 ((childCount_zero_iff (by omega) _ c3).1 hc)
    cases hf2 : ((insItems ops).filter (fun x => x.dims == 2)).isEmpty with
    | true =>
      simp only [Bool.true_and, Bool.and_false, if_false, if_true, ite_true, ite_false]
      rw [bounds3T, if_neg hcc3, bb3]
      rw [calcList3_minX, calcList3_minY, calcList3_minZ,
        calcList3_maxX, calcList3_maxY, calcList3_maxZ]
      rw [List.map_map, List.map_map, List.map_map, List.map_map, List.map_map, List.map_map]
      rfl
    | false =>
      simp only [Bool.false_and, reduceIte]
      have hne2 : gItems (applyOps ops).tr2.data ≠ [] := by
        intro hnil
        rw [hnil] at hp2
        rw [← hp2.nil_eq] at hf2
        simp at hf2
      have hcc2 : ¬ (applyOps ops).tr2.data.childCount = 0 := by
        intro hc
        exact hne2 ((childCount_zero_iff (by omega) _ c2).1 hc)
      rw [bounds3T, if_neg hcc3, bb3, bounds2T, if_neg hcc2, bb2]
      rw [calcList2_minX, calcList2_minY, calcList2_maxX, calcList2_maxY]
      rw [calcList3_minX, calcList3_minY, calcList3_minZ,
        calcList3_maxX, calcList3_maxY, calcList3_maxZ]
      rw [List.map_map, List.map_map, List.map_map, List.map_map, List.map_map,
        List.map_map, List.map_map, List.map_map, List.map_map, List.map_map]
      dsimp only
      rw [F.mathMin_ite, F.mathMin_ite, F.mathMax_ite, F.mathMax_ite]
      have hxmin : F.mathMin
          (foldMinF (((insItems ops).filter (fun x => x.dims == 2)).map (fun x => F.fin x.minX)))
          (foldMinF (((insItems ops).filter (fun x => ¬ x.dims == 2)).map (fun x => F.fin x.minX)))
          = foldMinF ((insItems ops).map (fun x => F.fin x.minX)) := by
        rw [← foldMinF_append, ← List.map_append]
        exact foldMinF_perm (List.Perm.map _ (filter_dims_split _))
      have hymin : F.mathMin
          (foldMinF (((insItems ops).filter (fun x => x.dims == 2)).map (fun x => F.fin x.minY)))
          (foldMinF (((insItems ops).filter (fun x => ¬ x.dims == 2)).map (fun x => F.fin x.minY)))
          = foldMinF ((insItems ops).map (fun x => F.fin x.minY)) := by
        rw [← foldMinF_append, ← List.map_append]
        exact foldMinF_perm (List.Perm.map _ (filter_dims_split _))
      have hxmax : F.mathMax
          (foldMaxF (((insItems ops).filter (fun x => x.dims == 2)).map (fun x => F.fin x.maxX)))
          (foldMaxF (((insItems ops).filter (fun x => ¬ x.dims == 2)).map (fun x => F.fin x.maxX)))
          = foldMaxF ((insItems ops).map (fun x => F.fin x.maxX)) := by
        rw [← foldMaxF_append, ← List.map_append]
        exact foldMaxF_perm (List.Perm.map _ (filter_dims_split _))
      have hymax : F.mathMax
          (foldMaxF (((insItems ops).filter (fun x => x.dims == 2)).map (fun x => F.fin x.maxY)))
          (foldMaxF (((insItems ops).filter (fun x => ¬ x.dims == 2)).map (fun x => F.fin x.maxY)))
          = foldMaxF ((insItems ops).map (fun x => F.fin x.maxY)) := by
        rw [← foldMaxF_append, ← List.map_append]
        exact foldMaxF_perm (List.Perm.map _ (filter_dims_split _))
      exact congrArg₂ Prod.mk
        (congrArg₂ Prod.mk hxmin (congrArg₂ Prod.mk hymin rfl))
        (congrArg₂ Prod.mk hxmax (congrArg₂ Prod.mk hymax rfl))

/-! ## Fuel-indexed evaluators

`gInsertRec`, `knnGo` and `mergeKNN` are defined by well-founded recursion,
which the kernel does not reduce; the fuel-indexed twins below are
structurally recursive and agree with them whenever they return a value,
so concrete runs can be checked by `decide`/`rfl`. -/

def gInsertF {β : Type} (O : BoxOps β) (maxE minE : ℕ) (ibox : β) (it : Item) :
    ℕ → GNode β → Option (GNode β ⊕ (GNode β × GNode β))
  | _, .leafN b h its =>
    let its2 := its ++ [it]
    some (if its2.length > maxE then
      let sorted := chooseSplitAxisSort O O.itemBox minE its2.length its2
      let idx := chooseSplitIndexList O O.itemBox minE sorted.length sorted
      let ls := sorted.take idx
      let rs := sorted.drop idx
      .inr (GNode.leafN (calcList O (ls.map O.itemBox)) h ls,
            GNode.leafN (calcList O (rs.map O.itemBox)) h rs)
    else
      .inl (.leafN (O.extend b ibox) h its2))
  | 0, .innerN _ _ _ => none
  | fuel+1, .innerN b h cs =>
    match cs.get? (chooseChildIdx O ibox cs) with
    | none => some (.inl (.innerN b h cs))
    | some c =>
      match gInsertF O maxE minE ibox it fuel c with
      | none => none
      | some (.inl c2) =>
        some (.inl (.innerN (O.extend b ibox) h (cs.set (chooseChildIdx O ibox cs) c2)))
      | some (.inr (c1, c2)) =>
        let cs2 := cs.set (chooseChildIdx O ibox cs) c1 ++ [c2]
        some (if cs2.length > maxE then
          let sorted := chooseSplitAxisSort O GNode.bboxOf minE cs2.length cs2
          let idx := chooseSplitIndexList O GNode.bboxOf minE sorted.length sorted
          let ls := sorted.take idx
          let rs := sorted.drop idx
          .inr (.innerN (calcList O (ls.map GNode.bboxOf)) h ls,
                .innerN (calcList O (rs.map GNode.bboxOf)) h rs)
        else
          .inl (.innerN (O.extend b ibox) h cs2))

theorem gInsertF_sound {β : Type} (O : BoxOps β) (maxE minE : ℕ) (ibox : β) (it : Item) :
    ∀ (fuel : ℕ) (n : GNode β) (r : GNode β ⊕ (GNode β × GNode β)),
      gInsertF O maxE minE ibox it fuel n = some r →
      gInsertRec O maxE minE ibox it n = r := by
  intro fuel
  induction fuel with
  | zero =>
    intro n r hsome
    cases n with
    | leafN b h its =>
      rw [gInsertF] at hsome
      injection hsome with hsome
      rw [gInsertRec]
      exact hsome
    | innerN b h cs =>
      rw [gInsertF] at hsome
      exact Option.noConfusion hsome
  | succ fuel ih =>
    intro n r hsome
    cases n with
    | leafN b h its =>
      rw [gInsertF] at hsome
      injection hsome with hsome
      rw [gInsertRec]
      exact hsome
    | innerN b h cs =>
      rw [gInsertF] at hsome
      cases hget : cs.get? (chooseChildIdx O ibox cs) with
      | none =>
        rw [hget] at hsome
        dsimp only at hsome
        injection hsome with hsome
        rw [gInsertRec]
        split
        · next hc2 => exact hsome
        · next c' hc2 =>
          rw [hget] at hc2
          cases hc2
      | some c =>
        rw [hget] at hsome
        dsimp only at hsome
        cases hrec : gInsertF O maxE minE ibox it fuel c with
        | none =>
          rw [hrec] at hsome
          exact Option.noConfusion hsome
        | some rc =>
          rw [hrec] at hsome
          have hrc := ih c rc hrec
          rw [gInsertRec]
          split
          · next hc2 =>
            rw [hget] at hc2
            cases hc2
          · next c' hc2 =>
            rw [hget] at hc2
            injection hc2 with hc2
            subst hc2
            cases rc with
            | inl c2 =>
              dsimp only at hsome
              injection hsome with hsome
              rw [hrc]
              exact hsome
            | inr p =>
              obtain ⟨c1, c2⟩ := p
              dsimp only at hsome
              injection hsome with hsome
              rw [hrc]
              exact hsome

def knnGoF {β : Type} (pD : β → F) (pDI : Item → F) : ℕ → List (QEntry β) → Option (List (Item × F))
  | 0, _ => none
  | fuel+1, q =>
    match popMinQ q with
    | none => some []
    | some (e, rest) =>
      match e with
      | .itemE it d =>
        match knnGoF pD pDI fuel rest with
        | none => none
        | some l => some ((it, d) :: l)
      | .nodeE n _ => knnGoF pD pDI fuel (rest ++ childEntries pD pDI n)

theorem knnGoF_sound {β : Type} (pD : β → F) (pDI : Item → F) :
    ∀ (fuel : ℕ) (q : List (QEntry β)) (l : List (Item × F)),
      knnGoF pD pDI fuel q = some l → knnGo pD pDI q = l := by
  intro fuel
  induction fuel with
  | zero =>
    intro q l hsome
    rw [knnGoF] at hsome
    exact Option.noConfusion hsome
  | succ fuel ih =>
    intro q l hsome
    rw [knnGoF] at hsome
    cases hp : popMinQ q with
    | none =>
      rw [hp] at hsome
      dsimp only at hsome
      injection hsome with hsome
      rw [knnGo]
      split
      · next hp2 => exact hsome.symm ▸ rfl
      · next e rest hp2 =>
        rw [hp] at hp2
        cases hp2
    | some p =>
      obtain ⟨e, rest⟩ := p
      rw [hp] at hsome
      dsimp only at hsome
      rw [knnGo]
      split
      · next hp2 =>
        rw [hp] at hp2
        cases hp2
      · next e' rest' hp2 =>
        rw [hp] at hp2
        injection hp2 with hp2
        injection hp2 with hpe hpr
        subst hpe
        subst hpr
        cases e with
        | itemE it d =>
          dsimp only at hsome ⊢
          cases hrec : knnGoF pD pDI fuel rest with
          | none =>
            rw [hrec] at hsome
            exact Option.noConfusion hsome
          | some l2 =>
            rw [hrec] at hsome
            injection hsome with hsome
            rw [ih rest l2 hrec]
            exact hsome
        | nodeE n d =>
          dsimp only at hsome ⊢
          exact ih _ l hsome

def mergeKNNF : ℕ → List (Item × F) → List (Item × F) → Option (List (Item × F))
  | 0, _, _ => none
  | _+1, [], ys => some ys
  | _+1, x :: xs, [] => some (x :: xs)
  | fuel+1, x :: xs, y :: ys =>
    if F.flt x.2 y.2 then
      match mergeKNNF fuel xs (y :: ys) with
      | none => none
      | some l => some (x :: l)
    else
      match mergeKNNF fuel (x :: xs) ys with
      | none => none
      | some l => some (y :: l)

theorem mergeKNNF_sound :
    ∀ (fuel : ℕ) (xs ys l : List (Item × F)),
      mergeKNNF fuel xs ys = some l → mergeKNN xs ys = l := by
  intro fuel
  induction fuel with
  | zero =>
    intro xs ys l hsome
    rw [mergeKNNF] at hsome
    exact Option.noConfusion hsome
  | succ fuel ih =>
    intro xs ys l hsome
    cases xs with
    | nil =>
      rw [mergeKNNF] at hsome
      injection hsome with hsome
      rw [mergeKNN]
      exact hsome
    | cons x xs =>
      cases ys with
      | nil =>
        rw [mergeKNNF] at hsome
        injection hsome with hsome
        rw [mergeKNN]
        exact hsome
      | cons y ys =>
        rw [mergeKNNF] at hsome
        rw [mergeKNN]
        by_cases hlt : F.flt x.2 y.2
        · rw [if_pos hlt] at hsome ⊢
          cases hrec : mergeKNNF fuel xs (y :: ys) with
          | none =>
            rw [hrec] at hsome
            exact Option.noConfusion hsome
          | some l2 =>
            rw [hrec] at hsome
            injection hsome with hsome
            rw [ih xs (y :: ys) l2 hrec]
            exact hsome
        · rw [if_neg hlt] at hsome ⊢
          cases hrec : mergeKNNF fuel (x :: xs) ys with
          | none =>
            rw [hrec] at hsome
            exact Option.noConfusion hsome
          | some l2 =>
            rw [hrec] at hsome
            injection hsome with hsome
            rw [ih (x :: xs) ys l2 hrec]
            exact hsome

def insertTF {β : Type} (O : BoxOps β) (fuel : ℕ) (t : GTree β) (it : Item) :
    Option (GTree β) :=
  match gInsertF O t.maxEntries t.minEntries (O.itemBox it) it fuel t.data with
  | none => none
  | some (.inl n) => some { t with data := n }
  | some (.inr (a, b)) => some { t with data := splitRootT O a b }

theorem insertTF_sound {β : Type} (O : BoxOps β) (fuel : ℕ) (t t2 : GTree β) (it : Item)
    (hsome : insertTF O fuel t it = some t2) : insertT O t it = t2 := by
  rw [insertTF] at hsome
  cases hres : gInsertF O t.maxEntries t.minEntries (O.itemBox it) it fuel t.data with
  | none =>
    rw [hres] at hsome
    exact Option.noConfusion hsome
  | some r =>
    rw [hres] at hsome
    have hr := gInsertF_sound O t.maxEntries t.minEntries (O.itemBox it) it fuel t.data r hres
    rw [insertT, hr]
    cases r with
    | inl n => exact Option.some.inj hsome
    | inr p =>
      obtain ⟨a, b⟩ := p
      exact Option.some.inj hsome

def applyOpF (fuel : ℕ) (h : Hybrid) : HOp → Option Hybrid
  | .insOp it =>
    if it.dims = 2 then (insertTF ops2 fuel h.tr2 it).map (fun t => { h with tr2 := t })
    else (insertTF ops3 fuel h.tr3 it).map (fun t => { h with tr3 := t })
  | .remOp it => some (h.removeH it)

theorem applyOpF_sound (fuel : ℕ) (h h2 : Hybrid) (op : HOp)
    (hsome : applyOpF fuel h op = some h2) : applyOp h op = h2 := by
  cases op with
  | remOp it =>
    rw [applyOpF] at hsome
    exact Option.some.inj hsome
  | insOp it =>
    rw [applyOpF] at hsome
    show h.insertH it = h2
    rw [Hybrid.insertH]
    by_cases hd : it.dims = 2
    · rw [if_pos hd] at hsome ⊢
      cases hres : insertTF ops2 fuel h.tr2 it with
      | none =>
        rw [hres] at hsome
        exact Option.noConfusion hsome
      | some t2 =>
        rw [hres] at hsome
        rw [insertTF_sound ops2 fuel h.tr2 t2 it hres]
        exact Option.some.inj hsome
    · rw [if_neg hd] at hsome ⊢
      cases hres : insertTF ops3 fuel h.tr3 it with
      | none =>
        rw [hres] at hsome
        exact Option.noConfusion hsome
      | some t2 =>
        rw [hres] at hsome
        rw [insertTF_sound ops3 fuel h.tr3 t2 it hres]
        exact Option.some.inj hsome

def applyOpsF (fuel : ℕ) : List HOp → Hybrid → Option Hybrid
  | [], h => some h
  | op :: ops, h =>
    match applyOpF fuel h op with
    | none => none
    | some h2 => applyOpsF fuel ops h2

theorem applyOpsF_sound (fuel : ℕ) :
    ∀ (ops : List HOp) (h0 hres : Hybrid), applyOpsF fuel ops h0 = some hres →
      List.foldl applyOp h0 ops = hres := by
  intro ops
  induction ops with
  | nil =>
    intro h0 hres hsome
    rw [applyOpsF] at hsome
    rw [List.foldl_nil]
    exact Option.some.inj hsome
  | cons op ops ih =>
    intro h0 hres hsome
    rw [applyOpsF] at hsome
    cases hstep : applyOpF fuel h0 op with
    | none =>
      rw [hstep] at hsome
      exact Option.noConfusion hsome
    | some h1 =>
      rw [hstep] at hsome
      rw [List.foldl_cons, applyOpF_sound fuel h0 h1 op hstep]
      exact ih h1 hres hsome

/-- Fuel-checked run from `New()`. -/
theorem applyOps_eval (fuel : ℕ) (ops : List HOp) (hres : Hybrid)
    (hsome : applyOpsF fuel ops hybridNew = some hres) : applyOps ops = hres := by
  rw [applyOps]
  exact applyOpsF_sound fuel ops hybridNew hres hsome

def knnCollectF {β : Type} (pD : β → F) (pDI : Item → F) (fuel : ℕ) (t : GTree β) :
    Option (List (Item × F)) :=
  knnGoF pD pDI fuel (childEntries pD pDI t.data)

theorem knnCollectF_sound {β : Type} (pD : β → F) (pDI : Item → F) (fuel : ℕ)
    (t : GTree β) (l : List (Item × F)) (hsome : knnCollectF pD pDI fuel t = some l) :
    knnCollect pD pDI t = l := by
  rw [knnCollect]
  exact knnGoF_sound pD pDI fuel _ l hsome

def knnHF (fuel : ℕ) (h : Hybrid) (px py pz : ℚ) : Option (List (Item × F)) :=
  if isEmptyT h.tr2 && isEmptyT h.tr3 then some []
  else if isEmptyT h.tr3 then
    knnCollectF (boxDist2 (F.fin px) (F.fin py))
      (fun it => boxDist2 (F.fin px) (F.fin py) it.rect2) fuel h.tr2
  else if isEmptyT h.tr2 then
    knnCollectF (boxDist3 (F.fin px) (F.fin py) (F.fin pz))
      (fun it => boxDist3 (F.fin px) (F.fin py) (F.fin pz) it.rect3) fuel h.tr3
  else
    match knnCollectF (boxDist2 (F.fin px) (F.fin py))
        (fun it => boxDist2 (F.fin px) (F.fin py) it.rect2) fuel h.tr2,
      knnCollectF (boxDist3 (F.fin px) (F.fin py) (F.fin pz))
        (fun it => boxDist3 (F.fin px) (F.fin py) (F.fin pz) it.rect3) fuel h.tr3 with
    | some l2, some l3 => mergeKNNF fuel l2 l3
    | _, _ => none

theorem knnHF_sound (fuel : ℕ) (h : Hybrid) (px py pz : ℚ) (l : List (Item × F))
    (hsome : knnHF fuel h px py pz = some l) : h.knnH px py pz = l := by
  rw [knnHF] at hsome
  rw [Hybrid.knnH]
  by_cases h23 : isEmptyT h.tr2 && isEmptyT h.tr3
  · rw [if_pos h23] at hsome ⊢
    exact Option.some.inj hsome
  · rw [if_neg h23] at hsome ⊢
    by_cases h3 : isEmptyT h.tr3
    · rw [if_pos h3] at hsome ⊢
      rw [knn2T]
      exact knnCollectF_sound _ _ fuel _ l hsome
    · rw [if_neg h3] at hsome ⊢
      by_cases h2 : isEmptyT h.tr2
      · rw [if_pos h2] at hsome ⊢
        rw [knn3T]
        exact knnCollectF_sound _ _ fuel _ l hsome
      · rw [if_neg h2] at hsome ⊢
        cases hl2 : knnCollectF (boxDist2 (F.fin px) (F.fin py))
            (fun it => boxDist2 (F.fin px) (F.fin py) it.rect2) fuel h.tr2 with
        | none =>
          rw [hl2] at hsome
          exact Option.noConfusion hsome
        | some l2 =>
          cases hl3 : knnCollectF (boxDist3 (F.fin px) (F.fin py) (F.fin pz))
              (fun it => boxDist3 (F.fin px) (F.fin py) (F.fin pz) it.rect3) fuel h.tr3 with
          | none =>
            rw [hl2, hl3] at hsome
            exact Option.noConfusion hsome
          | some l3 =>
            rw [hl2, hl3] at hsome
            dsimp only at hsome
            rw [knn2T, knn3T, knnCollectF_sound _ _ fuel _ l2 hl2,
              knnCollectF_sound _ _ fuel _ l3 hl3]
            exact mergeKNNF_sound fuel l2 l3 l hsome

/-! ## Child-count bounds, decidably -/

mutual
/-- Boolean twin of `countsN`. -/
def countsB {β : Type} (low maxE : ℕ) : GNode β → Bool
  | .leafN _ _ its => decide (its.length ≤ maxE)
  | .innerN _ _ cs => (decide (1 ≤ cs.length) && decide (cs.length ≤ maxE)) && countsBL low maxE cs
/-- Boolean twin of `countsL`. -/
def countsBL {β : Type} (low maxE : ℕ) : List (GNode β) → Bool
  | [] => true
  | c :: cs => (decide (low ≤ c.childCount) && countsB low maxE c) && countsBL low maxE cs
end

mutual
theorem countsB_iff {β : Type} (low maxE : ℕ) :
    ∀ n : GNode β, countsB low maxE n = true ↔ countsN low maxE n
  | .leafN b h its => by
    rw [countsB, countsN]
    simp
  | .innerN b h cs => by
    rw [countsB, countsN]
    simp [countsBL_iff low maxE cs, and_assoc]
theorem countsBL_iff {β : Type} (low maxE : ℕ) :
    ∀ cs : List (GNode β), countsBL low maxE cs = true ↔ countsL low maxE cs
  | [] => by
    rw [countsBL, countsL]
    simp
  | c :: cs => by
    rw [countsBL, countsL]
    simp [countsB_iff low maxE c, countsBL_iff low maxE cs, and_assoc]
end

/-- The claim's invariant: every node except the root has between `low` and
`maxE` children. -/
def nonRootBounds {β : Type} (low maxE : ℕ) : GNode β → Prop
  | .leafN _ _ _ => True
  | .innerN _ _ cs => countsL low maxE cs

theorem nonRootBounds_of_countsN {β : Type} {low maxE : ℕ} {n : GNode β}
    (h : countsN low maxE n) : nonRootBounds low maxE n := by
  cases n with
  | leafN b ht its => trivial
  | innerN b ht cs =>
    rw [countsN] at h
    rw [nonRootBounds]
    exact h.2.2

/-! ## Concrete scenarios -/

/-- A 3D point item at `(v, v, v)` with handle `p`. -/
def mkPt3 (p v : ℕ) : Item := ⟨p, 3, v, v, v, v, v, v⟩

/-- A 2D point item at `(x, y)` with handle `p`. -/
def mkPt2 (p : ℕ) (x y : ℚ) : Item := ⟨p, 2, x, y, 0, x, y, 0⟩

/-- Ten diagonal 3D points, then two removes: the split of the overflowing
root leaf gives two leaves of five, and the removes leave one leaf with
three children — `condense` has no reinsertion step. -/
def c4ops : List HOp :=
  ((List.range 10).map (fun i => HOp.insOp (mkPt3 (i+1) (i+1)))) ++
    [HOp.remOp (mkPt3 1 1), HOp.remOp (mkPt3 2 2)]

def c4s1 : Hybrid := { tr2 := { maxEntries := 9, minEntries := 4, data := GNode.leafN { minX := F.pinf, minY := F.pinf, maxX := F.ninf, maxY := F.ninf } 1 [] }, tr3 := { maxEntries := 9, minEntries := 4, data := GNode.leafN { minX := F.fin 1, minY := F.fin 1, minZ := F.fin 1, maxX := F.fin 1, maxY := F.fin 1, maxZ := F.fin 1 } 1 [{ ptr := 1, dims := 3, minX := 1, minY := 1, minZ := 1, maxX := 1, maxY := 1, maxZ := 1 }] } }
def c4s2 : Hybrid := { tr2 := { maxEntries := 9, minEntries := 4, data := GNode.leafN { minX := F.pinf, minY := F.pinf, maxX := F.ninf, maxY := F.ninf } 1 [] }, tr3 := { maxEntries := 9, minEntries := 4, data := GNode.leafN { minX := F.fin 1, minY := F.fin 1, minZ := F.fin 1, maxX := F.fin 2, maxY := F.fin 2, maxZ := F.fin 2 } 1 [{ ptr := 1, dims := 3, minX := 1, minY := 1, minZ := 1, maxX := 1, maxY := 1, maxZ := 1 }, { ptr := 2, dims := 3, minX := 2, minY := 2, minZ := 2, maxX := 2, maxY := 2, maxZ := 2 }] } }
def c4s3 : Hybrid := { tr2 := { maxEntries := 9, minEntries := 4, data := GNode.leafN { minX := F.pinf, minY := F.pinf, maxX := F.ninf, maxY := F.ninf } 1 [] }, tr3 := { maxEntries := 9, minEntries := 4, data := GNode.leafN { minX := F.fin 1, minY := F.fin 1, minZ := F.fin 1, maxX := F.fin 3, maxY := F.fin 3, maxZ := F.fin 3 } 1 [{ ptr := 1, dims := 3, minX := 1, minY := 1, minZ := 1, maxX := 1, maxY := 1, maxZ := 1 }, { ptr := 2, dims := 3, minX := 2, minY := 2, minZ := 2, maxX := 2, maxY := 2, maxZ := 2 }, { ptr := 3, dims := 3, minX := 3, minY := 3, minZ := 3, maxX := 3, maxY := 3, maxZ := 3 }] } }
def c4s4 : Hybrid := { tr2 := { maxEntries := 9, minEntries := 4, data := GNode.leafN { minX := F.pinf, minY := F.pinf, maxX := F.ninf, maxY := F.ninf } 1 [] }, tr3 := { maxEntries := 9, minEntries := 4, data := GNode.leafN { minX := F.fin 1, minY := F.fin 1, minZ := F.fin 1, maxX := F.fin 4, maxY := F.fin 4, maxZ := F.fin 4 } 1 [{ ptr := 1, dims := 3, minX := 1, minY := 1, minZ := 1, maxX := 1, maxY := 1, maxZ := 1 }, { ptr := 2, dims := 3, minX := 2, minY := 2, minZ := 2, maxX := 2, maxY := 2, maxZ := 2 }, { ptr := 3, dims := 3, minX := 3, minY := 3, minZ := 3, maxX := 3, maxY := 3, maxZ := 3 }, { ptr := 4, dims := 3, minX := 4, minY := 4, minZ := 4, maxX := 4, maxY := 4, maxZ := 4 }] } }
def c4s5 : Hybrid := { tr2 := { maxEntries := 9, minEntries := 4, data := GNode.leafN { minX := F.pinf, minY := F.pinf, maxX := F.ninf, maxY := F.ninf } 1 [] }, tr3 := { maxEntries := 9, minEntries := 4, data := GNode.leafN { minX := F.fin 1, minY := F.fin 1, minZ := F.fin 1, maxX := F.fin 5, maxY := F.fin 5, maxZ := F.fin 5 } 1 [{ ptr := 1, dims := 3, minX := 1, minY := 1, minZ := 1, maxX := 1, maxY := 1, maxZ := 1 }, { ptr := 2, dims := 3, minX := 2, minY := 2, minZ := 2, maxX := 2, maxY := 2, maxZ := 2 }, { ptr := 3, dims := 3, minX := 3, minY := 3, minZ := 3, maxX := 3, maxY := 3, maxZ := 3 }, { ptr := 4, dims := 3, minX := 4, minY := 4, minZ := 4, maxX := 4, maxY := 4, maxZ := 4 }, { ptr := 5, dims := 3, minX := 5, minY := 5, minZ := 5, maxX := 5, maxY := 5, maxZ := 5 }] } }
def c4s6 : Hybrid := { tr2 := { maxEntries := 9, minEntries := 4, data := GNode.leafN { minX := F.pinf, minY := F.pinf, maxX := F.ninf, maxY := F.ninf } 1 [] }, tr3 := { maxEntries := 9, minEntries := 4, data := GNode.leafN { minX := F.fin 1, minY := F.fin 1, minZ := F.fin 1, maxX := F.fin 6, maxY := F.fin 6, maxZ := F.fin 6 } 1 [{ ptr := 1, dims := 3, minX := 1, minY := 1, minZ := 1, maxX := 1, maxY := 1, maxZ := 1 }, { ptr := 2, dims := 3, minX := 2, minY := 2, minZ := 2, maxX := 2, maxY := 2, maxZ := 2 }, { ptr := 3, dims := 3, minX := 3, minY := 3, minZ := 3, maxX := 3, maxY := 3, maxZ := 3 }, { ptr := 4, dims := 3, minX := 4, minY := 4, minZ := 4, maxX := 4, maxY := 4, maxZ := 4 }, { ptr := 5, dims := 3, minX := 5, minY := 5, minZ := 5, maxX := 5, maxY := 5, maxZ := 5 }, { ptr := 6, dims := 3, minX := 6, minY := 6, minZ := 6, maxX := 6, maxY := 6, maxZ := 6 }] } }
def c4s7 : Hybrid := { tr2 := { maxEntries := 9, minEntries := 4, data := GNode.leafN { minX := F.pinf, minY := F.pinf, maxX := F.ninf, maxY := F.ninf } 1 [] }, tr3 := { maxEntries := 9, minEntries := 4, data := GNode.leafN { minX := F.fin 1, minY := F.fin 1, minZ := F.fin 1, maxX := F.fin 7, maxY := F.fin 7, maxZ := F.fin 7 } 1 [{ ptr := 1, dims := 3, minX := 1, minY := 1, minZ := 1, maxX := 1, maxY := 1, maxZ := 1 }, { ptr := 2, dims := 3, minX := 2, minY := 2, minZ := 2, maxX := 2, maxY := 2, maxZ := 2 }, { ptr := 3, dims := 3, minX := 3, minY := 3, minZ := 3, maxX := 3, maxY := 3, maxZ := 3 }, { ptr := 4, dims := 3, minX := 4, minY := 4, minZ := 4, maxX := 4, maxY := 4, maxZ := 4 }, { ptr := 5, dims := 3, minX := 5, minY := 5, minZ := 5, maxX := 5, maxY := 5, maxZ := 5 }, { ptr := 6, dims := 3, minX := 6, minY := 6, minZ := 6, maxX := 6, maxY := 6, maxZ := 6 }, { ptr := 7, dims := 3, minX := 7, minY := 7, minZ := 7, maxX := 7, maxY := 7, maxZ := 7 }] } }
def c4s8 : Hybrid := { tr2 := { maxEntries := 9, minEntries := 4, data := GNode.leafN { minX := F.pinf, minY := F.pinf, maxX := F.ninf, maxY := F.ninf } 1 [] }, tr3 := { maxEntries := 9, minEntries := 4, data := GNode.leafN { minX := F.fin 1, minY := F.fin 1, minZ := F.fin 1, maxX := F.fin 8, maxY := F.fin 8, maxZ := F.fin 8 } 1 [{ ptr := 1, dims := 3, minX := 1, minY := 1, minZ := 1, maxX := 1, maxY := 1, maxZ := 1 }, { ptr := 2, dims := 3, minX := 2, minY := 2, minZ := 2, maxX := 2, maxY := 2, maxZ := 2 }, { ptr := 3, dims := 3, minX := 3, minY := 3, minZ := 3, maxX := 3, maxY := 3, maxZ := 3 }, { ptr := 4, dims := 3, minX := 4, minY := 4, minZ := 4, maxX := 4, maxY := 4, maxZ := 4 }, { ptr := 5, dims := 3, minX := 5, minY := 5, minZ := 5, maxX := 5, maxY := 5, maxZ := 5 }, { ptr := 6, dims := 3, minX := 6, minY := 6, minZ := 6, maxX := 6, maxY := 6, maxZ := 6 }, { ptr := 7, dims := 3, minX := 7, minY := 7, minZ := 7, maxX := 7, maxY := 7, maxZ := 7 }, { ptr := 8, dims := 3, minX := 8, minY := 8, minZ := 8, maxX := 8, maxY := 8, maxZ := 8 }] } }
def c4s9 : Hybrid := { tr2 := { maxEntries := 9, minEntries := 4, data := GNode.leafN { minX := F.pinf, minY := F.pinf, maxX := F.ninf, maxY := F.ninf } 1 [] }, tr3 := { maxEntries := 9, minEntries := 4, data := GNode.leafN { minX := F.fin 1, minY := F.fin 1, minZ := F.fin 1, maxX := F.fin 9, maxY := F.fin 9, maxZ := F.fin 9 } 1 [{ ptr := 1, dims := 3, minX := 1, minY := 1, minZ := 1, maxX := 1, maxY := 1, maxZ := 1 }, { ptr := 2, dims := 3, minX := 2, minY := 2, minZ := 2, maxX := 2, maxY := 2, maxZ := 2 }, { ptr := 3, dims := 3, minX := 3, minY := 3, minZ := 3, maxX := 3, maxY := 3, maxZ := 3 }, { ptr := 4, dims := 3, minX := 4, minY := 4, minZ := 4, maxX := 4, maxY := 4, maxZ := 4 }, { ptr := 5, dims := 3, minX := 5, minY := 5, minZ := 5, maxX := 5, maxY := 5, maxZ := 5 }, { ptr := 6, dims := 3, minX := 6, minY := 6, minZ := 6, maxX := 6, maxY := 6, maxZ := 6 }, { ptr := 7, dims := 3, minX := 7, minY := 7, minZ := 7, maxX := 7, maxY := 7, maxZ := 7 }, { ptr := 8, dims := 3, minX := 8, minY := 8, minZ := 8, maxX := 8, maxY := 8, maxZ := 8 }, { ptr := 9, dims := 3, minX := 9, minY := 9, minZ := 9, maxX := 9, maxY := 9, maxZ := 9 }] } }
def c4s10 : Hybrid := { tr2 := { maxEntries := 9, minEntries := 4, data := GNode.leafN { minX := F.pinf, minY := F.pinf, maxX := F.ninf, maxY := F.ninf } 1 [] }, tr3 := { maxEntries := 9, minEntries := 4, data := GNode.innerN { minX := F.fin 1, minY := F.fin 1, minZ := F.fin 1, maxX := F.fin 10, maxY := F.fin 10, maxZ := F.fin 10 } 2 [GNode.leafN { minX := F.fin 1, minY := F.fin 1, minZ := F.fin 1, maxX := F.fin 5, maxY := F.fin 5, maxZ := F.fin 5 } 1 [{ ptr := 1, dims := 3, minX := 1, minY := 1, minZ := 1, maxX := 1, maxY := 1, maxZ := 1 }, { ptr := 2, dims := 3, minX := 2, minY := 2, minZ := 2, maxX := 2, maxY := 2, maxZ := 2 }, { ptr := 3, dims := 3, minX := 3, minY := 3, minZ := 3, maxX := 3, maxY := 3, maxZ := 3 }, { ptr := 4, dims := 3, minX := 4, minY := 4, minZ := 4, maxX := 4, maxY := 4, maxZ := 4 }, { ptr := 5, dims := 3, minX := 5, minY := 5, minZ := 5, maxX := 5, maxY := 5, maxZ := 5 }], GNode.leafN { minX := F.fin 6, minY := F.fin 6, minZ := F.fin 6, maxX := F.fin 10, maxY := F.fin 10, maxZ := F.fin 10 } 1 [{ ptr := 6, dims := 3, minX := 6, minY := 6, minZ := 6, maxX := 6, maxY := 6, maxZ := 6 }, { ptr := 7, dims := 3, minX := 7, minY := 7, minZ := 7, maxX := 7, maxY := 7, maxZ := 7 }, { ptr := 8, dims := 3, minX := 8, minY := 8, minZ := 8, maxX := 8, maxY := 8, maxZ := 8 }, { ptr := 9, dims := 3, minX := 9, minY := 9, minZ := 9, maxX := 9, maxY := 9, maxZ := 9 }, { ptr := 10, dims := 3, minX := 10, minY := 10, minZ := 10, maxX := 10, maxY := 10, maxZ := 10 }]] } }
def c4s11 : Hybrid := { tr2 := { maxEntries := 9, minEntries := 4, data := GNode.leafN { minX := F.pinf, minY := F.pinf, maxX := F.ninf, maxY := F.ninf } 1 [] }, tr3 := { maxEntries := 9, minEntries := 4, data := GNode.innerN { minX := F.fin 2, minY := F.fin 2, minZ := F.fin 2, maxX := F.fin 10, maxY := F.fin 10, maxZ := F.fin 10 } 2 [GNode.leafN { minX := F.fin 2, minY := F.fin 2, minZ := F.fin 2, maxX := F.fin 5, maxY := F.fin 5, maxZ := F.fin 5 } 1 [{ ptr := 2, dims := 3, minX := 2, minY := 2, minZ := 2, maxX := 2, maxY := 2, maxZ := 2 }, { ptr := 3, dims := 3, minX := 3, minY := 3, minZ := 3, maxX := 3, maxY := 3, maxZ := 3 }, { ptr := 4, dims := 3, minX := 4, minY := 4, minZ := 4, maxX := 4, maxY := 4, maxZ := 4 }, { ptr := 5, dims := 3, minX := 5, minY := 5, minZ := 5, maxX := 5, maxY := 5, maxZ := 5 }], GNode.leafN { minX := F.fin 6, minY := F.fin 6, minZ := F.fin 6, maxX := F.fin 10, maxY := F.fin 10, maxZ := F.fin 10 } 1 [{ ptr := 6, dims := 3, minX := 6, minY := 6, minZ := 6, maxX := 6, maxY := 6, maxZ := 6 }, { ptr := 7, dims := 3, minX := 7, minY := 7, minZ := 7, maxX := 7, maxY := 7, maxZ := 7 }, { ptr := 8, dims := 3, minX := 8, minY := 8, minZ := 8, maxX := 8, maxY := 8, maxZ := 8 }, { ptr := 9, dims := 3, minX := 9, minY := 9, minZ := 9, maxX := 9, maxY := 9, maxZ := 9 }, { ptr := 10, dims := 3, minX := 10, minY := 10, minZ := 10, maxX := 10, maxY := 10, maxZ := 10 }]] } }
def c4state : Hybrid := { tr2 := { maxEntries := 9, minEntries := 4, data := GNode.leafN { minX := F.pinf, minY := F.pinf, maxX := F.ninf, maxY := F.ninf } 1 [] }, tr3 := { maxEntries := 9, minEntries := 4, data := GNode.innerN { minX := F.fin 3, minY := F.fin 3, minZ := F.fin 3, maxX := F.fin 10, maxY := F.fin 10, maxZ := F.fin 10 } 2 [GNode.leafN { minX := F.fin 3, minY := F.fin 3, minZ := F.fin 3, maxX := F.fin 5, maxY := F.fin 5, maxZ := F.fin 5 } 1 [{ ptr := 3, dims := 3, minX := 3, minY := 3, minZ := 3, maxX := 3, maxY := 3, maxZ := 3 }, { ptr := 4, dims := 3, minX := 4, minY := 4, minZ := 4, maxX := 4, maxY := 4, maxZ := 4 }, { ptr := 5, dims := 3, minX := 5, minY := 5, minZ := 5, maxX := 5, maxY := 5, maxZ := 5 }], GNode.leafN { minX := F.fin 6, minY := F.fin 6, minZ := F.fin 6, maxX := F.fin 10, maxY := F.fin 10, maxZ := F.fin 10 } 1 [{ ptr := 6, dims := 3, minX := 6, minY := 6, minZ := 6, maxX := 6, maxY := 6, maxZ := 6 }, { ptr := 7, dims := 3, minX := 7, minY := 7, minZ := 7, maxX := 7, maxY := 7, maxZ := 7 }, { ptr := 8, dims := 3, minX := 8, minY := 8, minZ := 8, maxX := 8, maxY := 8, maxZ := 8 }, { ptr := 9, dims := 3, minX := 9, minY := 9, minZ := 9, maxX := 9, maxY := 9, maxZ := 9 }, { ptr := 10, dims := 3, minX := 10, minY := 10, minZ := 10, maxX := 10, maxY := 10, maxZ := 10 }]] } }
theorem c4run : applyOps c4ops = c4state := by
  rw [applyOps, show c4ops = [HOp.insOp (mkPt3 1 1), HOp.insOp (mkPt3 2 2), HOp.insOp (mkPt3 3 3), HOp.insOp (mkPt3 4 4), HOp.insOp (mkPt3 5 5), HOp.insOp (mkPt3 6 6), HOp.insOp (mkPt3 7 7), HOp.insOp (mkPt3 8 8), HOp.insOp (mkPt3 9 9), HOp.insOp (mkPt3 10 10), HOp.remOp (mkPt3 1 1), HOp.remOp (mkPt3 2 2)] from rfl]
  simp only [List.foldl_cons, List.foldl_nil]
  rw [applyOpF_sound 100 hybridNew c4s1 (HOp.insOp (mkPt3 1 1)) rfl]
  rw [applyOpF_sound 100 c4s1 c4s2 (HOp.insOp (mkPt3 2 2)) rfl]
  rw [applyOpF_sound 100 c4s2 c4s3 (HOp.insOp (mkPt3 3 3)) rfl]
  rw [applyOpF_sound 100 c4s3 c4s4 (HOp.insOp (mkPt3 4 4)) rfl]
  rw [applyOpF_sound 100 c4s4 c4s5 (HOp.insOp (mkPt3 5 5)) rfl]
  rw [applyOpF_sound 100 c4s5 c4s6 (HOp.insOp (mkPt3 6 6)) rfl]
  rw [applyOpF_sound 100 c4s6 c4s7 (HOp.insOp (mkPt3 7 7)) rfl]
  rw [applyOpF_sound 100 c4s7 c4s8 (HOp.insOp (mkPt3 8 8)) rfl]
  rw [applyOpF_sound 100 c4s8 c4s9 (HOp.insOp (mkPt3 9 9)) rfl]
  rw [applyOpF_sound 100 c4s9 c4s10 (HOp.insOp (mkPt3 10 10)) rfl]
  rw [applyOpF_sound 100 c4s10 c4s11 (HOp.remOp (mkPt3 1 1)) rfl]
  exact applyOpF_sound 100 c4s11 c4state (HOp.remOp (mkPt3 2 2)) rfl

/-- One 2D point and one 3D box with a positive z range. -/
def c7a : Item := mkPt2 1 5 6
def c7b : Item := ⟨2, 3, 0, 0, 1, 1, 1, 2⟩
def c7ops : List HOp := [HOp.insOp c7a, HOp.insOp c7b]

def c7s1 : Hybrid := { tr2 := { maxEntries := 9, minEntries := 4, data := GNode.leafN { minX := F.fin 5, minY := F.fin 6, maxX := F.fin 5, maxY := F.fin 6 } 1 [{ ptr := 1, dims := 2, minX := 5, minY := 6, minZ := 0, maxX := 5, maxY := 6, maxZ := 0 }] }, tr3 := { maxEntries := 9, minEntries := 4, data := GNode.leafN { minX := F.pinf, minY := F.pinf, minZ := F.pinf, maxX := F.ninf, maxY := F.ninf, maxZ := F.ninf } 1 [] } }
def c7state : Hybrid := { tr2 := { maxEntries := 9, minEntries := 4, data := GNode.leafN { minX := F.fin 5, minY := F.fin 6, maxX := F.fin 5, maxY := F.fin 6 } 1 [{ ptr := 1, dims := 2, minX := 5, minY := 6, minZ := 0, maxX := 5, maxY := 6, maxZ := 0 }] }, tr3 := { maxEntries := 9, minEntries := 4, data := GNode.leafN { minX := F.fin 0, minY := F.fin 0, minZ := F.fin 1, maxX := F.fin 1, maxY := F.fin 1, maxZ := F.fin 2 } 1 [{ ptr := 2, dims := 3, minX := 0, minY := 0, minZ := 1, maxX := 1, maxY := 1, maxZ := 2 }] } }
theorem c7run : applyOps c7ops = c7state := by
  rw [applyOps, show c7ops = [HOp.insOp c7a, HOp.insOp c7b] from rfl]
  simp only [List.foldl_cons, List.foldl_nil]
  rw [applyOpF_sound 100 hybridNew c7s1 (HOp.insOp c7a) rfl]
  exact applyOpF_sound 100 c7s1 c7state (HOp.insOp c7b) rfl

/-- The same 3D item inserted twice. -/
def c10item : Item := mkPt3 7 1
def c10ops : List HOp := [HOp.insOp c10item, HOp.insOp c10item]

def c10s1 : Hybrid := { tr2 := { maxEntries := 9, minEntries := 4, data := GNode.leafN { minX := F.pinf, minY := F.pinf, maxX := F.ninf, maxY := F.ninf } 1 [] }, tr3 := { maxEntries := 9, minEntries := 4, data := GNode.leafN { minX := F.fin 1, minY := F.fin 1, minZ := F.fin 1, maxX := F.fin 1, maxY := F.fin 1, maxZ := F.fin 1 } 1 [{ ptr := 7, dims := 3, minX := 1, minY := 1, minZ := 1, maxX := 1, maxY := 1, maxZ := 1 }] } }
def c10state : Hybrid := { tr2 := { maxEntries := 9, minEntries := 4, data := GNode.leafN { minX := F.pinf, minY := F.pinf, maxX := F.ninf, maxY := F.ninf } 1 [] }, tr3 := { maxEntries := 9, minEntries := 4, data := GNode.leafN { minX := F.fin 1, minY := F.fin 1, minZ := F.fin 1, maxX := F.fin 1, maxY := F.fin 1, maxZ := F.fin 1 } 1 [{ ptr := 7, dims := 3, minX := 1, minY := 1, minZ := 1, maxX := 1, maxY := 1, maxZ := 1 }, { ptr := 7, dims := 3, minX := 1, minY := 1, minZ := 1, maxX := 1, maxY := 1, maxZ := 1 }] } }
theorem c10run : applyOps c10ops = c10state := by
  rw [applyOps, show c10ops = [HOp.insOp c10item, HOp.insOp c10item] from rfl]
  simp only [List.foldl_cons, List.foldl_nil]
  rw [applyOpF_sound 100 hybridNew c10s1 (HOp.insOp c10item) rfl]
  exact applyOpF_sound 100 c10s1 c10state (HOp.insOp c10item) rfl

/-! ## The claims -/

/-- C3: after every insert and every remove (any reachable state), every
non-leaf node's bbox is the union of its children's bboxes and every leaf
node's bbox is the union of its items' rectangles — in both trees. -/
theorem C3_bbox_exact (ops : List HOp) :
    exactN ops2 (applyOps ops).tr2.data ∧ exactN ops3 (applyOps ops).tr3.data := by
  have h := applyOps_wf ops
  exact ⟨h.1.1, h.2.1.1⟩

/-- Boolean twin of `nonRootBounds`. -/
def nonRootB {β : Type} (low maxE : ℕ) : GNode β → Bool
  | .leafN _ _ _ => true
  | .innerN _ _ cs => countsBL low maxE cs

theorem nonRootB_iff {β : Type} (low maxE : ℕ) (n : GNode β) :
    nonRootB low maxE n = true ↔ nonRootBounds low maxE n := by
  cases n with
  | leafN b ht its =>
    rw [nonRootB, nonRootBounds]
    simp
  | innerN b ht cs =>
    rw [nonRootB, nonRootBounds]
    exact countsBL_iff low maxE cs

/-- C4 counterexample: after ten inserts and two removes the 3D tree has a
non-root node with only 3 children, below `m = 4`: `condense` drops empty
nodes but never reinserts the entries of an underfull node. -/
theorem C4_counterexample : ¬ nonRootBounds 4 9 (applyOps c4ops).tr3.data := by
  rw [c4run, ← nonRootB_iff]
  decide

/-- C4 amended: on every reachable state every non-root node has between 1
and `M = 9` children (no lower bound `m` after removes); after an
insert-only history the full `[m, M] = [4, 9]` bounds do hold. -/
theorem C4_amended (ops : List HOp) :
    (nonRootBounds 1 9 (applyOps ops).tr2.data ∧ nonRootBounds 1 9 (applyOps ops).tr3.data) ∧
      (insOnlyB ops = true →
        nonRootBounds 4 9 (applyOps ops).tr2.data ∧ nonRootBounds 4 9 (applyOps ops).tr3.data) := by
  constructor
  · obtain ⟨⟨_, c2⟩, ⟨_, c3⟩, p1, _, p3, _⟩ := applyOps_wf ops
    rw [p1] at c2
    rw [p3] at c3
    exact ⟨nonRootBounds_of_countsN c2, nonRootBounds_of_countsN c3⟩
  · intro hio
    obtain ⟨⟨⟨_, c2⟩, ⟨_, c3⟩, p1, _, p3, _⟩, _, _⟩ := applyOps_insOnly ops hio
    rw [p1] at c2
    rw [p3] at c3
    exact ⟨nonRootBounds_of_countsN c2, nonRootBounds_of_countsN c3⟩

/-- Witness for C4: a concrete insert-only history satisfying the `[4, 9]`
bounds. -/
theorem C4_amended_witness :
    insOnlyB c7ops = true ∧
      (nonRootBounds 4 9 (applyOps c7ops).tr2.data ∧
        nonRootBounds 4 9 (applyOps c7ops).tr3.data) :=
  ⟨rfl, (C4_amended c7ops).2 rfl⟩

/-- C8: removing an item whose handle is not stored anywhere leaves the
hybrid index completely unchanged (same trees, hence same structure,
bboxes, children and count). -/
theorem C8_remove_absent (h : Hybrid) (it : Item)
    (habs : ∀ x ∈ storedItems h, x.ptr ≠ it.ptr) : h.removeH it = h := by
  rw [Hybrid.removeH]
  have h2 : removeT ops2 h.tr2 it = h.tr2 := by
    rw [removeT]
    have hn : gRemove ops2 it.ptr (ops2.itemBox it) h.tr2.data = none :=
      gRemove_notFound _ (fun x hx =>
        habs x (List.mem_append_left _ hx))
    rw [hn]
  have h3 : removeT ops3 h.tr3 it = h.tr3 := by
    rw [removeT]
    have hn : gRemove ops3 it.ptr (ops3.itemBox it) h.tr3.data = none :=
      gRemove_notFound _ (fun x hx =>
        habs x (List.mem_append_right _ hx))
    rw [hn]
  split
  · rw [h2]
  · rw [h3]

/-- Witness for C8 on a populated state: handle 99 is not stored. -/
theorem C8_remove_absent_witness :
    (∀ x ∈ storedItems c7state, x.ptr ≠ 99) ∧
      c7state.removeH (mkPt3 99 1) = c7state :=
  ⟨by decide, C8_remove_absent c7state (mkPt3 99 1) (by decide)⟩

/-- If the very item is stored, the traversal finds and removes one
matching slot. -/
theorem removeT_found {β : Type} {O : BoxOps β} (L : BoxLaws O) (t : GTree β) (it : Item)
    (hE : exactN O t.data) (hC : countsN 1 t.maxEntries t.data)
    (hmem : it ∈ gItems t.data) :
    ∃ x : Item, x.ptr = it.ptr ∧
      List.Perm (gItems t.data) (x :: gItems (removeT O t it).data) := by
  have hspec : remResult O t.maxEntries it.ptr t.data
      (gRemove O it.ptr (O.itemBox it) t.data) := gRemove_spec L t.data hE hC
  have hfound := gRemove_found L t.data hE hmem
  rw [removeT]
  rcases hres : gRemove O it.ptr (O.itemBox it) t.data with _ | on2
  · exact absurd hres hfound
  · rcases on2 with _ | n2
    · rw [hres, remResult] at hspec
      obtain ⟨x, hx1, hx2⟩ := hspec
      refine ⟨x, hx1, ?_⟩
      rw [hx2]
      have hni : gItems (GNode.leafN O.emptyR 1 ([] : List Item)) = [] := rfl
      rw [hni]
    · rw [hres, remResult] at hspec
      obtain ⟨_, _, _, _, x, hx1, hx2⟩ := hspec
      exact ⟨x, hx1, hx2⟩

/-- C10: removing an item that is stored (possibly in several copies)
deletes exactly one slot: the total count and the number of slots carrying
the item's handle each drop by exactly one. -/
theorem C10_remove_one (h : Hybrid) (it : Item) (hw : hybridWF h) (hdo : dimsOK h)
    (hmem : it ∈ storedItems h) :
    (h.removeH it).countH + 1 = h.countH ∧
      (storedItems (h.removeH it)).countP (fun x => x.ptr == it.ptr) + 1
        = (storedItems h).countP (fun x => x.ptr == it.ptr) := by
  obtain ⟨⟨e2, c2⟩, ⟨e3, c3⟩, hp⟩ := hw
  by_cases hd : it.dims = 2
  · have hmem2 : it ∈ gItems h.tr2.data := by
      rcases List.mem_append.1 hmem with h1 | h1
      · exact h1
      · exact absurd hd (hdo.2 it h1)
    obtain ⟨x, hx1, hx2⟩ := removeT_found laws2 h.tr2 it e2 c2 hmem2
    have hxp : (x.ptr == it.ptr) = true := by simp [hx1]
    rw [Hybrid.removeH, if_pos hd]
    constructor
    · show countT (removeT ops2 h.tr2 it) + countT h.tr3 + 1 = countT h.tr2 + countT h.tr3
      simp only [countT, gCount_eq_items]
      have hlen := hx2.length_eq
      rw [List.length_cons] at hlen
      omega
    · show (gItems (removeT ops2 h.tr2 it).data ++ gItems h.tr3.data).countP
          (fun x => x.ptr == it.ptr) + 1
        = (gItems h.tr2.data ++ gItems h.tr3.data).countP (fun x => x.ptr == it.ptr)
      rw [List.countP_append, List.countP_append,
        hx2.countP_eq (fun y => y.ptr == it.ptr), List.countP_cons, hxp]
      simp only [reduceIte]
      omega
  · have hmem3 : it ∈ gItems h.tr3.data := by
      rcases List.mem_append.1 hmem with h1 | h1
      · exact absurd (hdo.1 it h1) hd
      · exact h1
    obtain ⟨x, hx1, hx2⟩ := removeT_found laws3 h.tr3 it e3 c3 hmem3
    have hxp : (x.ptr == it.ptr) = true := by simp [hx1]
    rw [Hybrid.removeH, if_neg hd]
    constructor
    · show countT h.tr2 + countT (removeT ops3 h.tr3 it) + 1 = countT h.tr2 + countT h.tr3
      simp only [countT, gCount_eq_items]
      have hlen := hx2.length_eq
      rw [List.length_cons] at hlen
      omega
    · show (gItems h.tr2.data ++ gItems (removeT ops3 h.tr3 it).data).countP
          (fun x => x.ptr == it.ptr) + 1
        = (gItems h.tr2.data ++ gItems h.tr3.data).countP (fun x => x.ptr == it.ptr)
      rw [List.countP_append, List.countP_append,
        hx2.countP_eq (fun y => y.ptr == it.ptr), List.countP_cons, hxp]
      simp only [reduceIte]
      omega

/-- Witness for C10: the doubly-inserted item leaves one copy behind. -/
theorem C10_remove_one_witness :
    (c10state.removeH c10item).countH + 1 = c10state.countH ∧
      (storedItems (c10state.removeH c10item)).countP (fun x => x.ptr == c10item.ptr) + 1
        = (storedItems c10state).countP (fun x => x.ptr == c10item.ptr) := by
  have hw : hybridWF c10state := by
    rw [← c10run]
    exact applyOps_wf c10ops
  have hdo : dimsOK c10state := by
    rw [← c10run]
    exact applyOps_dimsOK c10ops
  exact C10_remove_one c10state c10item hw hdo (by decide)

/-- The 2D/3D mixing rule of the hybrid `Search`, as a predicate on one
stored item: a 2D query meets a 2D item on the x/y extent and a 3D item
through the z-widened query; a 3D query meets a 2D item on the x/y extent
only when its z range covers 0, and a 3D item directly. -/
def mixPred (q x : Item) : Bool :=
  if q.dims = 2 then
    if x.dims = 2 then decide (Rect2.intersects q.rect2 x.rect2)
    else decide (Rect3.intersects (widenQuery q) x.rect3)
  else
    if x.dims = 2 then decide (q.minZ ≤ 0 ∧ 0 ≤ q.maxZ) && decide (Rect2.intersects q.rect2 x.rect2)
    else decide (Rect3.intersects q.rect3 x.rect3)

/-- C1: on every reachable state, hybrid `Search` with an always-true
callback delivers exactly the stored items satisfying the mixing rule —
each exactly once, in scan order. -/
theorem C1_search_exact (ops : List HOp) (q : Item) :
    (applyOps ops).searchH q = (storedItems (applyOps ops)).filter (mixPred q) := by
  obtain ⟨⟨e2, c2⟩, ⟨e3, c3⟩, hp⟩ := applyOps_wf ops
  obtain ⟨d2, d3⟩ := applyOps_dimsOK ops
  rw [Hybrid.searchH, storedItems, List.filter_append]
  by_cases hq : q.dims = 2
  · rw [if_pos hq]
    rw [searchT_filter laws2 _ _ e2, searchT_filter laws3 _ _ e3]
    have hl : (gItems (applyOps ops).tr2.data).filter
          (fun x => ops2.intersectsB q.rect2 (ops2.itemBox x))
        = (gItems (applyOps ops).tr2.data).filter (mixPred q) := by
      apply List.filter_congr
      intro x hx
      rw [mixPred, if_pos hq, if_pos (d2 x hx)]
      rfl
    have hr : (gItems (applyOps ops).tr3.data).filter
          (fun x => ops3.intersectsB (widenQuery q) (ops3.itemBox x))
        = (gItems (applyOps ops).tr3.data).filter (mixPred q) := by
      apply List.filter_congr
      intro x hx
      rw [mixPred, if_pos hq, if_neg (d3 x hx)]
      rfl
    rw [hl, hr]
  · rw [if_neg hq]
    rw [searchT_filter laws3 _ _ e3]
    have hr : (gItems (applyOps ops).tr3.data).filter
          (fun x => ops3.intersectsB q.rect3 (ops3.itemBox x))
        = (gItems (applyOps ops).tr3.data).filter (mixPred q) := by
      apply List.filter_congr
      intro x hx
      rw [mixPred, if_neg hq, if_neg (d3 x hx)]
      rfl
    rw [hr]
    by_cases hz : q.minZ ≤ 0 ∧ 0 ≤ q.maxZ
    · rw [if_pos hz]
      rw [searchT_filter laws2 _ _ e2]
      have hl : (gItems (applyOps ops).tr2.data).filter
            (fun x => ops2.intersectsB q.rect2 (ops2.itemBox x))
          = (gItems (applyOps ops).tr2.data).filter (mixPred q) := by
        apply List.filter_congr
        intro x hx
        rw [mixPred, if_neg hq, if_pos (d2 x hx)]
        rw [decide_eq_true hz, Bool.true_and]
        rfl
      rw [hl]
    · rw [if_neg hz]
      have hl : (gItems (applyOps ops).tr2.data).filter (mixPred q) = [] := by
        rw [List.filter_eq_nil]
        intro x hx
        rw [mixPred, if_neg hq, if_pos (d2 x hx)]
        rw [decide_eq_false hz, Bool.false_and]
        exact Bool.false_ne_true
      rw [hl]

/-- C7 counterexample: with one 2D point `(5,6)` and one 3D box with
z ∈ [1,2] indexed, `Bounds()` does not match the claim's reading (2D items
contributing 0 to the z axis): the source leaves z untouched by the 2D
tree, so min z stays 1 instead of 0. -/
theorem C7_counterexample :
    (applyOps c7ops).boundsH ≠ boundsClaim (insItems c7ops) ∧
      (applyOps c7ops).boundsH = ((F.fin 0, F.fin 0, F.fin 1), (F.fin 5, F.fin 6, F.fin 2)) := by
  rw [c7run]
  constructor
  · decide
  · decide

/-- C7 amended: on an insert-only history `Bounds()` equals `boundsRef` of
the inserted items: zeros when empty; x/y min/max over the relevant items
with z = 0 when only 2D items exist; and with both kinds present, x/y over
all items while z ranges over the 3D items only. -/
theorem C7_bounds (ops : List HOp) (hio : insOnlyB ops = true) :
    (applyOps ops).boundsH = boundsRef (insItems ops) :=
  boundsH_of_insOnly ops hio

/-- Witness for C7 on the two-item scenario. -/
theorem C7_bounds_witness :
    insOnlyB c7ops = true ∧ (applyOps c7ops).boundsH = boundsRef (insItems c7ops) :=
  ⟨rfl, C7_bounds c7ops rfl⟩

/-- Three children: `[1,2]³`, `[0,10]×[0,1]²`, `[0,5]×[0,1]²`, and a query
point at the origin. -/
def c5nA : GNode Rect3 :=
  .leafN ⟨F.fin 1, F.fin 1, F.fin 1, F.fin 2, F.fin 2, F.fin 2⟩ 1 []
def c5nB : GNode Rect3 :=
  .leafN ⟨F.fin 0, F.fin 0, F.fin 0, F.fin 10, F.fin 1, F.fin 1⟩ 1 []
def c5nC : GNode Rect3 :=
  .leafN ⟨F.fin 0, F.fin 0, F.fin 0, F.fin 5, F.fin 1, F.fin 1⟩ 1 []
def c5box : Rect3 := ⟨F.fin 0, F.fin 0, F.fin 0, F.fin 0, F.fin 0, F.fin 0⟩

/-- C5 counterexample: `chooseSubtree` picks child 1 (`[0,10]×[0,1]²`)
although child 2 (`[0,5]×[0,1]²`) is tied on minimal enlargement (both 0)
with strictly smaller area: the running `minArea` was already lowered by
the non-minimal child 0, so the area tie-break compares against a stale
minimum. -/
theorem C5_counterexample :
    chooseChildIdx ops3 c5box [c5nA, c5nB, c5nC] = 1 ∧
      (∀ d ∈ [c5nA, c5nB, c5nC], F.fle (enlOf ops3 c5box c5nC) (enlOf ops3 c5box d)) ∧
      enlOf ops3 c5box c5nB = enlOf ops3 c5box c5nC ∧
      F.flt (ops3.area c5nC.bboxOf) (ops3.area c5nB.bboxOf) := by
  refine ⟨by decide, by decide, by decide, by decide⟩

/-- C5 amended: the chosen child does minimize
`enlarged_area(child.bbox, bbox) − area(child.bbox)` over all children (the
area tie-break, however, compares against a running minimum that includes
non-minimal children — see the counterexample). -/
theorem C5_chooseChild {β : Type} {O : BoxOps β} (bbox : β) (c0 : GNode β)
    (cs : List (GNode β)) (hfin : (enlOf O bbox c0).isFin) :
    chooseChildIdx O bbox (c0 :: cs) < (c0 :: cs).length ∧
      ∃ c, (c0 :: cs).get? (chooseChildIdx O bbox (c0 :: cs)) = some c ∧
        ∀ d ∈ c0 :: cs, F.fle (enlOf O bbox c) (enlOf O bbox d) :=
  chooseChildIdx_spec O bbox c0 cs hfin

/-- Witness for C5 at the three concrete children. -/
theorem C5_chooseChild_witness :
    (enlOf ops3 c5box c5nA).isFin ∧
      (chooseChildIdx ops3 c5box (c5nA :: [c5nB, c5nC]) < (c5nA :: [c5nB, c5nC]).length ∧
        ∃ c, (c5nA :: [c5nB, c5nC]).get? (chooseChildIdx ops3 c5box (c5nA :: [c5nB, c5nC]))
            = some c ∧
          ∀ d ∈ c5nA :: [c5nB, c5nC], F.fle (enlOf ops3 c5box c) (enlOf ops3 c5box d)) :=
  ⟨by decide, C5_chooseChild c5box c5nA [c5nB, c5nC] (by decide)⟩

/-- Ten 3D items keyed by x, engineered so that the running `minArea` is
lowered at split index 4 (whose overlap is positive) before the zero-overlap
indices 5 and 6 are visited. -/
def c6item (p : ℕ) (x1 x2 y2 : ℚ) : Item := ⟨p, 3, x1, 0, 0, x2, y2, 1⟩
def c6list : List Item :=
  [c6item 1 1 1 1, c6item 2 2 2 1, c6item 3 3 3 1, c6item 4 4 (51/10) 1,
   c6item 5 5 5 10, c6item 6 6 6 10, c6item 7 7 7 1, c6item 8 8 8 1,
   c6item 9 9 9 1, c6item 10 10 10 20]

/-- C6 counterexample: `chooseSplitIndex` over `c6list` (M = 10, m = 4)
returns 5, although index 6 is tied on minimal overlap (both 0) with a
strictly smaller area sum: the stale `minArea` from index 4 blocks the area
tie-break. -/
theorem C6_counterexample :
    chooseSplitIndexList ops3 Item.rect3 4 10 c6list = 5 ∧
      (∀ i ∈ List.range' 4 3,
        F.fle (ovAt ops3 Item.rect3 10 c6list 5) (ovAt ops3 Item.rect3 10 c6list i)) ∧
      ovAt ops3 Item.rect3 10 c6list 6 = ovAt ops3 Item.rect3 10 c6list 5 ∧
      F.flt (arAt ops3 Item.rect3 10 c6list 6) (arAt ops3 Item.rect3 10 c6list 5) := by
  refine ⟨by decide, by decide, by decide, by decide⟩

/-- C6 amended: the chosen split index lies in `[m, M − m]` and minimizes
the overlap `o` there (the `a` tie-break, however, compares against a
running minimum that includes non-minimal indices — see the
counterexample). -/
theorem C6_chooseSplitIndex {β γ : Type} {O : BoxOps β} (boxOf : γ → β) (m M : ℕ)
    (l : List γ) (hfin : (ovAt O boxOf M l m).isFin) :
    chooseSplitIndexList O boxOf m M l ∈ List.range' m (M - m - m + 1) ∧
      ∀ i ∈ List.range' m (M - m - m + 1),
        F.fle (ovAt O boxOf M l (chooseSplitIndexList O boxOf m M l)) (ovAt O boxOf M l i) :=
  chooseSplitIndexList_spec O boxOf m M l hfin

/-- Witness for C6 at the concrete list. -/
theorem C6_chooseSplitIndex_witness :
    (ovAt ops3 Item.rect3 10 c6list 4).isFin ∧
      (chooseSplitIndexList ops3 Item.rect3 4 10 c6list ∈ List.range' 4 (10 - 4 - 4 + 1) ∧
        ∀ i ∈ List.range' 4 (10 - 4 - 4 + 1),
          F.fle (ovAt ops3 Item.rect3 10 c6list (chooseSplitIndexList ops3 Item.rect3 4 10 c6list))
            (ovAt ops3 Item.rect3 10 c6list i)) :=
  ⟨by decide, C6_chooseSplitIndex Item.rect3 4 10 c6list (by decide)⟩

/-! ## KNN correctness -/

theorem popMinQ_min {β : Type} :
    ∀ {q : List (QEntry β)} {e : QEntry β} {rest : List (QEntry β)},
      popMinQ q = some (e, rest) → ∀ e2 ∈ q, F.fle e.dist e2.dist := by
  intro q
  induction q with
  | nil =>
    intro e rest h
    simp [popMinQ] at h
  | cons a as ih =>
    intro e rest h e2 he2
    rw [popMinQ] at h
    cases he : popMinQ as with
    | none =>
      rw [he] at h
      simp only [Option.some.injEq, Prod.mk.injEq] at h
      obtain ⟨h1, h2⟩ := h
      subst h1
      have hnil := popMinQ_none he
      subst hnil
      rcases List.mem_cons.1 he2 with rfl | hm
      · exact F.fle_refl _
      · cases hm
    | some p =>
      obtain ⟨m, mrest⟩ := p
      rw [he] at h
      by_cases hle : F.fle a.dist m.dist
      · simp only [hle, if_true, Option.some.injEq, Prod.mk.injEq] at h
        obtain ⟨h1, h2⟩ := h
        subst h1
        rcases List.mem_cons.1 he2 with rfl | hm
        · exact F.fle_refl _
        · exact F.fle_trans hle (ih he e2 hm)
      · simp only [hle, if_false, Option.some.injEq, Prod.mk.injEq] at h
        obtain ⟨h1, h2⟩ := h
        subst h1
        rcases List.mem_cons.1 he2 with rfl | hm
        · rcases F.fle_total e2.dist m.dist with h3 | h3
          · exact absurd h3 hle
          · exact h3
        · exact ih he e2 hm

/-- The items a queue still holds (items of node entries included). -/
def qItems {β : Type} : List (QEntry β) → List Item
  | [] => []
  | .nodeE n _ :: es => gItems n ++ qItems es
  | .itemE it _ :: es => it :: qItems es

theorem qItems_append {β : Type} (q r : List (QEntry β)) :
    qItems (q ++ r) = qItems q ++ qItems r := by
  induction q with
  | nil => rfl
  | cons e es ih =>
    cases e with
    | nodeE n d =>
      rw [List.cons_append, qItems, qItems, ih, List.append_assoc]
    | itemE it d =>
      rw [List.cons_append, qItems, qItems, ih, List.cons_append]

theorem qItems_perm {β : Type} {q r : List (QEntry β)} (h : List.Perm q r) :
    List.Perm (qItems q) (qItems r) := by
  induction h with
  | nil => exact List.Perm.refl _
  | cons x _ ih =>
    cases x with
    | nodeE n d => rw [qItems, qItems]; exact ih.append_left _
    | itemE it d => rw [qItems, qItems]; exact ih.cons it
  | swap x y l =>
    cases x with
    | nodeE n d =>
      cases y with
      | nodeE m d2 =>
        rw [qItems, qItems, qItems, qItems, ← List.append_assoc, ← List.append_assoc]
        exact List.Perm.append_right _ (List.perm_append_comm)
      | itemE it d2 =>
        rw [qItems, qItems, qItems, qItems]
        exact (List.perm_middle).symm
    | itemE it d =>
      cases y with
      | nodeE m d2 =>
        rw [qItems, qItems, qItems, qItems]
        exact List.perm_middle
      | itemE it2 d2 =>
        rw [qItems, qItems, qItems, qItems]
        exact List.Perm.swap _ _ _
  | trans _ _ ih1 ih2 => exact ih1.trans ih2

theorem qItems_childEntries {β : Type} (pD : β → F) (pDI : Item → F) (n : GNode β) :
    qItems (childEntries pD pDI n) = gItems n := by
  cases n with
  | leafN b h its =>
    rw [childEntries, gItems]
    induction its with
    | nil => rfl
    | cons i is ih => rw [List.map_cons, qItems, ih]
  | innerN b h cs =>
    rw [childEntries, gItems]
    induction cs with
    | nil => rfl
    | cons c cs ih => rw [List.map_cons, qItems, ih, gItemsL]

section KnnSpec

variable {β : Type} {O : BoxOps β}

/-- What every queue entry of the best-first search satisfies: node entries
carry a structurally sound, nonempty, well-formed subtree keyed by the box
distance of its bbox; item entries carry a well-formed item keyed by the
box distance of its rectangle. -/
def entWF (O : BoxOps β) (maxE : ℕ) (pD : β → F) (pDI : Item → F) : QEntry β → Prop
  | .nodeE n d => exactN O n ∧ countsN 1 maxE n ∧ 1 ≤ n.childCount ∧ wfN n ∧ d = pD n.bboxOf
  | .itemE it d => it.wf ∧ d = pDI it

/-- The KNN loop: with a monotone push step, the delivered stream is sorted
by distance, every delivered pair is a well-formed item with its own box
distance, the delivered items are exactly the queue's population, and any
lower bound on the queue bounds the whole stream. -/
theorem knnGo_spec (maxE : ℕ) (pD : β → F) (pDI : Item → F)
    (hpush : ∀ n : GNode β, entWF O maxE pD pDI (QEntry.nodeE n (pD n.bboxOf)) →
      ∀ e ∈ childEntries pD pDI n, entWF O maxE pD pDI e ∧ F.fle (pD n.bboxOf) e.dist) :
    ∀ q : List (QEntry β), (∀ e ∈ q, entWF O maxE pD pDI e) →
      List.Sorted (fun a b : Item × F => F.fle a.2 b.2) (knnGo pD pDI q) ∧
      (∀ x ∈ knnGo pD pDI q, x.1.wf ∧ x.2 = pDI x.1) ∧
      List.Perm ((knnGo pD pDI q).map Prod.fst) (qItems q) ∧
      (∀ b : F, (∀ e ∈ q, F.fle b e.dist) → ∀ x ∈ knnGo pD pDI q, F.fle b x.2) := by
  intro q
  induction q using knnGo.induct pD pDI with
  | case1 q hp =>
    intro hq
    rw [knnGo]
    split
    · next hp2 =>
      have hnil := popMinQ_none hp
      subst hnil
      refine ⟨List.sorted_nil, ?_, ?_, ?_⟩
      · intro x hx
        cases hx
      · exact List.Perm.refl _
      · intro b hb x hx
        cases hx
    · next e rest hp2 =>
      rw [hp] at hp2
      cases hp2
  | case2 q rest it d hp hpdup ih =>
    intro hq
    have hperm := popMinQ_perm hp
    have hein : QEntry.itemE it d ∈ q := hperm.mem_iff.2 (List.mem_cons_self _ _)
    have hrest : ∀ e2 ∈ rest, entWF O maxE pD pDI e2 := fun e2 he2 =>
      hq e2 (hperm.mem_iff.2 (List.mem_cons_of_mem _ he2))
    have hitem := hq _ hein
    rw [entWF] at hitem
    have hmin := popMinQ_min hp
    obtain ⟨ihS, ihD, ihP, ihB⟩ := ih hrest
    rw [knnGo]
    split
    · next hp2 =>
      rw [hp] at hp2
      cases hp2
    · next e2 rest2 hp2 =>
      rw [hp] at hp2
      injection hp2 with hp2
      injection hp2 with hpe hpr
      subst hpe
      subst hpr
      dsimp only
      refine ⟨?_, ?_, ?_, ?_⟩
      · rw [List.sorted_cons]
        refine ⟨?_, ihS⟩
        intro y hy
        exact ihB d (fun e2 he2 => hmin e2 (hperm.mem_iff.2 (List.mem_cons_of_mem _ he2))) y hy
      · intro x hx
        rcases List.mem_cons.1 hx with rfl | hm
        · exact hitem
        · exact ihD x hm
      · rw [List.map_cons]
        refine (ihP.cons it).trans ?_
        have hqp : List.Perm (qItems (QEntry.itemE it d :: rest)) (qItems q) :=
          (qItems_perm hperm).symm
        rw [qItems] at hqp
        exact hqp
      · intro b hb x hx
        rcases List.mem_cons.1 hx with rfl | hm
        · exact hb _ hein
        · exact ihB b (fun e2 he2 => hb e2 (hperm.mem_iff.2 (List.mem_cons_of_mem _ he2))) x hm
  | case3 q rest n d hp hpdup ih =>
    intro hq
    have hperm := popMinQ_perm hp
    have hein : QEntry.nodeE n d ∈ q := hperm.mem_iff.2 (List.mem_cons_self _ _)
    have hrest : ∀ e2 ∈ rest, entWF O maxE pD pDI e2 := fun e2 he2 =>
      hq e2 (hperm.mem_iff.2 (List.mem_cons_of_mem _ he2))
    have hnode := hq _ hein
    rw [entWF] at hnode
    obtain ⟨hE, hC, hcc, hW, hd⟩ := hnode
    subst hd
    have hchild := hpush n ⟨hE, hC, hcc, hW, rfl⟩
    have hmin := popMinQ_min hp
    have hq2 : ∀ e2 ∈ rest ++ childEntries pD pDI n, entWF O maxE pD pDI e2 := by
      intro e2 he2
      rcases List.mem_append.1 he2 with hm | hm
      · exact hrest e2 hm
      · exact (hchild e2 hm).1
    obtain ⟨ihS, ihD, ihP, ihB⟩ := ih hq2
    rw [knnGo]
    split
    · next hp2 =>
      rw [hp] at hp2
      cases hp2
    · next e2 rest2 hp2 =>
      rw [hp] at hp2
      injection hp2 with hp2
      injection hp2 with hpe hpr
      subst hpe
      subst hpr
      dsimp only
      refine ⟨ihS, ihD, ?_, ?_⟩
      · refine ihP.trans ?_
        rw [qItems_append, qItems_childEntries]
        have hqp : List.Perm (qItems (QEntry.nodeE n (pD n.bboxOf) :: rest)) (qItems q) :=
          (qItems_perm hperm).symm
        rw [qItems] at hqp
        exact (List.perm_append_comm).trans hqp
      · intro b hb x hx
        refine ihB b ?_ x hx
        intro e2 he2
        rcases List.mem_append.1 he2 with hm | hm
        · exact hb e2 (hperm.mem_iff.2 (List.mem_cons_of_mem _ hm))
        · exact F.fle_trans (hb _ hein) (hchild e2 hm).2

end KnnSpec

/-- A well-formed box: min ≤ max on each axis. -/
def Rect3.wfR (r : Rect3) : Prop :=
  F.fle r.minX r.maxX ∧ F.fle r.minY r.maxY ∧ F.fle r.minZ r.maxZ

/-- 2D form. -/
def Rect2.wfR (r : Rect2) : Prop :=
  F.fle r.minX r.maxX ∧ F.fle r.minY r.maxY

theorem rect3_wfR_extend {a b : Rect3} (ha : a.wfR) (hb : b.wfR) :
    (Rect3.extend a b).wfR :=
  ⟨F.fle_trans (F.mathMin_fle_left _ _) (F.fle_trans ha.1 (F.fle_mathMax_left _ _)),
   F.fle_trans (F.mathMin_fle_left _ _) (F.fle_trans ha.2.1 (F.fle_mathMax_left _ _)),
   F.fle_trans (F.mathMin_fle_left _ _) (F.fle_trans ha.2.2 (F.fle_mathMax_left _ _))⟩

theorem rect2_wfR_extend {a b : Rect2} (ha : a.wfR) (hb : b.wfR) :
    (Rect2.extend a b).wfR :=
  ⟨F.fle_trans (F.mathMin_fle_left _ _) (F.fle_trans ha.1 (F.fle_mathMax_left _ _)),
   F.fle_trans (F.mathMin_fle_left _ _) (F.fle_trans ha.2 (F.fle_mathMax_left _ _))⟩

theorem item_rect3_wfR {it : Item} (h : it.wf) : it.rect3.wfR :=
  ⟨F.fin_fle_fin.2 h.1, F.fin_fle_fin.2 h.2.1, F.fin_fle_fin.2 h.2.2⟩

theorem item_rect2_wfR {it : Item} (h : it.wf) : it.rect2.wfR :=
  ⟨F.fin_fle_fin.2 h.1, F.fin_fle_fin.2 h.2.1⟩

theorem calcList3_wfR : ∀ {l : List Rect3}, l ≠ [] → (∀ b ∈ l, b.wfR) →
    (calcList ops3 l).wfR := by
  intro l
  induction l with
  | nil => intro h; cases h rfl
  | cons c cs ih =>
    intro _ hall
    rw [calcList_cons laws3]
    cases cs with
    | nil =>
      have hn : calcList ops3 ([] : List Rect3) = Rect3.emptyR := rfl
      show (Rect3.extend c (calcList ops3 [])).wfR
      rw [hn]
      have hc := hall c (List.mem_cons_self c [])
      exact ⟨F.fle_trans (F.mathMin_fle_left _ _) (F.fle_trans hc.1 (F.fle_mathMax_left _ _)),
        F.fle_trans (F.mathMin_fle_left _ _) (F.fle_trans hc.2.1 (F.fle_mathMax_left _ _)),
        F.fle_trans (F.mathMin_fle_left _ _) (F.fle_trans hc.2.2 (F.fle_mathMax_left _ _))⟩
    | cons d ds =>
      exact rect3_wfR_extend (hall c (List.mem_cons_self c _))
        (ih (by simp) (fun b hb => hall b (List.mem_cons_of_mem c hb)))

theorem calcList2_wfR : ∀ {l : List Rect2}, l ≠ [] → (∀ b ∈ l, b.wfR) →
    (calcList ops2 l).wfR := by
  intro l
  induction l with
  | nil => intro h; cases h rfl
  | cons c cs ih =>
    intro _ hall
    rw [calcList_cons laws2]
    cases cs with
    | nil =>
      have hn : calcList ops2 ([] : List Rect2) = Rect2.emptyR := rfl
      show (Rect2.extend c (calcList ops2 [])).wfR
      rw [hn]
      have hc := hall c (List.mem_cons_self c [])
      exact ⟨F.fle_trans (F.mathMin_fle_left _ _) (F.fle_trans hc.1 (F.fle_mathMax_left _ _)),
        F.fle_trans (F.mathMin_fle_left _ _) (F.fle_trans hc.2 (F.fle_mathMax_left _ _))⟩
    | cons d ds =>
      exact rect2_wfR_extend (hall c (List.mem_cons_self c _))
        (ih (by simp) (fun b hb => hall b (List.mem_cons_of_mem c hb)))

/-- A nonempty, structurally sound, well-formed node has a well-formed
finite bbox. -/
theorem node_box3_wf {maxE : ℕ} {n : GNode Rect3} (hE : exactN ops3 n)
    (hC : countsN 1 maxE n) (hcc : 1 ≤ n.childCount) (hW : wfN n) :
    n.bboxOf.wfR ∧ n.bboxOf.finR := by
  constructor
  · rw [bbox_items laws3 n hE]
    refine calcList3_wfR ?_ ?_
    · have hne := gItems_ne_nil (le_refl 1) n hC hcc
      intro hmap
      rw [List.map_eq_nil] at hmap
      exact hne hmap
    · intro b hb
      obtain ⟨x, hx1, hx2⟩ := List.mem_map.1 hb
      rw [← hx2]
      exact item_rect3_wfR ((wfN_iff_items n).1 hW x hx1)
  · exact exact_fin laws3 (le_refl 1) n hE hC hcc

theorem node_box2_wf {maxE : ℕ} {n : GNode Rect2} (hE : exactN ops2 n)
    (hC : countsN 1 maxE n) (hcc : 1 ≤ n.childCount) (hW : wfN n) :
    n.bboxOf.wfR ∧ n.bboxOf.finR := by
  constructor
  · rw [bbox_items laws2 n hE]
    refine calcList2_wfR ?_ ?_
    · have hne := gItems_ne_nil (le_refl 1) n hC hcc
      intro hmap
      rw [List.map_eq_nil] at hmap
      exact hne hmap
    · intro b hb
      obtain ⟨x, hx1, hx2⟩ := List.mem_map.1 hb
      rw [← hx2]
      exact item_rect2_wfR ((wfN_iff_items n).1 hW x hx1)
  · exact exact_fin laws2 (le_refl 1) n hE hC hcc

/-- `axisDist` over the rationals. -/
def axisDistQ (k lo hi : ℚ) : ℚ :=
  if k < lo then lo - k else if k ≤ hi then 0 else k - hi

theorem axisDistF_fin (k lo hi : ℚ) :
    axisDistF (F.fin k) (F.fin lo) (F.fin hi) = F.fin (axisDistQ k lo hi) := by
  rw [axisDistF, axisDistQ]
  by_cases h1 : k < lo
  · rw [if_pos (F.fin_flt_fin.2 h1), if_pos h1]
    rfl
  · rw [if_neg (fun hc => h1 (F.fin_flt_fin.1 hc)), if_neg h1]
    by_cases h2 : k ≤ hi
    · rw [if_pos (F.fin_fle_fin.2 h2), if_pos h2]
    · rw [if_neg (fun hc => h2 (F.fin_fle_fin.1 hc)), if_neg h2]
      rfl

theorem axisDistQ_nonneg (k lo hi : ℚ) : 0 ≤ axisDistQ k lo hi := by
  rw [axisDistQ]
  split_ifs <;> linarith

theorem axisDistQ_mono {k lo hi lo2 hi2 : ℚ} (h1 : lo ≤ lo2) (h2 : hi2 ≤ hi)
    (hwf : lo2 ≤ hi2) : axisDistQ k lo hi ≤ axisDistQ k lo2 hi2 := by
  rw [axisDistQ, axisDistQ]
  split_ifs <;> linarith

theorem boxDist3_eq (px py pz : ℚ) (r : Rect3) {q1 q2 q3 q4 q5 q6 : ℚ}
    (h1 : r.minX = F.fin q1) (h2 : r.minY = F.fin q2) (h3 : r.minZ = F.fin q3)
    (h4 : r.maxX = F.fin q4) (h5 : r.maxY = F.fin q5) (h6 : r.maxZ = F.fin q6) :
    boxDist3 (F.fin px) (F.fin py) (F.fin pz) r
      = F.fin ((axisDistQ px q1 q4 * axisDistQ px q1 q4
          + axisDistQ py q2 q5 * axisDistQ py q2 q5)
          + axisDistQ pz q3 q6 * axisDistQ pz q3 q6) := by
  rw [boxDist3]
  rw [h1, h2, h3, h4, h5, h6, axisDistF_fin, axisDistF_fin, axisDistF_fin]
  rfl

theorem boxDist2_eq (px py : ℚ) (r : Rect2) {q1 q2 q4 q5 : ℚ}
    (h1 : r.minX = F.fin q1) (h2 : r.minY = F.fin q2)
    (h4 : r.maxX = F.fin q4) (h5 : r.maxY = F.fin q5) :
    boxDist2 (F.fin px) (F.fin py) r
      = F.fin (axisDistQ px q1 q4 * axisDistQ px q1 q4
          + axisDistQ py q2 q5 * axisDistQ py q2 q5) := by
  rw [boxDist2]
  rw [h1, h2, h4, h5, axisDistF_fin, axisDistF_fin]
  rfl

/-- Box distance is antitone under containment (for finite boxes with a
well-formed inner box): pruning by the parent's bbox never skips a closer
child. -/
theorem boxDist3_mono (px py pz : ℚ) {a b : Rect3} (ha : a.finR) (hb : b.finR)
    (hwb : b.wfR) (hc : Rect3.containsR a b) :
    F.fle (boxDist3 (F.fin px) (F.fin py) (F.fin pz) a)
      (boxDist3 (F.fin px) (F.fin py) (F.fin pz) b) := by
  obtain ⟨a1, ha1⟩ := F.isFin_iff.1 ha.1
  obtain ⟨a2, ha2⟩ := F.isFin_iff.1 ha.2.1
  obtain ⟨a3, ha3⟩ := F.isFin_iff.1 ha.2.2.1
  obtain ⟨a4, ha4⟩ := F.isFin_iff.1 ha.2.2.2.1
  obtain ⟨a5, ha5⟩ := F.isFin_iff.1 ha.2.2.2.2.1
  obtain ⟨a6, ha6⟩ := F.isFin_iff.1 ha.2.2.2.2.2
  obtain ⟨b1, hb1⟩ := F.isFin_iff.1 hb.1
  obtain ⟨b2, hb2⟩ := F.isFin_iff.1 hb.2.1
  obtain ⟨b3, hb3⟩ := F.isFin_iff.1 hb.2.2.1
  obtain ⟨b4, hb4⟩ := F.isFin_iff.1 hb.2.2.2.1
  obtain ⟨b5, hb5⟩ := F.isFin_iff.1 hb.2.2.2.2.1
  obtain ⟨b6, hb6⟩ := F.isFin_iff.1 hb.2.2.2.2.2
  obtain ⟨hc1, hc2, hc3, hc4, hc5, hc6⟩ := hc
  rw [ha1, hb1] at hc1
  rw [ha2, hb2] at hc2
  rw [ha3, hb3] at hc3
  rw [ha4, hb4] at hc4
  rw [ha5, hb5] at hc5
  rw [ha6, hb6] at hc6
  obtain ⟨hw1, hw2, hw3⟩ := hwb
  rw [hb1, hb4] at hw1
  rw [hb2, hb5] at hw2
  rw [hb3, hb6] at hw3
  rw [boxDist3_eq px py pz a ha1 ha2 ha3 ha4 ha5 ha6,
    boxDist3_eq px py pz b hb1 hb2 hb3 hb4 hb5 hb6]
  rw [F.fin_fle_fin]
  have mx := axisDistQ_mono (k := px) (F.fin_fle_fin.1 hc1) (F.fin_fle_fin.1 hc4)
    (F.fin_fle_fin.1 hw1)
  have my := axisDistQ_mono (k := py) (F.fin_fle_fin.1 hc2) (F.fin_fle_fin.1 hc5)
    (F.fin_fle_fin.1 hw2)
  have mz := axisDistQ_mono (k := pz) (F.fin_fle_fin.1 hc3) (F.fin_fle_fin.1 hc6)
    (F.fin_fle_fin.1 hw3)
  have nx := axisDistQ_nonneg px a1 a4
  have ny := axisDistQ_nonneg py a2 a5
  have nz := axisDistQ_nonneg pz a3 a6
  have sx := mul_self_le_mul_self nx mx
  have sy := mul_self_le_mul_self ny my
  have sz := mul_self_le_mul_self nz mz
  linarith

theorem boxDist2_mono (px py : ℚ) {a b : Rect2} (ha : a.finR) (hb : b.finR)
    (hwb : b.wfR) (hc : Rect2.containsR a b) :
    F.fle (boxDist2 (F.fin px) (F.fin py) a) (boxDist2 (F.fin px) (F.fin py) b) := by
  obtain ⟨a1, ha1⟩ := F.isFin_iff.1 ha.1
  obtain ⟨a2, ha2⟩ := F.isFin_iff.1 ha.2.1
  obtain ⟨a4, ha4⟩ := F.isFin_iff.1 ha.2.2.1
  obtain ⟨a5, ha5⟩ := F.isFin_iff.1 ha.2.2.2
  obtain ⟨b1, hb1⟩ := F.isFin_iff.1 hb.1
  obtain ⟨b2, hb2⟩ := F.isFin_iff.1 hb.2.1
  obtain ⟨b4, hb4⟩ := F.isFin_iff.1 hb.2.2.1
  obtain ⟨b5, hb5⟩ := F.isFin_iff.1 hb.2.2.2
  obtain ⟨hc1, hc2, hc4, hc5⟩ := hc
  rw [ha1, hb1] at hc1
  rw [ha2, hb2] at hc2
  rw [ha4, hb4] at hc4
  rw [ha5, hb5] at hc5
  obtain ⟨hw1, hw2⟩ := hwb
  rw [hb1, hb4] at hw1
  rw [hb2, hb5] at hw2
  rw [boxDist2_eq px py a ha1 ha2 ha4 ha5, boxDist2_eq px py b hb1 hb2 hb4 hb5]
  rw [F.fin_fle_fin]
  have mx := axisDistQ_mono (k := px) (F.fin_fle_fin.1 hc1) (F.fin_fle_fin.1 hc4)
    (F.fin_fle_fin.1 hw1)
  have my := axisDistQ_mono (k := py) (F.fin_fle_fin.1 hc2) (F.fin_fle_fin.1 hc5)
    (F.fin_fle_fin.1 hw2)
  have nx := axisDistQ_nonneg px a1 a4
  have ny := axisDistQ_nonneg py a2 a5
  have sx := mul_self_le_mul_self nx mx
  have sy := mul_self_le_mul_self ny my
  linarith

theorem item_rect3_finR (it : Item) : it.rect3.finR :=
  ⟨trivial, trivial, trivial, trivial, trivial, trivial⟩

theorem item_rect2_finR (it : Item) : it.rect2.finR :=
  ⟨trivial, trivial, trivial, trivial⟩

/-- The 3D query-point distances. -/
def pD3 (px py pz : ℚ) : Rect3 → F := boxDist3 (F.fin px) (F.fin py) (F.fin pz)
def pDI3 (px py pz : ℚ) : Item → F := fun it => boxDist3 (F.fin px) (F.fin py) (F.fin pz) it.rect3

/-- The 2D query-point distances. -/
def pD2 (px py : ℚ) : Rect2 → F := boxDist2 (F.fin px) (F.fin py)
def pDI2 (px py : ℚ) : Item → F := fun it => boxDist2 (F.fin px) (F.fin py) it.rect2

/-- Pushing a 3D node's children keeps the entry invariant and never drops
below the parent's key. -/
theorem hpush3 (maxE : ℕ) (px py pz : ℚ) :
    ∀ n : GNode Rect3,
      entWF ops3 maxE (pD3 px py pz) (pDI3 px py pz)
        (QEntry.nodeE n (pD3 px py pz n.bboxOf)) →
      ∀ e ∈ childEntries (pD3 px py pz) (pDI3 px py pz) n,
        entWF ops3 maxE (pD3 px py pz) (pDI3 px py pz) e ∧
          F.fle (pD3 px py pz n.bboxOf) e.dist := by
  intro n hn e he
  rw [entWF] at hn
  obtain ⟨hE, hC, hcc, hW, _⟩ := hn
  obtain ⟨hwfb, hfinb⟩ := node_box3_wf hE hC hcc hW
  cases n with
  | leafN b ht its =>
    rw [childEntries] at he
    obtain ⟨it, hit, rfl⟩ := List.mem_map.1 he
    rw [wfN] at hW
    have hitwf : it.wf := hW it hit
    refine ⟨⟨hitwf, rfl⟩, ?_⟩
    show F.fle (pD3 px py pz (GNode.leafN b ht its).bboxOf) (pDI3 px py pz it)
    have hcont := exactN_contains_item laws3 (GNode.leafN b ht its) hE
      (by rw [gItems]; exact hit)
    exact boxDist3_mono px py pz hfinb (item_rect3_finR it) (item_rect3_wfR hitwf)
      (of_decide_eq_true hcont)
  | innerN b ht cs =>
    rw [childEntries] at he
    obtain ⟨c, hcmem, rfl⟩ := List.mem_map.1 he
    rw [exactN] at hE
    rw [countsN] at hC
    rw [wfN] at hW
    have hEc := exactL_iff_forall.1 hE.2 c hcmem
    have hCc := countsL_iff_forall.1 hC.2.2 c hcmem
    have hWc := wfL_iff_forall.1 hW c hcmem
    have hboxc := node_box3_wf hEc hCc.2 hCc.1 hWc
    refine ⟨⟨hEc, hCc.2, hCc.1, hWc, rfl⟩, ?_⟩
    show F.fle (pD3 px py pz (GNode.innerN b ht cs).bboxOf) (pD3 px py pz c.bboxOf)
    have hcont : ops3.containsB (GNode.innerN b ht cs).bboxOf c.bboxOf = true := by
      show ops3.containsB b c.bboxOf = true
      rw [hE.1]
      exact calcList_contains_mem laws3 (List.mem_map_of_mem GNode.bboxOf hcmem)
    exact boxDist3_mono px py pz hfinb hboxc.2 hboxc.1 (of_decide_eq_true hcont)

/-- 2D twin. -/
theorem hpush2 (maxE : ℕ) (px py : ℚ) :
    ∀ n : GNode Rect2,
      entWF ops2 maxE (pD2 px py) (pDI2 px py)
        (QEntry.nodeE n (pD2 px py n.bboxOf)) →
      ∀ e ∈ childEntries (pD2 px py) (pDI2 px py) n,
        entWF ops2 maxE (pD2 px py) (pDI2 px py) e ∧
          F.fle (pD2 px py n.bboxOf) e.dist := by
  intro n hn e he
  rw [entWF] at hn
  obtain ⟨hE, hC, hcc, hW, _⟩ := hn
  obtain ⟨hwfb, hfinb⟩ := node_box2_wf hE hC hcc hW
  cases n with
  | leafN b ht its =>
    rw [childEntries] at he
    obtain ⟨it, hit, rfl⟩ := List.mem_map.1 he
    rw [wfN] at hW
    have hitwf : it.wf := hW it hit
    refine ⟨⟨hitwf, rfl⟩, ?_⟩
    show F.fle (pD2 px py (GNode.leafN b ht its).bboxOf) (pDI2 px py it)
    have hcont := exactN_contains_item laws2 (GNode.leafN b ht its) hE
      (by rw [gItems]; exact hit)
    exact boxDist2_mono px py hfinb (item_rect2_finR it) (item_rect2_wfR hitwf)
      (of_decide_eq_true hcont)
  | innerN b ht cs =>
    rw [childEntries] at he
    obtain ⟨c, hcmem, rfl⟩ := List.mem_map.1 he
    rw [exactN] at hE
    rw [countsN] at hC
    rw [wfN] at hW
    have hEc := exactL_iff_forall.1 hE.2 c hcmem
    have hCc := countsL_iff_forall.1 hC.2.2 c hcmem
    have hWc := wfL_iff_forall.1 hW c hcmem
    have hboxc := node_box2_wf hEc hCc.2 hCc.1 hWc
    refine ⟨⟨hEc, hCc.2, hCc.1, hWc, rfl⟩, ?_⟩
    show F.fle (pD2 px py (GNode.innerN b ht cs).bboxOf) (pD2 px py c.bboxOf)
    have hcont : ops2.containsB (GNode.innerN b ht cs).bboxOf c.bboxOf = true := by
      show ops2.containsB b c.bboxOf = true
      rw [hE.1]
      exact calcList_contains_mem laws2 (List.mem_map_of_mem GNode.bboxOf hcmem)
    exact boxDist2_mono px py hfinb hboxc.2 hboxc.1 (of_decide_eq_true hcont)

/-- The root's seed entries satisfy the entry invariant. -/
theorem seed_entWF3 (px py pz : ℚ) (t : GTree Rect3)
    (hwf : treeWF ops3 1 t) (hWn : wfN t.data) :
    ∀ e ∈ childEntries (pD3 px py pz) (pDI3 px py pz) t.data,
      entWF ops3 t.maxEntries (pD3 px py pz) (pDI3 px py pz) e := by
  obtain ⟨hE, hC⟩ := hwf
  intro e he
  cases hdata : t.data with
  | leafN b ht its =>
    rw [hdata, childEntries] at he
    obtain ⟨it, hit, rfl⟩ := List.mem_map.1 he
    rw [hdata, wfN] at hWn
    exact ⟨hWn it hit, rfl⟩
  | innerN b ht cs =>
    rw [hdata, childEntries] at he
    obtain ⟨c, hcmem, rfl⟩ := List.mem_map.1 he
    rw [hdata, exactN] at hE
    rw [hdata, countsN] at hC
    rw [hdata, wfN] at hWn
    exact ⟨exactL_iff_forall.1 hE.2 c hcmem,
      (countsL_iff_forall.1 hC.2.2 c hcmem).2,
      (countsL_iff_forall.1 hC.2.2 c hcmem).1,
      wfL_iff_forall.1 hWn c hcmem, rfl⟩

theorem seed_entWF2 (px py : ℚ) (t : GTree Rect2)
    (hwf : treeWF ops2 1 t) (hWn : wfN t.data) :
    ∀ e ∈ childEntries (pD2 px py) (pDI2 px py) t.data,
      entWF ops2 t.maxEntries (pD2 px py) (pDI2 px py) e := by
  obtain ⟨hE, hC⟩ := hwf
  intro e he
  cases hdata : t.data with
  | leafN b ht its =>
    rw [hdata, childEntries] at he
    obtain ⟨it, hit, rfl⟩ := List.mem_map.1 he
    rw [hdata, wfN] at hWn
    exact ⟨hWn it hit, rfl⟩
  | innerN b ht cs =>
    rw [hdata, childEntries] at he
    obtain ⟨c, hcmem, rfl⟩ := List.mem_map.1 he
    rw [hdata, exactN] at hE
    rw [hdata, countsN] at hC
    rw [hdata, wfN] at hWn
    exact ⟨exactL_iff_forall.1 hE.2 c hcmem,
      (countsL_iff_forall.1 hC.2.2 c hcmem).2,
      (countsL_iff_forall.1 hC.2.2 c hcmem).1,
      wfL_iff_forall.1 hWn c hcmem, rfl⟩

/-- 3D `KNN`: sorted by box distance, every pair carries its own distance,
and the stream's items are exactly the stored population. -/
theorem knn3T_spec (t : GTree Rect3) (px py pz : ℚ)
    (hwf : treeWF ops3 1 t) (hWn : wfN t.data) :
    List.Sorted (fun a b : Item × F => F.fle a.2 b.2) (knn3T t px py pz) ∧
    (∀ x ∈ knn3T t px py pz, x.1.wf ∧
      x.2 = boxDist3 (F.fin px) (F.fin py) (F.fin pz) x.1.rect3) ∧
    List.Perm ((knn3T t px py pz).map Prod.fst) (gItems t.data) := by
  have h := knnGo_spec t.maxEntries (pD3 px py pz) (pDI3 px py pz)
    (hpush3 t.maxEntries px py pz)
    (childEntries (pD3 px py pz) (pDI3 px py pz) t.data)
    (seed_entWF3 px py pz t hwf hWn)
  exact ⟨h.1, h.2.1, (qItems_childEntries (pD3 px py pz) (pDI3 px py pz) t.data) ▸ h.2.2.1⟩

theorem knn2T_spec (t : GTree Rect2) (px py : ℚ)
    (hwf : treeWF ops2 1 t) (hWn : wfN t.data) :
    List.Sorted (fun a b : Item × F => F.fle a.2 b.2) (knn2T t px py) ∧
    (∀ x ∈ knn2T t px py, x.1.wf ∧
      x.2 = boxDist2 (F.fin px) (F.fin py) x.1.rect2) ∧
    List.Perm ((knn2T t px py).map Prod.fst) (gItems t.data) := by
  have h := knnGo_spec t.maxEntries (pD2 px py) (pDI2 px py)
    (hpush2 t.maxEntries px py)
    (childEntries (pD2 px py) (pDI2 px py) t.data)
    (seed_entWF2 px py t hwf hWn)
  exact ⟨h.1, h.2.1, (qItems_childEntries (pD2 px py) (pDI2 px py) t.data) ▸ h.2.2.1⟩

/-- Well-formedness of all stored items is preserved along any history
whose inserts are well-formed. -/
theorem applyOp_itemsWF {h : Hybrid} {op : HOp} (hw : hybridWF h)
    (hok : ∀ it : Item, op = HOp.insOp it → it.wf)
    (hst : ∀ x ∈ storedItems h, x.wf) :
    ∀ x ∈ storedItems (applyOp h op), x.wf := by
  cases op with
  | insOp it =>
    intro x hx
    rcases (Hybrid.insertH_wf hw).2 with ⟨hd, hp2, he3⟩ | ⟨hd, he2, hp3⟩
    · rcases List.mem_append.1 hx with hm | hm
      · rcases List.mem_cons.1 (hp2.mem_iff.1 hm) with rfl | hm2
        · exact hok x rfl
        · exact hst x (List.mem_append_left _ hm2)
      · refine hst x (List.mem_append_right _ ?_)
        have he3d : (applyOp h (HOp.insOp it)).tr3 = h.tr3 := he3
        rw [he3d] at hm
        exact hm
    · rcases List.mem_append.1 hx with hm | hm
      · refine hst x (List.mem_append_left _ ?_)
        have he2d : (applyOp h (HOp.insOp it)).tr2 = h.tr2 := he2
        rw [he2d] at hm
        exact hm
      · rcases List.mem_cons.1 (hp3.mem_iff.1 hm) with rfl | hm2
        · exact hok x rfl
        · exact hst x (List.mem_append_right _ hm2)
  | remOp it =>
    intro x hx
    obtain ⟨_, hr2, hr3⟩ := @Hybrid.removeH_wf h it hw
    rcases List.mem_append.1 hx with hm | hm
    · rcases hr2 with heq | ⟨y, _, hp⟩
      · refine hst x (List.mem_append_left _ ?_)
        have heqd : (applyOp h (HOp.remOp it)).tr2 = h.tr2 := heq
        rw [heqd] at hm
        exact hm
      · exact hst x (List.mem_append_left _ (hp.mem_iff.2 (List.mem_cons_of_mem y hm)))
    · rcases hr3 with heq | ⟨y, _, hp⟩
      · refine hst x (List.mem_append_right _ ?_)
        have heqd : (applyOp h (HOp.remOp it)).tr3 = h.tr3 := heq
        rw [heqd] at hm
        exact hm
      · exact hst x (List.mem_append_right _ (hp.mem_iff.2 (List.mem_cons_of_mem y hm)))

theorem foldl_itemsWF (ops : List HOp) (h : Hybrid) (hw : hybridWF h)
    (hins : ∀ x ∈ insItems ops, x.wf) (hst : ∀ x ∈ storedItems h, x.wf) :
    ∀ x ∈ storedItems (ops.foldl applyOp h), x.wf := by
  induction ops generalizing h with
  | nil => exact hst
  | cons op ops ih =>
    refine ih _ (applyOp_wf hw) ?_ ?_
    · intro x hx
      cases op with
      | insOp it =>
        rw [insItems] at hins
        exact hins x (List.mem_cons_of_mem it hx)
      | remOp it =>
        rw [insItems] at hins
        exact hins x hx
    · refine applyOp_itemsWF hw ?_ hst
      intro it hop
      subst hop
      rw [insItems] at hins
      exact hins it (List.mem_cons_self it _)

/-- Every item stored after a history of well-formed inserts is
well-formed. -/
theorem applyOps_itemsWF (ops : List HOp) (hins : ∀ x ∈ insItems ops, x.wf) :
    ∀ x ∈ storedItems (applyOps ops), x.wf :=
  foldl_itemsWF ops hybridNew hybridNew_wf hins (fun x hx => by cases hx)

/-- The merge delivers exactly the two streams' elements. -/
theorem mergeKNN_perm : ∀ xs ys : List (Item × F), List.Perm (mergeKNN xs ys) (xs ++ ys) := by
  intro xs ys
  induction xs, ys using mergeKNN.induct with
  | case1 ys =>
    rw [mergeKNN]
    exact List.Perm.refl _
  | case2 x xs =>
    rw [mergeKNN]
    rw [List.append_nil]
  | case3 x xs y ys hlt ih =>
    rw [mergeKNN, if_pos hlt]
    exact (ih.cons x)
  | case4 x xs y ys hlt ih =>
    rw [mergeKNN, if_neg hlt]
    refine (ih.cons y).trans ?_
    exact (List.perm_middle).symm

/-- Merging two distance-sorted streams is distance-sorted. -/
theorem mergeKNN_sorted : ∀ xs ys : List (Item × F),
    List.Sorted (fun a b : Item × F => F.fle a.2 b.2) xs →
    List.Sorted (fun a b : Item × F => F.fle a.2 b.2) ys →
    List.Sorted (fun a b : Item × F => F.fle a.2 b.2) (mergeKNN xs ys) := by
  intro xs ys
  induction xs, ys using mergeKNN.induct with
  | case1 ys =>
    intro _ hy
    rw [mergeKNN]
    exact hy
  | case2 x xs =>
    intro hx _
    rw [mergeKNN]
    exact hx
  | case3 x xs y ys hlt ih =>
    intro hx hy
    rw [mergeKNN, if_pos hlt]
    rw [List.sorted_cons] at hx ⊢
    refine ⟨?_, ih hx.2 hy⟩
    intro z hz
    have hzm : z ∈ xs ++ (y :: ys) := (mergeKNN_perm xs (y :: ys)).mem_iff.1 hz
    rcases List.mem_append.1 hzm with hm | hm
    · exact hx.1 z hm
    · rcases List.mem_cons.1 hm with rfl | hm2
      · exact F.fle_of_flt hlt
      · rw [List.sorted_cons] at hy
        exact F.fle_trans (F.fle_of_flt hlt) (hy.1 z hm2)
  | case4 x xs y ys hlt ih =>
    intro hx hy
    rw [mergeKNN, if_neg hlt]
    rw [List.sorted_cons] at hy ⊢
    have hyx : F.fle y.2 x.2 := F.fle_of_not_flt hlt
    refine ⟨?_, ih hx hy.2⟩
    intro z hz
    have hzm : z ∈ (x :: xs) ++ ys := (mergeKNN_perm (x :: xs) ys).mem_iff.1 hz
    rcases List.mem_append.1 hzm with hm | hm
    · rcases List.mem_cons.1 hm with rfl | hm2
      · exact hyx
      · rw [List.sorted_cons] at hx
        exact F.fle_trans hyx (hx.1 z hm2)
    · exact hy.1 z hm

instance : IsTrans F F.fle := ⟨fun a b c => F.fle_trans⟩
instance : IsAntisymm F F.fle := ⟨fun a b => F.fle_antisymm⟩
instance : IsTotal F F.fle := ⟨F.fle_total⟩

/-- A sorted list that is a permutation of a population is the population
sorted; its prefixes are the smallest elements in order. -/
theorem sorted_perm_take {l pop : List F} (hs : List.Sorted F.fle l)
    (hperm : List.Perm l pop) :
    ∀ N : ℕ, l.take N = (List.insertionSort F.fle pop).take N := by
  have he : l = List.insertionSort F.fle pop :=
    List.eq_of_perm_of_sorted
      (hperm.trans (List.perm_insertionSort F.fle pop).symm) hs
      (List.sorted_insertionSort F.fle pop)
  intro N
  rw [he]

theorem isEmptyT_iff {β : Type} (t : GTree β) : isEmptyT t = true ↔ gItems t.data = [] := by
  rw [isEmptyT]
  cases gItems t.data <;> simp [List.isEmpty]

/-- The distance the hybrid `KNN` keys an item by: its own tree's box
distance to the query point. -/
def hybridDist (px py pz : ℚ) (x : Item) : F :=
  if x.dims = 2 then boxDist2 (F.fin px) (F.fin py) x.rect2
  else boxDist3 (F.fin px) (F.fin py) (F.fin pz) x.rect3

/-- C2: on every reachable state built from well-formed inserts, hybrid
`KNN` delivers (item, dist) pairs in nondecreasing dist order (single-tree
streams and the two-stream merge alike), the delivered items are exactly
the stored population with their own box distances, and every length-N
prefix carries the N smallest distances over the whole population, in
sorted order. -/
theorem C2_knn (ops : List HOp) (px py pz : ℚ)
    (hins : ∀ x ∈ insItems ops, x.wf) :
    List.Sorted (fun a b : Item × F => F.fle a.2 b.2) ((applyOps ops).knnH px py pz) ∧
    List.Perm (((applyOps ops).knnH px py pz).map Prod.fst) (storedItems (applyOps ops)) ∧
    (∀ x ∈ (applyOps ops).knnH px py pz, x.2 = hybridDist px py pz x.1) ∧
    (∀ N : ℕ, (((applyOps ops).knnH px py pz).take N).map Prod.snd
        = (List.insertionSort F.fle
            ((storedItems (applyOps ops)).map (hybridDist px py pz))).take N) := by
  obtain ⟨hw2, hw3, hp⟩ := applyOps_wf ops
  obtain ⟨d2, d3⟩ := applyOps_dimsOK ops
  have hstw := applyOps_itemsWF ops hins
  have hWn2 : wfN (applyOps ops).tr2.data :=
    (wfN_iff_items _).2 (fun x hx => hstw x (List.mem_append_left _ hx))
  have hWn3 : wfN (applyOps ops).tr3.data :=
    (wfN_iff_items _).2 (fun x hx => hstw x (List.mem_append_right _ hx))
  have h2 := knn2T_spec (applyOps ops).tr2 px py hw2 hWn2
  have h3 := knn3T_spec (applyOps ops).tr3 px py pz hw3 hWn3
  have hd2 : ∀ x ∈ knn2T (applyOps ops).tr2 px py, x.2 = hybridDist px py pz x.1 := by
    intro x hx
    have hdim : x.1.dims = 2 := d2 x.1 (h2.2.2.mem_iff.1 (List.mem_map_of_mem Prod.fst hx))
    rw [hybridDist, if_pos hdim]
    exact (h2.2.1 x hx).2
  have hd3 : ∀ x ∈ knn3T (applyOps ops).tr3 px py pz, x.2 = hybridDist px py pz x.1 := by
    intro x hx
    have hdim : ¬ x.1.dims = 2 := d3 x.1 (h3.2.2.mem_iff.1 (List.mem_map_of_mem Prod.fst hx))
    rw [hybridDist, if_neg hdim]
    exact (h3.2.1 x hx).2
  suffices hmain :
      List.Sorted (fun a b : Item × F => F.fle a.2 b.2) ((applyOps ops).knnH px py pz) ∧
      List.Perm (((applyOps ops).knnH px py pz).map Prod.fst) (storedItems (applyOps ops)) ∧
      (∀ x ∈ (applyOps ops).knnH px py pz, x.2 = hybridDist px py pz x.1) by
    refine ⟨hmain.1, hmain.2.1, hmain.2.2, ?_⟩
    intro N
    rw [List.map_take]
    have hsnd : ((applyOps ops).knnH px py pz).map Prod.snd
        = ((applyOps ops).knnH px py pz).map (fun x => hybridDist px py pz x.1) :=
      List.map_congr_left hmain.2.2
    have hsort : List.Sorted F.fle (((applyOps ops).knnH px py pz).map Prod.snd) :=
      List.Pairwise.map Prod.snd (fun a b hab => hab) hmain.1
    have hperm : List.Perm (((applyOps ops).knnH px py pz).map Prod.snd)
        ((storedItems (applyOps ops)).map (hybridDist px py pz)) := by
      rw [hsnd]
      have hmm : ((applyOps ops).knnH px py pz).map (fun x => hybridDist px py pz x.1)
          = (((applyOps ops).knnH px py pz).map Prod.fst).map (hybridDist px py pz) := by
        rw [List.map_map]
        rfl
      rw [hmm]
      exact hmain.2.1.map _
    exact sorted_perm_take hsort hperm N
  rw [Hybrid.knnH]
  by_cases h23 : isEmptyT (applyOps ops).tr2 && isEmptyT (applyOps ops).tr3
  · rw [if_pos h23]
    rw [Bool.and_eq_true] at h23
    obtain ⟨he2, he3⟩ := h23
    have hn2 := (isEmptyT_iff _).1 he2
    have hn3 := (isEmptyT_iff _).1 he3
    refine ⟨List.sorted_nil, ?_, ?_⟩
    · rw [storedItems, hn2, hn3]
      exact List.Perm.refl _
    · intro x hx
      cases hx
  · rw [if_neg h23]
    by_cases h3e : isEmptyT (applyOps ops).tr3
    · rw [if_pos h3e]
      have hn3 := (isEmptyT_iff _).1 h3e
      refine ⟨h2.1, ?_, hd2⟩
      rw [storedItems, hn3, List.append_nil]
      exact h2.2.2
    · rw [if_neg h3e]
      by_cases h2e : isEmptyT (applyOps ops).tr2
      · rw [if_pos h2e]
        have hn2 := (isEmptyT_iff _).1 h2e
        refine ⟨h3.1, ?_, hd3⟩
        rw [storedItems, hn2, List.nil_append]
        exact h3.2.2
      · rw [if_neg h2e]
        refine ⟨mergeKNN_sorted _ _ h2.1 h3.1, ?_, ?_⟩
        · refine ((mergeKNN_perm _ _).map Prod.fst).trans ?_
          rw [List.map_append]
          exact h2.2.2.append h3.2.2
        · intro x hx
          have hxm := (mergeKNN_perm _ _).mem_iff.1 hx
          rcases List.mem_append.1 hxm with hm | hm
          · exact hd2 x hm
          · exact hd3 x hm

/-- Witness for C2 on the two-item scenario (one 2D point, one 3D box),
query point at the origin. -/
theorem C2_knn_witness :
    (∀ x ∈ insItems c7ops, x.wf) ∧
      (List.Sorted (fun a b : Item × F => F.fle a.2 b.2) ((applyOps c7ops).knnH 0 0 0) ∧
        List.Perm (((applyOps c7ops).knnH 0 0 0).map Prod.fst) (storedItems (applyOps c7ops)) ∧
        (∀ x ∈ (applyOps c7ops).knnH 0 0 0, x.2 = hybridDist 0 0 0 x.1) ∧
        (∀ N : ℕ, (((applyOps c7ops).knnH 0 0 0).take N).map Prod.snd
            = (List.insertionSort F.fle
                ((storedItems (applyOps c7ops)).map (hybridDist 0 0 0))).take N)) :=
  ⟨by decide, C2_knn c7ops 0 0 0 (by decide)⟩

/-! ## The hybrid KNN mux protocol (`rtree.go` lines 89–151)

The two producers (`tr2.KNN`/`tr3.KNN` goroutines) and the consumer loop
share `queues[0]`, `queues[1]`, `dones` and `exit` under one mutex; each
lock region is one atomic step of the transition system below.  Stream
elements are abstracted to counts: `rem0`/`rem1` elements left to yield,
`q0`/`q1` queue occupancies, `delivered` callbacks made. -/

structure MuxState where
  rem0 : ℕ
  rem1 : ℕ
  q0 : ℕ
  q1 : ℕ
  done0 : Bool
  done1 : Bool
  delivered : ℕ
  exit : Bool
deriving DecidableEq, Repr

/-- One lock region.  `yield` is `fn(idx)`'s closure: unless `exit` is set
it appends to its queue and returns — it never waits on the consumer.
`finish` is `qdone`; `deliver` is one iteration of the consumer's
both-nonempty merge loop (either queue's head may win the comparison);
`drain` is the `dones == 2` epilogue. -/
inductive MuxStep : MuxState → MuxState → Prop
  | yield0 (s : MuxState) (h : 0 < s.rem0) (hex : s.exit = false) :
      MuxStep s { s with rem0 := s.rem0 - 1, q0 := s.q0 + 1 }
  | yield1 (s : MuxState) (h : 0 < s.rem1) (hex : s.exit = false) :
      MuxStep s { s with rem1 := s.rem1 - 1, q1 := s.q1 + 1 }
  | finish0 (s : MuxState) (h : s.rem0 = 0) (hd : s.done0 = false) :
      MuxStep s { s with done0 := true }
  | finish1 (s : MuxState) (h : s.rem1 = 0) (hd : s.done1 = false) :
      MuxStep s { s with done1 := true }
  | deliver0 (s : MuxState) (h0 : 0 < s.q0) (h1 : 0 < s.q1) :
      MuxStep s { s with q0 := s.q0 - 1, delivered := s.delivered + 1 }
  | deliver1 (s : MuxState) (h0 : 0 < s.q0) (h1 : 0 < s.q1) :
      MuxStep s { s with q1 := s.q1 - 1, delivered := s.delivered + 1 }
  | drain (s : MuxState) (h0 : s.done0 = true) (h1 : s.done1 = true)
      (hex : s.exit = false) :
      MuxStep s { s with q0 := 0, q1 := 0, delivered := s.delivered + s.q0 + s.q1, exit := true }

/-- Both producers started, nothing queued or delivered. -/
def initMux (n0 n1 : ℕ) : MuxState := ⟨n0, n1, 0, 0, false, false, 0, false⟩

/-- Reachability under the protocol. -/
def MuxReach : MuxState → MuxState → Prop := Relation.ReflTransGen MuxStep

/-- C9 counterexample: a producer is two elements ahead of the consumer in
a reachable state — `fn` appends under the mutex and immediately returns
`true`; there is no rendezvous with the consumer. -/
theorem C9_counterexample :
    ∃ s : MuxState, MuxReach (initMux 2 2) s ∧ ¬ s.q0 ≤ 1 := by
  refine ⟨⟨0, 2, 2, 0, false, false, 0, false⟩, ?_, by decide⟩
  have h1 : MuxStep (initMux 2 2) ⟨1, 2, 1, 0, false, false, 0, false⟩ :=
    MuxStep.yield0 (initMux 2 2) (by decide) rfl
  have h2 : MuxStep ⟨1, 2, 1, 0, false, false, 0, false⟩
      ⟨0, 2, 2, 0, false, false, 0, false⟩ :=
    MuxStep.yield0 ⟨1, 2, 1, 0, false, false, 0, false⟩ (by decide) rfl
  exact Relation.ReflTransGen.head h1 (Relation.ReflTransGen.head h2 Relation.ReflTransGen.refl)

/-- C9 amended: producers never wait for the consumer — a yield step is
enabled whenever the producer has an element left and `exit` is unset,
regardless of queue occupancy, so a producer can run arbitrarily far
ahead: its whole stream can sit in the queue. -/
theorem C9_no_rendezvous :
    (∀ s : MuxState, 0 < s.rem0 → s.exit = false →
      MuxStep s { s with rem0 := s.rem0 - 1, q0 := s.q0 + 1 }) ∧
    ∀ n : ℕ, ∃ s : MuxState, MuxReach (initMux n 0) s ∧ s.q0 = n ∧ s.rem0 = 0 := by
  constructor
  · intro s h hex
    exact MuxStep.yield0 s h hex
  · intro n
    refine ⟨⟨0, 0, n, 0, false, false, 0, false⟩, ?_, rfl, rfl⟩
    have hgen : ∀ r q : ℕ,
        MuxReach ⟨r, 0, q, 0, false, false, 0, false⟩
          ⟨0, 0, q + r, 0, false, false, 0, false⟩ := by
      intro r
      induction r with
      | zero =>
        intro q
        exact Relation.ReflTransGen.refl
      | succ r ih =>
        intro q
        have hstep : MuxStep ⟨r + 1, 0, q, 0, false, false, 0, false⟩
            ⟨r, 0, q + 1, 0, false, false, 0, false⟩ :=
          MuxStep.yield0 ⟨r + 1, 0, q, 0, false, false, 0, false⟩ (Nat.succ_pos r) rfl
        have htail := ih (q + 1)
        have heq : q + 1 + r = q + (r + 1) := by omega
        rw [heq] at htail
        exact Relation.ReflTransGen.head hstep htail
    have h0 := hgen n 0
    have heq : (0 : ℕ) + n = n := by omega
    rw [heq] at h0
    exact h0

/-- Witness for C9's amended theorem is not needed (no hypotheses), but a
concrete instantiation: with a three-element 2D stream the whole stream can
be queued. -/
theorem C9_no_rendezvous_witness :
    ∃ s : MuxState, MuxReach (initMux 3 0) s ∧ s.q0 = 3 ∧ s.rem0 = 0 :=
  C9_no_rendezvous.2 3
